import Mathlib

/-!
# MapReduce coordinator (`src/mr/master.go`, `src/mr/rpc.go`)

A shallow embedding of the coordinator of the MapReduce lab: the two task
tables, the phase, the RPC handlers `ReplyTaskToWorker` and
`ReportFinishedTask`, the phase check `CheckMasterStatus`, the watchdog
`TimeOutDetection` and the constructor `MakeMaster`.

Modelling decisions.

* Go `int` values (task ids, statuses, task types, `nReduce`) are `Int`.  No
  arithmetic is done on them besides the loop counters of the two table
  constructors, so no overflow can occur.
* A Go `map[string]*TaskDetail` is a list of entries without repeated keys
  (`TaskStatusMap`).  Every entry owns its own `TaskDetail`, so writing through
  the pointer is an in-place update of that entry.
* Reading `m[file].TaskStatus` for a key that is absent dereferences a nil
  pointer; the handlers that can do so return `Except Fault _`.
* The order in which `range` visits a map is not fixed by Go.  The scan of
  `GetUnStartedTask` therefore takes the visiting order as a parameter `ord`
  (see `TaskStatusMap.rangeOrder`): for every `ord` the entries are visited
  once each (`TaskStatusMap.rangeOrder_perm`), and every order of the entries
  is obtained for some `ord` (`TaskStatusMap.rangeOrder_of_perm`).
* `GetUnStartedTask`, `ReportFinishedTask` and `TimeOutDetection` hold the
  lock from entry to return, so each is one atomic step; `go f()` is recorded
  in the list of started goroutines that the handler returns.
* The lock calls of each function are recorded in `Routine.accesses`.
  `CheckMasterStatus` is started with `go` and does not hold the lock from its
  check to its write.  `CheckMasterStatus_decide` and
  `CheckMasterStatus_commit` are the function before and from its call of
  `Lock`; `CheckMasterStatus_at` gives it access by access (the reads of the
  phase, the scan under the read lock, the write under the write lock).
* There are two step functions.  `fineStep` is the program: a report starts a
  `CheckMasterStatus` goroutine, and every access of the goroutine to the
  shared state is a step of its own, so that other steps can take place
  between any two of them.  `step` is the schedule in which every
  `CheckMasterStatus` runs to its end right after the report that started it;
  its executions made of calls of the handlers and of watchdogs are executions
  of `fineStep` (`run_refines`), not the other way round.  Statements about
  `step` and `run` are statements about that schedule only; the invariants of
  the tables and of the watchdogs are proved for `fineStep` as well
  (`fineRun_progress`, `fineRun_finished`, `fineRun_watchdogs`), and the
  monotonicity of the phase, which holds in the schedule, fails in the program
  (`lateCheck`).
-/

namespace MR

/-! ## Constants -/

/-- Go: `type TaskTypes int`. -/
abbrev TaskTypes := Int

/-- Go: `const ( Free = iota; MapTask; ReduceTask )`. -/
abbrev Free : Int := 0
/-- Second constant of the task-type block. -/
abbrev MapTask : Int := 1
/-- Third constant of the task-type block. -/
abbrev ReduceTask : Int := 2

/-- Go: `const ( UnStarted = iota; Processing; Finished; UnGenerated )`. -/
abbrev UnStarted : Int := 0
/-- Second constant of the status block. -/
abbrev Processing : Int := 1
/-- Third constant of the status block. -/
abbrev Finished : Int := 2
/-- Fourth constant of the status block (not used by the coordinator). -/
abbrev UnGenerated : Int := 3

/-! ## Task tables -/

/-- Go: `type TaskDetail struct { TaskId int; TaskStatus int }`. -/
structure TaskDetail where
  TaskId : Int
  TaskStatus : Int
deriving DecidableEq, Repr

/-- Go: `type TaskStatusMap map[string]*TaskDetail`: entries with pairwise
distinct keys. -/
structure TaskStatusMap where
  entries : List (String × TaskDetail)
  nodup : (entries.map Prod.fst).Nodup

namespace TaskStatusMap

instance : DecidableEq TaskStatusMap := fun s t =>
  if h : s.entries = t.entries then
    isTrue (by cases s; cases t; cases h; rfl)
  else isFalse (fun e => h (by rw [e]))

/-- Go: `make(TaskStatusMap)`. -/
def empty : TaskStatusMap := ⟨[], List.nodup_nil⟩

/-- The keys of the table. -/
def keys (t : TaskStatusMap) : List String := t.entries.map Prod.fst

/-- Go: `len(t)`. -/
def len (t : TaskStatusMap) : Nat := t.entries.length

/-- Go: `t[k]`; `none` is the nil pointer obtained for an absent key. -/
def get (t : TaskStatusMap) (k : String) : Option TaskDetail :=
  (t.entries.find? (fun e => e.1 = k)).map Prod.snd

/-- Entry list after `t[k] = &v`: the entry of `k` is replaced when the key is
present, a new entry is added otherwise. -/
def putEntries (es : List (String × TaskDetail)) (k : String) (v : TaskDetail) :
    List (String × TaskDetail) :=
  if k ∈ es.map Prod.fst then es.map (fun e => if e.1 = k then (k, v) else e)
  else es ++ [(k, v)]

/-- Go: `t[k] = &v`. -/
def put (t : TaskStatusMap) (k : String) (v : TaskDetail) : TaskStatusMap :=
  ⟨putEntries t.entries k v, by
    have hkeys : (putEntries t.entries k v).map Prod.fst
        = if k ∈ t.entries.map Prod.fst then t.entries.map Prod.fst
          else t.entries.map Prod.fst ++ [k] := by
      unfold putEntries
      split
      · rw [List.map_map]
        apply List.map_congr_left
        intro e _
        by_cases h : e.1 = k <;> simp [h]
      · simp
    rw [hkeys]
    split
    · exact t.nodup
    · rename_i h
      exact List.Nodup.append t.nodup (List.nodup_singleton k) (by simpa using h)⟩

/-- Entry list after `t[k].TaskStatus = s` for a key that is present. -/
def setStatusEntries (es : List (String × TaskDetail)) (k : String) (s : Int) :
    List (String × TaskDetail) :=
  es.map (fun e => if e.1 = k then (e.1, { e.2 with TaskStatus := s }) else e)

/-- Go: `t[k].TaskStatus = s`, the key being present (the write goes through
the pointer stored in the map; the entry keeps its `TaskId`). -/
def setStatus (t : TaskStatusMap) (k : String) (s : Int) : TaskStatusMap :=
  ⟨setStatusEntries t.entries k s, by
    have hkeys : (setStatusEntries t.entries k s).map Prod.fst = t.entries.map Prod.fst := by
      unfold setStatusEntries
      rw [List.map_map]
      apply List.map_congr_left
      intro e _
      by_cases h : e.1 = k <;> simp [h]
    rw [hkeys]
    exact t.nodup⟩

/-- The order in which a `range` loop visits the entries of the table.  Go
leaves it unspecified; here it is fixed by a list of keys `ord`: the entries
whose key occurs in `ord` come first, in the order of `ord`, and the remaining
entries follow in table order.  Every entry is visited exactly once. -/
def rangeOrder (t : TaskStatusMap) (ord : List String) : List (String × TaskDetail) :=
  (ord.dedup.map (fun k => t.entries.filter (fun e => e.1 = k))).flatten
    ++ t.entries.filter (fun e => e.1 ∉ ord)

/-- The scan `for fileName, taskDetail := range t { if taskDetail.TaskStatus ==
UnStarted { ...; return } }` of `GetUnStartedTask`: the first visited entry
whose status is `UnStarted`, if there is one. -/
def scanUnStarted (t : TaskStatusMap) (ord : List String) : Option (String × TaskDetail) :=
  (t.rangeOrder ord).find? (fun e => e.2.TaskStatus = UnStarted)

/-- The loop `for _, v := range t { if v.TaskStatus != Finished { return false } }
return true` of `IsPhaseFinished`.  The answer does not depend on the visiting
order. -/
def allFinished (t : TaskStatusMap) : Bool :=
  t.entries.all (fun e => decide (e.2.TaskStatus = Finished))

end TaskStatusMap

/-! ## The coordinator -/

/-- Go: `type Master struct`; the lock `RWMux` is not part of the data. -/
structure Master where
  MapTaskStatus : TaskStatusMap
  MapTaskNum : Int
  MapTaskFinished : Bool
  ReduceTaskNum : Int
  ReduceTaskStatus : TaskStatusMap
  ReduceTaskFinished : Bool
  TaskStatus : Int
deriving DecidableEq

/-- Go: `TaskReply` of `rpc.go`. -/
structure TaskReply where
  MapTaskNum : Int
  ReduceTaskNum : Int
  File : String
  TaskId : Int
  TaskType : TaskTypes
  Ok : Bool
deriving DecidableEq, Repr

/-- Go: `TaskFinishedArgs` of `rpc.go`. -/
structure TaskFinishedArgs where
  TaskType : TaskTypes
  File : String
deriving DecidableEq, Repr

/-- Go: `TaskFinishedReply` of `rpc.go`. -/
structure TaskFinishedReply where
  Ok : Bool
deriving DecidableEq, Repr

/-- Why a step has no successor state. -/
inductive Fault where
  /-- A run-time panic of the Go program: a field of the nil pointer returned
  by a failed map lookup is accessed. -/
  | nilDereference
  /-- Not a behaviour of the program: a trace asks for the firing of a watchdog
  that no assignment has started, or that has fired already. -/
  | notArmed
  /-- Not a behaviour of the program: a trace asks for a step of a
  `CheckMasterStatus` goroutine that is not there. -/
  | notStarted
deriving DecidableEq, Repr

deriving instance DecidableEq for Except

/-- The goroutines a handler starts with `go`. -/
inductive Goroutine where
  | CheckMasterStatus
  | TimeOutDetection (file : String) (taskType : Int)
deriving DecidableEq, Repr

/-- Go: `strconv.Itoa`. -/
def Itoa (i : Int) : String := toString i

/-- Go: `GetReduceFileName`. -/
def GetReduceFileName (index : Int) : String := "mr-out-" ++ Itoa index

/-- Go: `InitMapTaskStatus`. -/
def InitMapTaskStatus (files : List String) : TaskStatusMap :=
  files.enum.foldl
    (fun taskStatusMap (p : Nat × String) =>
      taskStatusMap.put p.2 { TaskId := (p.1 : Int), TaskStatus := UnStarted })
    TaskStatusMap.empty

/-- Go: `InitReduceTaskStatus`; the loop `for i := 0; i < nReduce; i++` runs
`nReduce` times, and not at all when `nReduce <= 0`. -/
def InitReduceTaskStatus (nReduce : Int) : TaskStatusMap :=
  (List.range nReduce.toNat).foldl
    (fun taskStatusMap (i : Nat) =>
      taskStatusMap.put (GetReduceFileName (i : Int))
        { TaskId := (i : Int), TaskStatus := UnStarted })
    TaskStatusMap.empty

/-- Go: `MakeMaster` (the call `master.server()` starts the RPC listener and
does not touch the data). -/
def MakeMaster (files : List String) (nReduce : Int) : Master :=
  { MapTaskStatus := InitMapTaskStatus files
    MapTaskNum := (files.length : Int)
    MapTaskFinished := false
    ReduceTaskNum := nReduce
    ReduceTaskStatus := InitReduceTaskStatus nReduce
    ReduceTaskFinished := false
    TaskStatus := MapTask }

/-- What `GetUnStartedTask` returns, together with the coordinator after the
call and the goroutines it started. -/
structure Assignment where
  master : Master
  file : String
  taskType : TaskTypes
  taskId : Int
  ok : Bool
  started : List Goroutine
deriving DecidableEq

/-- Go: `GetUnStartedTask`; `ord` is the visiting order of the `range` loop. -/
def GetUnStartedTask (master : Master) (ord : List String) : Assignment :=
  if master.TaskStatus = MapTask then
    match master.MapTaskStatus.scanUnStarted ord with
    | some (fileName, taskDetail) =>
      { master := { master with
          MapTaskStatus := master.MapTaskStatus.setStatus fileName Processing }
        file := fileName, taskType := MapTask, taskId := taskDetail.TaskId, ok := true
        started := [Goroutine.TimeOutDetection fileName MapTask] }
    | none =>
      { master := master, file := "", taskType := MapTask, taskId := 0, ok := false
        started := [] }
  else if master.TaskStatus = ReduceTask then
    match master.ReduceTaskStatus.scanUnStarted ord with
    | some (fileName, taskDetail) =>
      { master := { master with
          ReduceTaskStatus := master.ReduceTaskStatus.setStatus fileName Processing }
        file := fileName, taskType := ReduceTask, taskId := taskDetail.TaskId, ok := true
        started := [Goroutine.TimeOutDetection fileName ReduceTask] }
    | none =>
      { master := master, file := "", taskType := ReduceTask, taskId := 0, ok := false
        started := [] }
  else
    { master := master, file := "", taskType := Free, taskId := 0, ok := false
      started := [] }

/-- Go: `ReplyTaskToWorker`. -/
def ReplyTaskToWorker (master : Master) (ord : List String) :
    Master × TaskReply × List Goroutine :=
  let r := GetUnStartedTask master ord
  (r.master,
   { ReduceTaskNum := r.master.ReduceTaskNum
     MapTaskNum := r.master.MapTaskNum
     TaskId := r.taskId
     File := r.file
     TaskType := r.taskType
     Ok := r.ok },
   r.started)

/-- Go: `ReportFinishedTask`.  `master.MapTaskStatus[file].TaskStatus = Finished`
writes through the pointer the lookup returns, which is nil when `file` is not
a key. -/
def ReportFinishedTask (master : Master) (args : TaskFinishedArgs) :
    Except Fault (Master × TaskFinishedReply × List Goroutine) :=
  let file := args.File
  if args.TaskType = MapTask then
    match master.MapTaskStatus.get file with
    | none => .error Fault.nilDereference
    | some _ =>
      .ok ({ master with MapTaskStatus := master.MapTaskStatus.setStatus file Finished },
           { Ok := true }, [Goroutine.CheckMasterStatus])
  else if args.TaskType = ReduceTask then
    match master.ReduceTaskStatus.get file with
    | none => .error Fault.nilDereference
    | some _ =>
      .ok ({ master with ReduceTaskStatus := master.ReduceTaskStatus.setStatus file Finished },
           { Ok := true }, [Goroutine.CheckMasterStatus])
  else
    .ok (master, { Ok := false }, [])

/-- Go: `IsPhaseFinished`. -/
def IsPhaseFinished (master : Master) (taskType : TaskTypes) : Bool :=
  if taskType = MapTask then master.MapTaskStatus.allFinished
  else if taskType = ReduceTask then master.ReduceTaskStatus.allFinished
  else true

/-- Go: `CheckMasterStatus`. -/
def CheckMasterStatus (master : Master) : Master :=
  if master.TaskStatus = MapTask then
    if IsPhaseFinished master MapTask then { master with TaskStatus := ReduceTask }
    else master
  else if master.TaskStatus = ReduceTask then
    if IsPhaseFinished master ReduceTask then { master with TaskStatus := Free }
    else master
  else master

/-- Go: `ReportFinishedTask` followed by the run of the `CheckMasterStatus`
goroutine it has started, if it has started one. -/
def reportAndCheck (master : Master) (args : TaskFinishedArgs) :
    Except Fault (Master × TaskFinishedReply) :=
  match ReportFinishedTask master args with
  | .error e => .error e
  | .ok (m, reply, started) =>
    .ok (if Goroutine.CheckMasterStatus ∈ started then CheckMasterStatus m else m, reply)

/-- Go: `Done`. -/
def Done (master : Master) : Bool := decide (master.TaskStatus = Free)

/-- Go: `TimeOutDetection`, from the moment the sleep is over.  The status is
read through the pointer the lookup returns, which is nil when `file` is not a
key. -/
def TimeOutDetection (master : Master) (file : String) (taskType : Int) :
    Except Fault Master :=
  if taskType = MapTask then
    match master.MapTaskStatus.get file with
    | none => .error Fault.nilDereference
    | some d =>
      if d.TaskStatus = Processing then
        .ok { master with MapTaskStatus := master.MapTaskStatus.setStatus file UnStarted }
      else .ok master
  else if taskType = ReduceTask then
    match master.ReduceTaskStatus.get file with
    | none => .error Fault.nilDereference
    | some d =>
      if d.TaskStatus = Processing then
        .ok { master with ReduceTaskStatus := master.ReduceTaskStatus.setStatus file UnStarted }
      else .ok master
  else .ok master

/-! ## Records addressed by task type and file -/

/-- The record of task `(taskType, file)`: the lookup in the table that
`taskType` selects in `ReportFinishedTask` and `TimeOutDetection`. -/
def Master.record (master : Master) (taskType : Int) (file : String) : Option TaskDetail :=
  if taskType = MapTask then master.MapTaskStatus.get file
  else if taskType = ReduceTask then master.ReduceTaskStatus.get file
  else none

/-- The status of task `(taskType, file)`, when it exists. -/
def Master.statusOf (master : Master) (taskType : Int) (file : String) : Option Int :=
  (master.record taskType file).map TaskDetail.TaskStatus

/-- The write `table[file].TaskStatus = s` in the table that `taskType` selects. -/
def Master.setStatus (master : Master) (taskType : Int) (file : String) (s : Int) : Master :=
  if taskType = MapTask then
    { master with MapTaskStatus := master.MapTaskStatus.setStatus file s }
  else if taskType = ReduceTask then
    { master with ReduceTaskStatus := master.ReduceTaskStatus.setStatus file s }
  else master

/-- Every record of the table that `taskType` selects is `Finished`. -/
def Master.allDone (master : Master) (taskType : Int) : Prop :=
  ∀ file, master.statusOf taskType file = none
    ∨ master.statusOf taskType file = some Finished

/-- The keys of the `UnStarted` records of the table that `taskType` selects,
in table order. -/
def Master.unstarted (master : Master) (taskType : Int) : List String :=
  (if taskType = MapTask then master.MapTaskStatus.keys
    else if taskType = ReduceTask then master.ReduceTaskStatus.keys
    else []).filter (fun file => decide (master.statusOf taskType file = some UnStarted))

/-- Position of a phase in the order Mapping, Reducing, AllDone. -/
def phaseRank (phase : Int) : Nat :=
  if phase = MapTask then 0 else if phase = ReduceTask then 1 else 2

/-! ## Serialised executions -/

/-- The coordinator together with the watchdog goroutines that have been
started and have not fired yet (`armed`) and the list of all assignments made
so far (`handed`). -/
structure Sys where
  master : Master
  armed : List (String × Int)
  handed : List (String × Int)
deriving DecidableEq

/-- The system right after `MakeMaster`. -/
def MakeSys (files : List String) (nReduce : Int) : Sys :=
  { master := MakeMaster files nReduce, armed := [], handed := [] }

/-- The watchdogs among the goroutines a handler started. -/
def watchdogs : List Goroutine → List (String × Int)
  | [] => []
  | Goroutine.TimeOutDetection file taskType :: gs => (file, taskType) :: watchdogs gs
  | Goroutine.CheckMasterStatus :: gs => watchdogs gs

/-- One operation of the schedule in which every `CheckMasterStatus` runs to
its end right after the report that started it. -/
inductive Op where
  /-- A worker asks for a task; `ord` is the visiting order of the scan. -/
  | GetUnStartedTask (ord : List String)
  /-- A worker reports a task; the `CheckMasterStatus` goroutine the handler
  starts runs right after it. -/
  | ReportFinishedTask (taskType : Int) (file : String)
  /-- A run of `CheckMasterStatus` on its own. -/
  | CheckMasterStatus
  /-- The sleep of an armed watchdog is over. -/
  | TimeOutDetection (file : String) (taskType : Int)
  /-- The driver polls `Done`. -/
  | Done
deriving DecidableEq, Repr

/-- One step of the schedule in which every `CheckMasterStatus` runs to its
end right after the report that started it (`reportAndCheck`).  The program
has more executions than these, see `fineStep`. -/
def step (s : Sys) : Op → Except Fault Sys
  | Op.GetUnStartedTask ord =>
    let r := GetUnStartedTask s.master ord
    .ok { master := r.master
          armed := s.armed ++ watchdogs r.started
          handed := s.handed ++ watchdogs r.started }
  | Op.ReportFinishedTask taskType file =>
    match reportAndCheck s.master { TaskType := taskType, File := file } with
    | .error e => .error e
    | .ok (m, _) => .ok { s with master := m }
  | Op.CheckMasterStatus => .ok { s with master := CheckMasterStatus s.master }
  | Op.TimeOutDetection file taskType =>
    if (file, taskType) ∈ s.armed then
      match TimeOutDetection s.master file taskType with
      | .error e => .error e
      | .ok m => .ok { s with master := m, armed := s.armed.erase (file, taskType) }
    else .error Fault.notArmed
  | Op.Done => .ok s

/-- A finite sequence of steps; it stops at the first step without successor. -/
def run (s : Sys) : List Op → Except Fault Sys
  | [] => .ok s
  | op :: ops =>
    match step s op with
    | .error e => .error e
    | .ok s' => run s' ops

/-- The state a sequence of steps ends in (the state before the first step
without successor, if there is one). -/
def exec (s : Sys) (ops : List Op) : Sys :=
  match run s ops with
  | .ok s' => s'
  | .error _ => s

/-- Every `ReportFinishedTask` of the trace names a task that an earlier
`GetUnStartedTask` of the execution has handed out. -/
def reportsAssigned (s : Sys) : List Op → Bool
  | [] => true
  | op :: ops =>
    (match op with
      | Op.ReportFinishedTask taskType file => decide ((file, taskType) ∈ s.handed)
      | _ => true)
    && (match step s op with
      | .error _ => true
      | .ok s' => reportsAssigned s' ops)

/-- The phase agrees with the progress of the two tables, in an execution in
which only assigned tasks are reported: while Mapping the Map table is not
complete, no Reduce record is `Finished` and no Reduce task has been handed
out; while Reducing the Map table is complete and the Reduce table is not;
when the job is done both are complete. -/
def PhaseInv (s : Sys) : Prop :=
  (∃ file, s.master.statusOf ReduceTask file ≠ none)
  ∧ ((s.master.TaskStatus = MapTask ∧ ¬ s.master.allDone MapTask
        ∧ (∀ file, s.master.statusOf ReduceTask file ≠ some Finished)
        ∧ (∀ file, (file, ReduceTask) ∉ s.handed))
    ∨ (s.master.TaskStatus = ReduceTask ∧ s.master.allDone MapTask
        ∧ ¬ s.master.allDone ReduceTask)
    ∨ (s.master.TaskStatus = Free ∧ s.master.allDone MapTask
        ∧ s.master.allDone ReduceTask))

/-- The parts of the coordinator that no operation touches are the same in
`master` and `master'`: the keys of the two tables (as lists, so no record is
added or removed), the `TaskId` stored under every key, `MapTaskNum` and
`ReduceTaskNum`. -/
def SameFrame (master master' : Master) : Prop :=
  master'.MapTaskStatus.keys = master.MapTaskStatus.keys
  ∧ master'.ReduceTaskStatus.keys = master.ReduceTaskStatus.keys
  ∧ (∀ (taskType : Int) (file : String),
      (master'.record taskType file).map TaskDetail.TaskId
        = (master.record taskType file).map TaskDetail.TaskId)
  ∧ master'.MapTaskNum = master.MapTaskNum
  ∧ master'.ReduceTaskNum = master.ReduceTaskNum

/-- Every task has at most one armed watchdog, exactly one while it is
`Processing`, and none while it is `UnStarted`. -/
def WatchdogInv (s : Sys) : Prop :=
  ∀ (taskType : Int) (file : String),
    s.armed.count (file, taskType) ≤ 1
    ∧ (s.master.statusOf taskType file = some Processing
        → s.armed.count (file, taskType) = 1)
    ∧ (s.master.statusOf taskType file = some UnStarted
        → s.armed.count (file, taskType) = 0)

/-! ## Lock regions -/

/-- The calls on the lock `RWMux` and the accesses to the shared data (the
phase `TaskStatus` and the two tables) that a function makes. -/
inductive Access where
  | Lock
  | Unlock
  | RLock
  | RUnlock
  | readPhase
  | writePhase
  | readTables
  | writeTables
deriving DecidableEq, Repr

/-- The functions of `master.go` that touch the shared data. -/
inductive Routine where
  | GetUnStartedTask
  | ReportFinishedTask
  | CheckMasterStatus
  | IsPhaseFinished
  | TimeOutDetection
  | Done
deriving DecidableEq, Repr

/-- The lock calls and data accesses of each function, in program order (a
deferred `Unlock` runs at the return; calls of other functions are expanded;
for `CheckMasterStatus` the path that advances the phase; for
`TimeOutDetection` the part after the sleep). -/
def Routine.accesses : Routine → List Access
  | Routine.GetUnStartedTask =>
    [Access.Lock, Access.readPhase, Access.readTables, Access.writeTables, Access.Unlock]
  | Routine.ReportFinishedTask =>
    [Access.Lock, Access.readTables, Access.writeTables, Access.Unlock]
  | Routine.CheckMasterStatus =>
    [Access.readPhase, Access.RLock, Access.readTables, Access.RUnlock,
     Access.Lock, Access.writePhase, Access.Unlock]
  | Routine.IsPhaseFinished => [Access.RLock, Access.readTables, Access.RUnlock]
  | Routine.TimeOutDetection =>
    [Access.Lock, Access.readTables, Access.writeTables, Access.Unlock]
  | Routine.Done => [Access.readPhase]

/-- The access is a read or a write of the shared data. -/
def Access.isData : Access → Bool
  | Access.readPhase | Access.writePhase | Access.readTables | Access.writeTables => true
  | _ => false

/-- The access is a read of the shared data. -/
def Access.isRead : Access → Bool
  | Access.readPhase | Access.readTables => true
  | _ => false

/-- All data accesses of the sequence lie in one lock region that spans the
whole sequence: it starts with `Lock` and ends with `Unlock` with only data
accesses in between, or, for reads only, starts with `RLock` and ends with
`RUnlock`. -/
def lockedAcross : List Access → Bool
  | Access.Lock :: rest =>
    decide (rest.getLast? = some Access.Unlock) && rest.dropLast.all Access.isData
  | Access.RLock :: rest =>
    decide (rest.getLast? = some Access.RUnlock) && rest.dropLast.all Access.isRead
  | _ => false

/-- Go: `CheckMasterStatus` up to the call of `master.RWMux.Lock()`: the phase
that the function is going to write, if it is going to write one.  The phase
is read without lock and the table under the read lock of `IsPhaseFinished`,
which is released before the write lock is asked for. -/
def CheckMasterStatus_decide (master : Master) : Option Int :=
  if master.TaskStatus = MapTask then
    if IsPhaseFinished master MapTask then some ReduceTask else none
  else if master.TaskStatus = ReduceTask then
    if IsPhaseFinished master ReduceTask then some Free else none
  else none

/-- Go: `CheckMasterStatus` from the moment it holds the write lock:
`master.TaskStatus = phase`, in the state the coordinator has by then. -/
def CheckMasterStatus_commit (master : Master) (phase : Int) : Master :=
  { master with TaskStatus := phase }

/-! ## Executions in which `CheckMasterStatus` runs as a goroutine -/

/-- A point of `CheckMasterStatus` (master.go:132-147) at which the goroutine
is about to make its next access to the shared state. -/
inductive CheckPoint where
  /-- About to evaluate `master.TaskStatus == MapTask`, without lock. -/
  | entry
  /-- About to evaluate `master.TaskStatus == ReduceTask`, without lock; the
  comparison with `MapTask` was false. -/
  | elseIf
  /-- About to call `master.IsPhaseFinished(MapTask)`. -/
  | scanMap
  /-- About to call `master.IsPhaseFinished(ReduceTask)`. -/
  | scanReduce
  /-- About to call `master.RWMux.Lock()` and write `ReduceTask`. -/
  | writeReduce
  /-- About to call `master.RWMux.Lock()` and write `Free`. -/
  | writeFree
deriving DecidableEq, Repr

/-- Go: the access that a `CheckMasterStatus` goroutine makes at a point: the
coordinator after it, and the point the goroutine goes to, `none` when it
returns.  `IsPhaseFinished` holds the read lock over its scan and the write is
made under the write lock, so each of the accesses is atomic. -/
def CheckMasterStatus_at (master : Master) : CheckPoint → Master × Option CheckPoint
  | CheckPoint.entry =>
    (master, some (if master.TaskStatus = MapTask then CheckPoint.scanMap
                   else CheckPoint.elseIf))
  | CheckPoint.elseIf =>
    (master, if master.TaskStatus = ReduceTask then some CheckPoint.scanReduce else none)
  | CheckPoint.scanMap =>
    (master, if IsPhaseFinished master MapTask then some CheckPoint.writeReduce else none)
  | CheckPoint.scanReduce =>
    (master, if IsPhaseFinished master ReduceTask then some CheckPoint.writeFree else none)
  | CheckPoint.writeReduce => ({ master with TaskStatus := ReduceTask }, none)
  | CheckPoint.writeFree => ({ master with TaskStatus := Free }, none)

/-- The coordinator and its goroutines: the armed watchdogs, and for every
`CheckMasterStatus` goroutine that has been started and has not returned the
point at which it stands (`checks`). -/
structure FineSys where
  master : Master
  armed : List (String × Int)
  checks : List CheckPoint
deriving DecidableEq

/-- The system right after `MakeMaster`: no goroutine is there. -/
def MakeFineSys (files : List String) (nReduce : Int) : FineSys :=
  { master := MakeMaster files nReduce, armed := [], checks := [] }

/-- The number of `CheckMasterStatus` goroutines among the goroutines a handler
started. -/
def checksStarted : List Goroutine → Nat
  | [] => 0
  | Goroutine.CheckMasterStatus :: gs => checksStarted gs + 1
  | Goroutine.TimeOutDetection _ _ :: gs => checksStarted gs

/-- One atomic step of the program. -/
inductive FineOp where
  /-- A worker asks for a task; `ord` is the visiting order of the scan. -/
  | GetUnStartedTask (ord : List String)
  /-- The handler `ReportFinishedTask` alone, from `Lock` to `Unlock`. -/
  | ReportFinishedTask (taskType : Int) (file : String)
  /-- A `CheckMasterStatus` goroutine that stands at `point` makes its access
  there. -/
  | CheckMasterStatus (point : CheckPoint)
  /-- The sleep of an armed watchdog is over. -/
  | TimeOutDetection (file : String) (taskType : Int)
  /-- The driver polls `Done`. -/
  | Done
deriving DecidableEq, Repr

/-- One atomic step of the program.  The handlers hold the write lock from
entry to return; they do not write the phase, so the reads of the phase that
`CheckMasterStatus` and `Done` make without lock fall before or after a
handler, never inside one. -/
def fineStep (s : FineSys) : FineOp → Except Fault FineSys
  | FineOp.GetUnStartedTask ord =>
    let r := GetUnStartedTask s.master ord
    .ok { s with master := r.master, armed := s.armed ++ watchdogs r.started }
  | FineOp.ReportFinishedTask taskType file =>
    match ReportFinishedTask s.master { TaskType := taskType, File := file } with
    | .error e => .error e
    | .ok (m, _, started) =>
      .ok { s with master := m
                   checks := s.checks
                     ++ List.replicate (checksStarted started) CheckPoint.entry }
  | FineOp.CheckMasterStatus point =>
    if point ∈ s.checks then
      .ok { s with master := (CheckMasterStatus_at s.master point).1
                   checks := s.checks.erase point
                     ++ (CheckMasterStatus_at s.master point).2.toList }
    else .error Fault.notStarted
  | FineOp.TimeOutDetection file taskType =>
    if (file, taskType) ∈ s.armed then
      match TimeOutDetection s.master file taskType with
      | .error e => .error e
      | .ok m => .ok { s with master := m, armed := s.armed.erase (file, taskType) }
    else .error Fault.notArmed
  | FineOp.Done => .ok s

/-- A finite sequence of atomic steps; it stops at the first step without
successor. -/
def fineRun (s : FineSys) : List FineOp → Except Fault FineSys
  | [] => .ok s
  | op :: ops =>
    match fineStep s op with
    | .error e => .error e
    | .ok s' => fineRun s' ops

/-- The state a sequence of atomic steps ends in (the state before the first
step without successor, if there is one). -/
def fineExec (s : FineSys) (ops : List FineOp) : FineSys :=
  match fineRun s ops with
  | .ok s' => s'
  | .error _ => s

/-- A state of the schedule `step`, seen as a state of the program in which no
`CheckMasterStatus` goroutine is there. -/
def Sys.fine (s : Sys) : FineSys :=
  { master := s.master, armed := s.armed, checks := [] }

/-- The points a `CheckMasterStatus` goroutine goes through when it runs from
its entry to its return in the coordinator `master` with no other step in
between. -/
def checkPath (master : Master) : List CheckPoint :=
  if master.TaskStatus = MapTask then
    if IsPhaseFinished master MapTask then
      [CheckPoint.entry, CheckPoint.scanMap, CheckPoint.writeReduce]
    else [CheckPoint.entry, CheckPoint.scanMap]
  else if master.TaskStatus = ReduceTask then
    if IsPhaseFinished master ReduceTask then
      [CheckPoint.entry, CheckPoint.elseIf, CheckPoint.scanReduce, CheckPoint.writeFree]
    else [CheckPoint.entry, CheckPoint.elseIf, CheckPoint.scanReduce]
  else [CheckPoint.entry, CheckPoint.elseIf]

/-- The atomic steps that make up one operation of the schedule `step` in the
coordinator `master`: a report is the handler followed by the accesses of the
`CheckMasterStatus` goroutine it started, if it started one. -/
def fineOps (master : Master) : Op → List FineOp
  | Op.GetUnStartedTask ord => [FineOp.GetUnStartedTask ord]
  | Op.ReportFinishedTask taskType file =>
    match ReportFinishedTask master { TaskType := taskType, File := file } with
    | .error _ => [FineOp.ReportFinishedTask taskType file]
    | .ok (m, _, started) =>
      if Goroutine.CheckMasterStatus ∈ started then
        FineOp.ReportFinishedTask taskType file
          :: (checkPath m).map FineOp.CheckMasterStatus
      else [FineOp.ReportFinishedTask taskType file]
  | Op.CheckMasterStatus => []
  | Op.TimeOutDetection file taskType => [FineOp.TimeOutDetection file taskType]
  | Op.Done => [FineOp.Done]

/-- What the goroutines of `CheckMasterStatus` have established at the points
where they stand: a goroutine that has read the phase `ReduceTask`, or is
about to write a phase, has the tables behind it complete. -/
def CheckInv (s : FineSys) : Prop :=
  (s.master.TaskStatus = ReduceTask → s.master.allDone MapTask)
    ∧ (s.master.TaskStatus = Free
        → s.master.allDone MapTask ∧ s.master.allDone ReduceTask)
    ∧ (CheckPoint.scanReduce ∈ s.checks → s.master.allDone MapTask)
    ∧ (CheckPoint.writeReduce ∈ s.checks → s.master.allDone MapTask)
    ∧ (CheckPoint.writeFree ∈ s.checks
        → s.master.allDone MapTask ∧ s.master.allDone ReduceTask)

/-! ## Example executions -/

/-- The job with three input files and `nReduce = 2` run to its end: every task
is handed out and then reported, first the Map tasks, then the Reduce tasks. -/
def fullJob : List Op :=
  [Op.GetUnStartedTask [], Op.ReportFinishedTask MapTask "a.txt",
   Op.GetUnStartedTask [], Op.ReportFinishedTask MapTask "b.txt",
   Op.GetUnStartedTask [], Op.ReportFinishedTask MapTask "c.txt",
   Op.GetUnStartedTask [], Op.ReportFinishedTask ReduceTask "mr-out-0",
   Op.GetUnStartedTask [], Op.ReportFinishedTask ReduceTask "mr-out-1"]

/-- The two Reduce tasks are reported while the phase is still Mapping, then
the three Map tasks. -/
def reduceFirst : List Op :=
  [Op.ReportFinishedTask ReduceTask "mr-out-0", Op.ReportFinishedTask ReduceTask "mr-out-1",
   Op.ReportFinishedTask MapTask "a.txt", Op.ReportFinishedTask MapTask "b.txt",
   Op.ReportFinishedTask MapTask "c.txt"]

/-- The job with two input files and `nReduce = 1`, every task handed out once
and reported once by the worker it was handed to.  The two Map reports are
both in before either of the `CheckMasterStatus` goroutines they started runs;
both goroutines then read the phase and scan the Map table, and one of them
writes.  The Reduce task is handed out and reported, and its
`CheckMasterStatus` runs to its end.  The other goroutine of the Map phase has
not written yet. -/
def lateCheck : List FineOp :=
  [FineOp.GetUnStartedTask [], FineOp.GetUnStartedTask [],
   FineOp.ReportFinishedTask MapTask "a.txt", FineOp.ReportFinishedTask MapTask "b.txt",
   FineOp.CheckMasterStatus CheckPoint.entry, FineOp.CheckMasterStatus CheckPoint.entry,
   FineOp.CheckMasterStatus CheckPoint.scanMap, FineOp.CheckMasterStatus CheckPoint.scanMap,
   FineOp.CheckMasterStatus CheckPoint.writeReduce,
   FineOp.GetUnStartedTask [], FineOp.ReportFinishedTask ReduceTask "mr-out-0",
   FineOp.CheckMasterStatus CheckPoint.entry, FineOp.CheckMasterStatus CheckPoint.elseIf,
   FineOp.CheckMasterStatus CheckPoint.scanReduce,
   FineOp.CheckMasterStatus CheckPoint.writeFree]

/-! ## Lemmas on task tables -/

namespace TaskStatusMap

theorem find_key_some {es : List (String × TaskDetail)} (nd : (es.map Prod.fst).Nodup)
    (k : String) (d : TaskDetail) :
    (es.find? (fun e => e.1 = k)).map Prod.snd = some d ↔ (k, d) ∈ es := by
  induction es with
  | nil => simp
  | cons e es ih =>
    rw [List.map_cons, List.nodup_cons] at nd
    by_cases h : e.1 = k
    · have hk : ∀ d', (k, d') ∉ es := by
        intro d' hm
        exact nd.1 (List.mem_map.mpr ⟨(k, d'), hm, h.symm⟩)
      simp only [List.find?_cons, h, decide_True, Option.map_some', Option.some.injEq,
        List.mem_cons]
      constructor
      · intro hd
        left
        rw [← hd, ← h]
      · rintro (hd | hd)
        · rw [← hd]
        · exact absurd hd (hk d)
    · have hne : (k, d) ≠ e := fun he => h (by rw [← he])
      simp only [List.find?_cons, h, decide_False, List.mem_cons, hne, false_or]
      exact ih nd.2

theorem get_eq_some_iff (t : TaskStatusMap) (k : String) (d : TaskDetail) :
    t.get k = some d ↔ (k, d) ∈ t.entries :=
  find_key_some t.nodup k d

theorem get_eq_none_iff (t : TaskStatusMap) (k : String) :
    t.get k = none ↔ k ∉ t.keys := by
  unfold get keys
  rw [Option.map_eq_none', List.find?_eq_none]
  simp only [decide_eq_true_eq, List.mem_map, not_exists, not_and]

theorem mem_keys_iff (t : TaskStatusMap) (k : String) :
    k ∈ t.keys ↔ ∃ d, t.get k = some d := by
  constructor
  · intro h
    cases hg : t.get k with
    | none => exact absurd h ((get_eq_none_iff t k).mp hg)
    | some d => exact ⟨d, rfl⟩
  · rintro ⟨d, hd⟩
    exact List.mem_map.mpr ⟨(k, d), (get_eq_some_iff t k d).mp hd, rfl⟩

theorem find_setStatusEntries (es : List (String × TaskDetail)) (k k' : String) (s : Int) :
    ((setStatusEntries es k s).find? (fun e => e.1 = k')).map Prod.snd
      = if k' = k then ((es.find? (fun e => e.1 = k)).map Prod.snd).map
          (fun d => { d with TaskStatus := s })
        else (es.find? (fun e => e.1 = k')).map Prod.snd := by
  unfold setStatusEntries
  rw [List.find?_map]
  have hcomp : ((fun e : String × TaskDetail => decide (e.1 = k')) ∘
      fun e : String × TaskDetail =>
        if e.1 = k then (e.1, { e.2 with TaskStatus := s }) else e)
      = fun e : String × TaskDetail => decide (e.1 = k') := by
    funext e
    by_cases h : e.1 = k <;> simp [h]
  rw [hcomp]
  by_cases hk : k' = k
  · subst hk
    rw [if_pos rfl]
    cases hf : es.find? (fun e => decide (e.1 = k')) with
    | none => rfl
    | some e =>
      have he : e.1 = k' := by simpa using List.find?_some hf
      simp [he]
  · rw [if_neg hk]
    cases hf : es.find? (fun e => decide (e.1 = k')) with
    | none => rfl
    | some e =>
      have he : e.1 = k' := by simpa using List.find?_some hf
      have hne : ¬ e.1 = k := fun h => hk (by rw [← he, h])
      simp [hne]

theorem get_setStatus (t : TaskStatusMap) (k k' : String) (s : Int) :
    (t.setStatus k s).get k'
      = if k' = k then (t.get k).map (fun d => { d with TaskStatus := s }) else t.get k' :=
  find_setStatusEntries t.entries k k' s

theorem keys_setStatus (t : TaskStatusMap) (k : String) (s : Int) :
    (t.setStatus k s).keys = t.keys := by
  unfold keys setStatus setStatusEntries
  rw [List.map_map]
  apply List.map_congr_left
  intro e _
  by_cases h : e.1 = k <;> simp [h]

theorem mem_rangeOrder (t : TaskStatusMap) (ord : List String) (e : String × TaskDetail) :
    e ∈ t.rangeOrder ord ↔ e ∈ t.entries := by
  unfold rangeOrder
  simp only [List.mem_append, List.mem_flatten, List.mem_map, List.mem_dedup, List.mem_filter,
    decide_eq_true_eq, decide_not, Bool.not_eq_true', decide_eq_false_iff_not]
  constructor
  · rintro (⟨l, ⟨k, _, rfl⟩, hl⟩ | h)
    · exact (List.mem_filter.mp hl).1
    · exact h.1
  · intro he
    by_cases hk : e.1 ∈ ord
    · left
      exact ⟨_, ⟨e.1, hk, rfl⟩, List.mem_filter.mpr ⟨he, by simp⟩⟩
    · right
      exact ⟨he, hk⟩

theorem scanUnStarted_some {t : TaskStatusMap} {ord : List String} {k : String}
    {d : TaskDetail} (h : t.scanUnStarted ord = some (k, d)) :
    t.get k = some d ∧ d.TaskStatus = UnStarted := by
  unfold scanUnStarted at h
  have hm := List.mem_of_find?_eq_some h
  have hp := List.find?_some h
  exact ⟨(get_eq_some_iff t k d).mpr ((mem_rangeOrder t ord _).mp hm), by simpa using hp⟩

theorem scanUnStarted_none_iff (t : TaskStatusMap) (ord : List String) :
    t.scanUnStarted ord = none ↔ ∀ k d, t.get k = some d → d.TaskStatus ≠ UnStarted := by
  unfold scanUnStarted
  rw [List.find?_eq_none]
  constructor
  · intro h k d hd
    have := h (k, d) ((mem_rangeOrder t ord _).mpr ((get_eq_some_iff t k d).mp hd))
    simpa using this
  · intro h e he
    have := h e.1 e.2 ((get_eq_some_iff t e.1 e.2).mpr ((mem_rangeOrder t ord _).mp he))
    simpa using this

theorem allFinished_iff (t : TaskStatusMap) :
    t.allFinished = true ↔ ∀ k d, t.get k = some d → d.TaskStatus = Finished := by
  unfold allFinished
  rw [List.all_eq_true]
  constructor
  · intro h k d hd
    simpa using h (k, d) ((get_eq_some_iff t k d).mp hd)
  · intro h e he
    simpa using h e.1 e.2 ((get_eq_some_iff t e.1 e.2).mpr he)

end TaskStatusMap


/-! ## Effect of the operations on single records -/

theorem record_setStatus (m : Master) (ty ty' : Int) (f f' : String) (s : Int) :
    (m.setStatus ty f s).record ty' f'
      = if ty' = ty ∧ f' = f then (m.record ty f).map (fun d => { d with TaskStatus := s })
        else m.record ty' f' := by
  unfold Master.setStatus Master.record
  by_cases h1 : ty = MapTask
  · subst h1
    by_cases h2 : ty' = MapTask
    · subst h2
      simp only [if_true, true_and, TaskStatusMap.get_setStatus]
    · simp [h2]
  · by_cases h4 : ty = ReduceTask
    · subst h4
      by_cases h2 : ty' = MapTask
      · subst h2
        simp
      · by_cases h5 : ty' = ReduceTask
        · subst h5
          simp [TaskStatusMap.get_setStatus]
        · simp [h2, h5]
    · simp only [h1, h4, if_false]
      by_cases h3 : ty' = ty ∧ f' = f
      · obtain ⟨rfl, rfl⟩ := h3
        simp [h1, h4]
      · simp only [h3, if_false]

theorem statusOf_setStatus (m : Master) (ty ty' : Int) (f f' : String) (s : Int) :
    (m.setStatus ty f s).statusOf ty' f'
      = if ty' = ty ∧ f' = f then (m.statusOf ty f).map (fun _ => s)
        else m.statusOf ty' f' := by
  unfold Master.statusOf
  rw [record_setStatus]
  split
  · cases m.record ty f <;> rfl
  · rfl

theorem phase_setStatus (m : Master) (ty : Int) (f : String) (s : Int) :
    (m.setStatus ty f s).TaskStatus = m.TaskStatus := by
  unfold Master.setStatus
  split
  · rfl
  · split <;> rfl

theorem GetUnStartedTask_ok {m : Master} {ord : List String}
    (h : (GetUnStartedTask m ord).ok = true) :
    (GetUnStartedTask m ord).master
        = m.setStatus (GetUnStartedTask m ord).taskType (GetUnStartedTask m ord).file Processing
      ∧ m.TaskStatus = (GetUnStartedTask m ord).taskType
      ∧ ((GetUnStartedTask m ord).taskType = MapTask
          ∨ (GetUnStartedTask m ord).taskType = ReduceTask)
      ∧ m.record (GetUnStartedTask m ord).taskType (GetUnStartedTask m ord).file
          = some { TaskId := (GetUnStartedTask m ord).taskId, TaskStatus := UnStarted }
      ∧ (GetUnStartedTask m ord).started
          = [Goroutine.TimeOutDetection (GetUnStartedTask m ord).file
              (GetUnStartedTask m ord).taskType] := by
  unfold GetUnStartedTask at h ⊢
  by_cases h1 : m.TaskStatus = MapTask
  · simp only [h1, if_true] at h ⊢
    cases hs : m.MapTaskStatus.scanUnStarted ord with
    | none => simp [hs] at h
    | some e =>
      obtain ⟨k, d⟩ := e
      obtain ⟨hg, hu⟩ := TaskStatusMap.scanUnStarted_some hs
      simp only [Master.setStatus, Master.record, if_true, true_and, hg, Option.some.injEq,
        true_or]
      cases d
      simp_all
  · by_cases h2 : m.TaskStatus = ReduceTask
    · simp only [h2, if_true] at h ⊢
      cases hs : m.ReduceTaskStatus.scanUnStarted ord with
      | none => simp [hs] at h
      | some e =>
        obtain ⟨k, d⟩ := e
        obtain ⟨hg, hu⟩ := TaskStatusMap.scanUnStarted_some hs
        simp only [Master.setStatus, Master.record, hg]
        cases d
        simp_all
    · simp [h1, h2] at h

theorem GetUnStartedTask_not_ok {m : Master} {ord : List String}
    (h : (GetUnStartedTask m ord).ok = false) :
    (GetUnStartedTask m ord).master = m ∧ (GetUnStartedTask m ord).started = []
      ∧ (GetUnStartedTask m ord).file = "" ∧ (GetUnStartedTask m ord).taskId = 0 := by
  unfold GetUnStartedTask at h ⊢
  by_cases h1 : m.TaskStatus = MapTask
  · simp only [h1, if_true] at h ⊢
    cases hs : m.MapTaskStatus.scanUnStarted ord with
    | none => simp
    | some e => simp [hs] at h
  · by_cases h2 : m.TaskStatus = ReduceTask
    · simp only [h2, if_true] at h ⊢
      cases hs : m.ReduceTaskStatus.scanUnStarted ord with
      | none => simp
      | some e => simp [hs] at h
    · simp [h1, h2]


theorem ReportFinishedTask_present {m : Master} {a : TaskFinishedArgs} {d : TaskDetail}
    (hr : m.record a.TaskType a.File = some d) :
    ReportFinishedTask m a
      = .ok (m.setStatus a.TaskType a.File Finished, { Ok := true },
          [Goroutine.CheckMasterStatus]) := by
  unfold Master.record at hr
  unfold ReportFinishedTask Master.setStatus
  by_cases h1 : a.TaskType = MapTask
  · simp only [h1, if_true] at hr ⊢
    simp only [hr]
  · by_cases h2 : a.TaskType = ReduceTask
    · simp only [if_neg h1, if_pos h2] at hr ⊢
      simp only [hr]
    · simp [h1, h2] at hr

theorem ReportFinishedTask_absent {m : Master} {a : TaskFinishedArgs}
    (hty : a.TaskType = MapTask ∨ a.TaskType = ReduceTask)
    (hr : m.record a.TaskType a.File = none) :
    ReportFinishedTask m a = .error Fault.nilDereference := by
  unfold Master.record at hr
  unfold ReportFinishedTask
  by_cases h1 : a.TaskType = MapTask
  · simp only [h1, if_true] at hr ⊢
    simp only [hr]
  · have h2 : a.TaskType = ReduceTask := hty.resolve_left h1
    simp only [if_neg h1, if_pos h2] at hr ⊢
    simp only [hr]

theorem ReportFinishedTask_other {m : Master} {a : TaskFinishedArgs}
    (h1 : a.TaskType ≠ MapTask) (h2 : a.TaskType ≠ ReduceTask) :
    ReportFinishedTask m a = .ok (m, { Ok := false }, []) := by
  unfold ReportFinishedTask
  simp [h1, h2]

theorem TimeOutDetection_present {m : Master} {f : String} {ty : Int} {d : TaskDetail}
    (hr : m.record ty f = some d) :
    TimeOutDetection m f ty
      = .ok (if d.TaskStatus = Processing then m.setStatus ty f UnStarted else m) := by
  unfold Master.record at hr
  unfold TimeOutDetection Master.setStatus
  by_cases h1 : ty = MapTask
  · simp only [h1, if_true] at hr ⊢
    simp only [hr]
    split <;> rfl
  · by_cases h2 : ty = ReduceTask
    · simp only [if_neg h1, if_pos h2] at hr ⊢
      simp only [hr]
      split <;> rfl
    · simp [h1, h2] at hr

theorem TimeOutDetection_absent {m : Master} {f : String} {ty : Int}
    (hty : ty = MapTask ∨ ty = ReduceTask) (hr : m.record ty f = none) :
    TimeOutDetection m f ty = .error Fault.nilDereference := by
  unfold Master.record at hr
  unfold TimeOutDetection
  by_cases h1 : ty = MapTask
  · simp only [h1, if_true] at hr ⊢
    simp only [hr]
  · have h2 : ty = ReduceTask := hty.resolve_left h1
    simp only [if_neg h1, if_pos h2] at hr ⊢
    simp only [hr]

theorem TimeOutDetection_other {m : Master} {f : String} {ty : Int}
    (h1 : ty ≠ MapTask) (h2 : ty ≠ ReduceTask) :
    TimeOutDetection m f ty = .ok m := by
  unfold TimeOutDetection
  simp [h1, h2]

theorem record_CheckMasterStatus (m : Master) (ty : Int) (f : String) :
    (CheckMasterStatus m).record ty f = m.record ty f := by
  unfold CheckMasterStatus
  split
  · split <;> rfl
  · split
    · split <;> rfl
    · rfl

theorem statusOf_CheckMasterStatus (m : Master) (ty : Int) (f : String) :
    (CheckMasterStatus m).statusOf ty f = m.statusOf ty f := by
  unfold Master.statusOf
  rw [record_CheckMasterStatus]

/-- The phase after `CheckMasterStatus`, case by case. -/
theorem phase_CheckMasterStatus (m : Master) :
    (CheckMasterStatus m).TaskStatus
      = if m.TaskStatus = MapTask ∧ m.MapTaskStatus.allFinished = true then ReduceTask
        else if m.TaskStatus = ReduceTask ∧ m.ReduceTaskStatus.allFinished = true then Free
        else m.TaskStatus := by
  unfold CheckMasterStatus IsPhaseFinished
  by_cases h1 : m.TaskStatus = MapTask
  · by_cases h2 : m.MapTaskStatus.allFinished = true
    · simp [h1, h2]
    · simp [h1, h2]
  · by_cases h3 : m.TaskStatus = ReduceTask
    · by_cases h4 : m.ReduceTaskStatus.allFinished = true
      · simp [h3, h4]
      · simp [h3, h4]
    · simp [h1, h3]

theorem tables_CheckMasterStatus (m : Master) :
    (CheckMasterStatus m).MapTaskStatus = m.MapTaskStatus
      ∧ (CheckMasterStatus m).ReduceTaskStatus = m.ReduceTaskStatus := by
  unfold CheckMasterStatus
  split
  · split <;> exact ⟨rfl, rfl⟩
  · split
    · split <;> exact ⟨rfl, rfl⟩
    · exact ⟨rfl, rfl⟩


/-! ## The steps of the serialised system, case by case -/

theorem step_get {s s' : Sys} {ord : List String}
    (h : step s (Op.GetUnStartedTask ord) = .ok s') :
    (∃ ty f, (ty = MapTask ∨ ty = ReduceTask) ∧ s.master.TaskStatus = ty
        ∧ s.master.statusOf ty f = some UnStarted
        ∧ s'.master = s.master.setStatus ty f Processing
        ∧ s'.armed = s.armed ++ [(f, ty)] ∧ s'.handed = s.handed ++ [(f, ty)]
        ∧ (GetUnStartedTask s.master ord).file = f
        ∧ (GetUnStartedTask s.master ord).taskType = ty
        ∧ (GetUnStartedTask s.master ord).ok = true)
      ∨ (s' = s ∧ (GetUnStartedTask s.master ord).ok = false) := by
  simp only [step, Except.ok.injEq] at h
  cases hok : (GetUnStartedTask s.master ord).ok with
  | true =>
    left
    obtain ⟨h1, h2, h3, h4, h5⟩ := GetUnStartedTask_ok hok
    refine ⟨_, _, h3, h2, ?_, ?_, ?_, ?_, rfl, rfl, rfl⟩
    · simp [Master.statusOf, h4]
    · rw [← h, h1]
    · rw [← h, h5]; rfl
    · rw [← h, h5]; rfl
  | false =>
    right
    obtain ⟨h1, h2, _, _⟩ := GetUnStartedTask_not_ok hok
    refine ⟨?_, rfl⟩
    rw [← h, h1, h2]
    simp [watchdogs]

theorem step_report {s s' : Sys} {ty : Int} {f : String}
    (h : step s (Op.ReportFinishedTask ty f) = .ok s') :
    ((ty = MapTask ∨ ty = ReduceTask) ∧ (∃ d, s.master.record ty f = some d)
        ∧ s' = { s with master := CheckMasterStatus (s.master.setStatus ty f Finished) })
      ∨ (ty ≠ MapTask ∧ ty ≠ ReduceTask ∧ s' = s) := by
  by_cases hty : ty = MapTask ∨ ty = ReduceTask
  · left
    cases hr : s.master.record ty f with
    | none =>
      have := ReportFinishedTask_absent (m := s.master) (a := ⟨ty, f⟩) hty hr
      simp [step, reportAndCheck, this] at h
    | some d =>
      have := ReportFinishedTask_present (m := s.master) (a := ⟨ty, f⟩) hr
      simp only [step, reportAndCheck, this, List.mem_singleton, if_true,
        Except.ok.injEq] at h
      exact ⟨hty, ⟨d, rfl⟩, h.symm⟩
  · right
    rw [not_or] at hty
    have := ReportFinishedTask_other (m := s.master) (a := ⟨ty, f⟩) hty.1 hty.2
    simp only [step, reportAndCheck, this, List.not_mem_nil, if_false,
      Except.ok.injEq] at h
    exact ⟨hty.1, hty.2, h.symm⟩

theorem step_fire {s s' : Sys} {ty : Int} {f : String}
    (h : step s (Op.TimeOutDetection f ty) = .ok s') :
    (f, ty) ∈ s.armed ∧ s'.armed = s.armed.erase (f, ty) ∧ s'.handed = s.handed
      ∧ ((s.master.statusOf ty f = some Processing
            ∧ s'.master = s.master.setStatus ty f UnStarted)
          ∨ (s.master.statusOf ty f ≠ some Processing ∧ s'.master = s.master)) := by
  by_cases ha : (f, ty) ∈ s.armed
  · simp only [step, ha, if_true] at h
    by_cases hty : ty = MapTask ∨ ty = ReduceTask
    · cases hr : s.master.record ty f with
      | none =>
        rw [TimeOutDetection_absent hty hr] at h
        simp at h
      | some d =>
        rw [TimeOutDetection_present hr] at h
        simp only [Except.ok.injEq] at h
        subst h
        refine ⟨ha, rfl, rfl, ?_⟩
        by_cases hp : d.TaskStatus = Processing
        · left
          simp [Master.statusOf, hr, hp]
        · right
          simp [Master.statusOf, hr, hp]
    · rw [not_or] at hty
      rw [TimeOutDetection_other hty.1 hty.2] at h
      simp only [Except.ok.injEq] at h
      subst h
      refine ⟨ha, rfl, rfl, Or.inr ⟨?_, rfl⟩⟩
      simp [Master.statusOf, Master.record, hty.1, hty.2]
  · simp [step, ha] at h

theorem step_check {s s' : Sys} (h : step s Op.CheckMasterStatus = .ok s') :
    s' = { s with master := CheckMasterStatus s.master } := by
  simp only [step, Except.ok.injEq] at h
  exact h.symm

theorem step_done {s s' : Sys} (h : step s Op.Done = .ok s') : s' = s := by
  simp only [step, Except.ok.injEq] at h
  exact h.symm

theorem run_cons {s s'' : Sys} {op : Op} {ops : List Op}
    (h : run s (op :: ops) = .ok s'') :
    ∃ s', step s op = .ok s' ∧ run s' ops = .ok s'' := by
  simp only [run] at h
  cases hs : step s op with
  | error e => simp [hs] at h
  | ok s' =>
    rw [hs] at h
    exact ⟨s', rfl, h⟩

theorem run_append {s s'' : Sys} {ops1 ops2 : List Op}
    (h : run s (ops1 ++ ops2) = .ok s'') :
    ∃ s', run s ops1 = .ok s' ∧ run s' ops2 = .ok s'' := by
  induction ops1 generalizing s with
  | nil => exact ⟨s, rfl, h⟩
  | cons op ops ih =>
    obtain ⟨s1, h1, h2⟩ := run_cons h
    obtain ⟨s', h3, h4⟩ := ih h2
    refine ⟨s', ?_, h4⟩
    simp only [run, h1]
    exact h3

theorem run_append_of {s s' s'' : Sys} {ops1 ops2 : List Op}
    (h1 : run s ops1 = .ok s') (h2 : run s' ops2 = .ok s'') :
    run s (ops1 ++ ops2) = .ok s'' := by
  induction ops1 generalizing s with
  | nil =>
    simp only [run, Except.ok.injEq] at h1
    subst h1
    exact h2
  | cons op ops ih =>
    obtain ⟨s1, h3, h4⟩ := run_cons h1
    simp only [List.cons_append, run, h3]
    exact ih h4


/-! ## What a step does to a record -/

theorem statusOf_eq_none_iff (m : Master) (ty : Int) (f : String) :
    m.statusOf ty f = none ↔ m.record ty f = none := by
  unfold Master.statusOf
  cases m.record ty f <;> simp

theorem statusOf_setStatus_eq_none (m : Master) (ty ty' : Int) (f f' : String) (st : Int) :
    (m.setStatus ty f st).statusOf ty' f' = none ↔ m.statusOf ty' f' = none := by
  rw [statusOf_setStatus]
  split
  · rename_i h
    obtain ⟨rfl, rfl⟩ := h
    cases m.statusOf ty' f' <;> simp
  · rfl

/-- No step adds or removes a record. -/
theorem step_none_iff {s s' : Sys} {op : Op} (h : step s op = .ok s') (ty : Int) (f : String) :
    s'.master.statusOf ty f = none ↔ s.master.statusOf ty f = none := by
  cases op with
  | GetUnStartedTask ord =>
    rcases step_get h with ⟨ty0, f0, _, _, _, hm, _⟩ | ⟨rfl, _⟩
    · rw [hm, statusOf_setStatus_eq_none]
    · rfl
  | ReportFinishedTask ty0 f0 =>
    rcases step_report h with ⟨_, _, rfl⟩ | ⟨_, _, rfl⟩
    · simp only [statusOf_CheckMasterStatus, statusOf_setStatus_eq_none]
    · rfl
  | CheckMasterStatus =>
    rw [step_check h]
    simp only [statusOf_CheckMasterStatus]
  | TimeOutDetection f0 ty0 =>
    obtain ⟨_, _, _, ⟨_, hm⟩ | ⟨_, hm⟩⟩ := step_fire h
    · rw [hm, statusOf_setStatus_eq_none]
    · rw [hm]
  | Done =>
    rw [step_done h]

theorem run_none_iff {s s' : Sys} {ops : List Op} (h : run s ops = .ok s') (ty : Int)
    (f : String) : s'.master.statusOf ty f = none ↔ s.master.statusOf ty f = none := by
  induction ops generalizing s with
  | nil =>
    simp only [run, Except.ok.injEq] at h
    rw [h]
  | cons op ops ih =>
    obtain ⟨s1, h1, h2⟩ := run_cons h
    rw [ih h2, step_none_iff h1]

/-- A record is `Finished` after a step exactly when it was `Finished` before
or the step is a report of that record. -/
theorem step_finished_iff {s s' : Sys} {op : Op} (h : step s op = .ok s') (ty : Int)
    (f : String) :
    s'.master.statusOf ty f = some Finished
      ↔ s.master.statusOf ty f = some Finished
        ∨ (s.master.statusOf ty f ≠ none ∧ op = Op.ReportFinishedTask ty f) := by
  cases op with
  | GetUnStartedTask ord =>
    rcases step_get h with ⟨ty0, f0, _, _, hu, hm, _⟩ | ⟨rfl, _⟩
    · rw [hm, statusOf_setStatus]
      by_cases hc : ty = ty0 ∧ f = f0
      · obtain ⟨rfl, rfl⟩ := hc
        simp [hu]
      · simp [hc]
    · simp
  | ReportFinishedTask ty0 f0 =>
    rcases step_report h with ⟨_, ⟨d, hd⟩, rfl⟩ | ⟨h1, h2, rfl⟩
    · simp only [statusOf_CheckMasterStatus, statusOf_setStatus]
      by_cases hc : ty = ty0 ∧ f = f0
      · obtain ⟨rfl, rfl⟩ := hc
        simp [Master.statusOf, hd]
      · have hne : ¬ (ty0 = ty ∧ f0 = f) := fun hh => hc ⟨hh.1.symm, hh.2.symm⟩
        simp [hc, hne]
    · constructor
      · intro hf
        exact Or.inl hf
      · rintro (hf | ⟨hn, he⟩)
        · exact hf
        · simp only [Op.ReportFinishedTask.injEq] at he
          obtain ⟨rfl, rfl⟩ := he
          exact absurd (by simp [Master.statusOf, Master.record, h1, h2]) hn
  | CheckMasterStatus =>
    rw [step_check h]
    simp [statusOf_CheckMasterStatus]
  | TimeOutDetection f0 ty0 =>
    obtain ⟨_, _, _, ⟨hp, hm⟩ | ⟨_, hm⟩⟩ := step_fire h
    · rw [hm, statusOf_setStatus]
      by_cases hc : ty = ty0 ∧ f = f0
      · obtain ⟨rfl, rfl⟩ := hc
        simp [hp]
      · simp [hc]
    · rw [hm]
      simp
  | Done =>
    rw [step_done h]
    simp

/-- A `Finished` record stays `Finished` along every execution. -/
theorem run_finished {s s' : Sys} {ops : List Op} (h : run s ops = .ok s') (ty : Int)
    (f : String) (hf : s.master.statusOf ty f = some Finished) :
    s'.master.statusOf ty f = some Finished := by
  induction ops generalizing s with
  | nil =>
    simp only [run, Except.ok.injEq] at h
    rw [← h]
    exact hf
  | cons op ops ih =>
    obtain ⟨s1, h1, h2⟩ := run_cons h
    exact ih h2 ((step_finished_iff h1 ty f).mpr (Or.inl hf))

theorem allFinished_Map_iff (m : Master) :
    m.MapTaskStatus.allFinished = true
      ↔ ∀ f, m.statusOf MapTask f = none ∨ m.statusOf MapTask f = some Finished := by
  rw [TaskStatusMap.allFinished_iff]
  simp only [Master.statusOf, Master.record, if_true]
  constructor
  · intro h f
    cases hg : m.MapTaskStatus.get f with
    | none => simp
    | some d => simp [h f d hg]
  · intro h k d hd
    have := h k
    simpa [hd] using this

theorem allFinished_Reduce_iff (m : Master) :
    m.ReduceTaskStatus.allFinished = true
      ↔ ∀ f, m.statusOf ReduceTask f = none ∨ m.statusOf ReduceTask f = some Finished := by
  rw [TaskStatusMap.allFinished_iff]
  have hne : ¬ (ReduceTask = MapTask) := by decide
  simp only [Master.statusOf, Master.record, if_neg hne, if_true]
  constructor
  · intro h f
    cases hg : m.ReduceTaskStatus.get f with
    | none => simp
    | some d => simp [h f d hg]
  · intro h k d hd
    have := h k
    simpa [hd] using this


/-! ## Completeness of a table and the phase check -/

theorem IsPhaseFinished_Map_iff (m : Master) :
    IsPhaseFinished m MapTask = true ↔ m.allDone MapTask := by
  unfold IsPhaseFinished Master.allDone
  rw [if_pos rfl]
  exact allFinished_Map_iff m

theorem IsPhaseFinished_Reduce_iff (m : Master) :
    IsPhaseFinished m ReduceTask = true ↔ m.allDone ReduceTask := by
  unfold IsPhaseFinished Master.allDone
  have hne : ¬ (ReduceTask = MapTask) := by decide
  rw [if_neg hne, if_pos rfl]
  exact allFinished_Reduce_iff m

theorem allDone_congr {m m' : Master} {ty : Int}
    (hF : ∀ f, m'.statusOf ty f = some Finished ↔ m.statusOf ty f = some Finished)
    (hN : ∀ f, m'.statusOf ty f = none ↔ m.statusOf ty f = none) :
    m'.allDone ty ↔ m.allDone ty := by
  unfold Master.allDone
  constructor
  · intro h f
    rcases h f with h1 | h1
    · exact Or.inl ((hN f).mp h1)
    · exact Or.inr ((hF f).mp h1)
  · intro h f
    rcases h f with h1 | h1
    · exact Or.inl ((hN f).mpr h1)
    · exact Or.inr ((hF f).mpr h1)

theorem allDone_mono {m m' : Master} {ty : Int}
    (hF : ∀ f, m.statusOf ty f = some Finished → m'.statusOf ty f = some Finished)
    (hN : ∀ f, m'.statusOf ty f = none ↔ m.statusOf ty f = none)
    (h : m.allDone ty) : m'.allDone ty := by
  intro f
  rcases h f with h1 | h1
  · exact Or.inl ((hN f).mpr h1)
  · exact Or.inr (hF f h1)

theorem allDone_CheckMasterStatus (m : Master) (ty : Int) :
    (CheckMasterStatus m).allDone ty ↔ m.allDone ty := by
  unfold Master.allDone
  simp only [statusOf_CheckMasterStatus]

/-- The three ways `CheckMasterStatus` can go. -/
theorem CheckMasterStatus_cases (m : Master) :
    (m.TaskStatus = MapTask ∧ m.allDone MapTask
        ∧ (CheckMasterStatus m).TaskStatus = ReduceTask)
      ∨ (m.TaskStatus = ReduceTask ∧ m.allDone ReduceTask
        ∧ (CheckMasterStatus m).TaskStatus = Free)
      ∨ (CheckMasterStatus m = m ∧ (m.TaskStatus = MapTask → ¬ m.allDone MapTask)
        ∧ (m.TaskStatus = ReduceTask → ¬ m.allDone ReduceTask)) := by
  unfold CheckMasterStatus
  by_cases h1 : m.TaskStatus = MapTask
  · rw [if_pos h1]
    by_cases h2 : IsPhaseFinished m MapTask = true
    · rw [if_pos h2]
      exact Or.inl ⟨h1, (IsPhaseFinished_Map_iff m).mp h2, rfl⟩
    · rw [if_neg h2]
      refine Or.inr (Or.inr ⟨rfl, fun _ hd => h2 ((IsPhaseFinished_Map_iff m).mpr hd), ?_⟩)
      intro h3
      rw [h1] at h3
      exact absurd h3 (by decide)
  · rw [if_neg h1]
    by_cases h3 : m.TaskStatus = ReduceTask
    · rw [if_pos h3]
      by_cases h4 : IsPhaseFinished m ReduceTask = true
      · rw [if_pos h4]
        exact Or.inr (Or.inl ⟨h3, (IsPhaseFinished_Reduce_iff m).mp h4, rfl⟩)
      · rw [if_neg h4]
        exact Or.inr (Or.inr ⟨rfl, fun h => absurd h h1,
          fun _ hd => h4 ((IsPhaseFinished_Reduce_iff m).mpr hd)⟩)
    · rw [if_neg h3]
      exact Or.inr (Or.inr ⟨rfl, fun h => absurd h h1, fun h => absurd h h3⟩)

/-- A step that is neither a report nor a phase check keeps the phase. -/
theorem step_phase_eq {s s' : Sys} {op : Op} (h : step s op = .ok s')
    (h1 : ∀ ty f, op ≠ Op.ReportFinishedTask ty f) (h2 : op ≠ Op.CheckMasterStatus) :
    s'.master.TaskStatus = s.master.TaskStatus := by
  cases op with
  | GetUnStartedTask ord =>
    rcases step_get h with ⟨ty0, f0, _, _, _, hm, _⟩ | ⟨rfl, _⟩
    · rw [hm, phase_setStatus]
    · rfl
  | ReportFinishedTask ty0 f0 => exact absurd rfl (h1 ty0 f0)
  | CheckMasterStatus => exact absurd rfl h2
  | TimeOutDetection f0 ty0 =>
    obtain ⟨_, _, _, ⟨_, hm⟩ | ⟨_, hm⟩⟩ := step_fire h
    · rw [hm, phase_setStatus]
    · rw [hm]
  | Done => rw [step_done h]

/-- The list of assignments grows only by the task that a step hands out. -/
theorem step_handed {s s' : Sys} {op : Op} (h : step s op = .ok s') (ty : Int) (f : String)
    (hm : (f, ty) ∈ s'.handed) :
    (f, ty) ∈ s.handed ∨ (s.master.TaskStatus = ty ∧ (ty = MapTask ∨ ty = ReduceTask)) := by
  cases op with
  | GetUnStartedTask ord =>
    rcases step_get h with ⟨ty0, f0, h1, h2, _, _, _, hh, _⟩ | ⟨rfl, _⟩
    · rw [hh, List.mem_append, List.mem_singleton, Prod.mk.injEq] at hm
      rcases hm with hm | ⟨rfl, rfl⟩
      · exact Or.inl hm
      · exact Or.inr ⟨h2, h1⟩
    · exact Or.inl hm
  | ReportFinishedTask ty0 f0 =>
    rcases step_report h with ⟨_, _, rfl⟩ | ⟨_, _, rfl⟩
    · exact Or.inl hm
    · exact Or.inl hm
  | CheckMasterStatus =>
    rw [step_check h] at hm
    exact Or.inl hm
  | TimeOutDetection f0 ty0 =>
    obtain ⟨_, _, hh, _⟩ := step_fire h
    rw [hh] at hm
    exact Or.inl hm
  | Done =>
    rw [step_done h] at hm
    exact Or.inl hm


/-- A report of an existing task, and a phase check on its own, end with
`CheckMasterStatus`: the phase advances by one when the table of the current
phase is complete after the step, and stays otherwise. -/
theorem step_checked {s s' : Sys} {op : Op} (h : step s op = .ok s')
    (hop : op = Op.CheckMasterStatus
      ∨ ∃ ty f, op = Op.ReportFinishedTask ty f ∧ (ty = MapTask ∨ ty = ReduceTask)) :
    s'.handed = s.handed ∧ s'.armed = s.armed
      ∧ ((s.master.TaskStatus = MapTask ∧ s'.master.allDone MapTask
            ∧ s'.master.TaskStatus = ReduceTask)
        ∨ (s.master.TaskStatus = ReduceTask ∧ s'.master.allDone ReduceTask
            ∧ s'.master.TaskStatus = Free)
        ∨ (s'.master.TaskStatus = s.master.TaskStatus
            ∧ (s.master.TaskStatus = MapTask → ¬ s'.master.allDone MapTask)
            ∧ (s.master.TaskStatus = ReduceTask → ¬ s'.master.allDone ReduceTask))) := by
  have key : ∀ m2 : Master, m2.TaskStatus = s.master.TaskStatus →
      s'.master = CheckMasterStatus m2 →
      ((s.master.TaskStatus = MapTask ∧ s'.master.allDone MapTask
            ∧ s'.master.TaskStatus = ReduceTask)
        ∨ (s.master.TaskStatus = ReduceTask ∧ s'.master.allDone ReduceTask
            ∧ s'.master.TaskStatus = Free)
        ∨ (s'.master.TaskStatus = s.master.TaskStatus
            ∧ (s.master.TaskStatus = MapTask → ¬ s'.master.allDone MapTask)
            ∧ (s.master.TaskStatus = ReduceTask → ¬ s'.master.allDone ReduceTask))) := by
    intro m2 hp hs
    rw [hs, ← hp]
    simp only [allDone_CheckMasterStatus]
    rcases CheckMasterStatus_cases m2 with h1 | h1 | ⟨h1, h2, h3⟩
    · exact Or.inl h1
    · exact Or.inr (Or.inl h1)
    · exact Or.inr (Or.inr ⟨by rw [h1], h2, h3⟩)
  rcases hop with rfl | ⟨ty, f, rfl, hty⟩
  · have hs := step_check h
    subst hs
    exact ⟨rfl, rfl, key s.master rfl rfl⟩
  · rcases step_report h with ⟨_, _, hs⟩ | ⟨h1, h2, _⟩
    · subst hs
      exact ⟨rfl, rfl, key _ (phase_setStatus _ _ _ _) rfl⟩
    · rcases hty with hty | hty
      · exact absurd hty h1
      · exact absurd hty h2

theorem not_allDone_Reduce_of {m : Master} (hex : ∃ f, m.statusOf ReduceTask f ≠ none)
    (hnone : ∀ f, m.statusOf ReduceTask f ≠ some Finished) : ¬ m.allDone ReduceTask := by
  intro hd
  obtain ⟨f, hf⟩ := hex
  rcases hd f with h1 | h1
  · exact hf h1
  · exact hnone f h1

/-- The phase invariant is kept by every step in which a report, if the step is
one, names a task that has been handed out. -/
theorem step_PhaseInv {s s' : Sys} {op : Op} (hinv : PhaseInv s) (h : step s op = .ok s')
    (hrep : ∀ ty f, op = Op.ReportFinishedTask ty f → (f, ty) ∈ s.handed) :
    PhaseInv s' := by
  obtain ⟨⟨fr, hfr⟩, hcase⟩ := hinv
  have hN := step_none_iff h
  have hF := step_finished_iff h
  have hmono : ∀ ty, s.master.allDone ty → s'.master.allDone ty := fun ty =>
    allDone_mono (fun f hf => (hF ty f).mpr (Or.inl hf)) (hN ty)
  have hex : ∃ f, s'.master.statusOf ReduceTask f ≠ none :=
    ⟨fr, fun hn => hfr ((hN _ _).mp hn)⟩
  refine ⟨hex, ?_⟩
  by_cases hop : op = Op.CheckMasterStatus
      ∨ ∃ ty f, op = Op.ReportFinishedTask ty f ∧ (ty = MapTask ∨ ty = ReduceTask)
  · obtain ⟨hh, _, hph⟩ := step_checked h hop
    -- the statuses of the Reduce table are untouched while the phase is Mapping
    have hred : (∀ f, (f, ReduceTask) ∉ s.handed) →
        ∀ f, s'.master.statusOf ReduceTask f = some Finished
          → s.master.statusOf ReduceTask f = some Finished := by
      intro hd f hf
      rcases (hF ReduceTask f).mp hf with h1 | ⟨_, h1⟩
      · exact h1
      · exact absurd (hrep _ _ h1) (hd f)
    rcases hcase with ⟨p, a, r, hd⟩ | ⟨p, a, b⟩ | ⟨p, a, b⟩
    · have hr' : ∀ f, s'.master.statusOf ReduceTask f ≠ some Finished :=
        fun f hf => r f (hred hd f hf)
      rcases hph with ⟨_, a', p'⟩ | ⟨q, _⟩ | ⟨p', a', _⟩
      · exact Or.inr (Or.inl ⟨p', a', not_allDone_Reduce_of hex hr'⟩)
      · rw [p] at q
        exact absurd q (by decide)
      · refine Or.inl ⟨by rw [p', p], a' p, hr', ?_⟩
        rw [hh]
        exact hd
    · rcases hph with ⟨q, _⟩ | ⟨_, b', p'⟩ | ⟨p', _, b'⟩
      · rw [p] at q
        exact absurd q (by decide)
      · exact Or.inr (Or.inr ⟨p', hmono _ a, b'⟩)
      · exact Or.inr (Or.inl ⟨by rw [p', p], hmono _ a, b' p⟩)
    · rcases hph with ⟨q, _⟩ | ⟨q, _⟩ | ⟨p', _, _⟩
      · rw [p] at q
        exact absurd q (by decide)
      · rw [p] at q
        exact absurd q (by decide)
      · exact Or.inr (Or.inr ⟨by rw [p', p], hmono _ a, hmono _ b⟩)
  · rw [not_or] at hop
    obtain ⟨hop1, hop2⟩ := hop
    -- either nothing changed, or only statuses other than `Finished` did
    have hsame : s' = s ∨ (s'.master.TaskStatus = s.master.TaskStatus
        ∧ ∀ ty f, op ≠ Op.ReportFinishedTask ty f) := by
      by_cases hr : ∃ ty f, op = Op.ReportFinishedTask ty f
      · obtain ⟨ty, f, rfl⟩ := hr
        rcases step_report h with ⟨hty, _, _⟩ | ⟨_, _, hs⟩
        · exact absurd ⟨ty, f, rfl, hty⟩ hop2
        · exact Or.inl hs
      · have hr' : ∀ ty f, op ≠ Op.ReportFinishedTask ty f :=
          fun ty f he => hr ⟨ty, f, he⟩
        exact Or.inr ⟨step_phase_eq h hr' hop1, hr'⟩
    rcases hsame with rfl | ⟨hph, hnr⟩
    · exact hcase
    · have hFin : ∀ ty f, s'.master.statusOf ty f = some Finished
          ↔ s.master.statusOf ty f = some Finished := by
        intro ty f
        rw [hF]
        simp [hnr ty f]
      have hA : ∀ ty, s'.master.allDone ty ↔ s.master.allDone ty :=
        fun ty => allDone_congr (hFin ty) (hN ty)
      rcases hcase with ⟨p, a, r, hd⟩ | ⟨p, a, b⟩ | ⟨p, a, b⟩
      · refine Or.inl ⟨by rw [hph, p], fun ha => a ((hA _).mp ha),
          fun f hf => r f ((hFin _ _).mp hf), fun f hm => ?_⟩
        rcases step_handed h _ _ hm with h1 | ⟨h1, _⟩
        · exact hd f h1
        · rw [p] at h1
          exact absurd h1 (by decide)
      · exact Or.inr (Or.inl ⟨by rw [hph, p], (hA _).mpr a, fun hb => b ((hA _).mp hb)⟩)
      · exact Or.inr (Or.inr ⟨by rw [hph, p], (hA _).mpr a, (hA _).mpr b⟩)


/-! ## The tables built by `MakeMaster` -/

theorem mem_putEntries {es : List (String × TaskDetail)} {k : String} {v : TaskDetail}
    {e : String × TaskDetail} (h : e ∈ TaskStatusMap.putEntries es k v) :
    e ∈ es ∨ e = (k, v) := by
  unfold TaskStatusMap.putEntries at h
  split at h
  · obtain ⟨a, ha, hae⟩ := List.mem_map.mp h
    by_cases hk : a.1 = k
    · rw [if_pos hk] at hae
      exact Or.inr hae.symm
    · rw [if_neg hk] at hae
      exact Or.inl (hae ▸ ha)
  · rcases List.mem_append.mp h with h1 | h1
    · exact Or.inl h1
    · exact Or.inr (List.mem_singleton.mp h1)

theorem mem_keys_put (t : TaskStatusMap) (k k' : String) (v : TaskDetail) :
    k' ∈ (t.put k v).keys ↔ k' ∈ t.keys ∨ k' = k := by
  have hkeys : (t.put k v).keys
      = if k ∈ t.keys then t.keys else t.keys ++ [k] := by
    unfold TaskStatusMap.put TaskStatusMap.keys TaskStatusMap.putEntries
    simp only
    split
    · rw [List.map_map]
      apply List.map_congr_left
      intro e _
      by_cases h : e.1 = k <;> simp [h]
    · simp
  rw [hkeys]
  split
  · rename_i h
    constructor
    · exact Or.inl
    · rintro (h1 | rfl)
      · exact h1
      · exact h
  · simp

/-- Keys of a table filled by a loop of `put`s. -/
theorem mem_keys_foldl_put {α : Type} (key : α → String) (val : α → TaskDetail)
    (xs : List α) (t : TaskStatusMap) (k : String) :
    k ∈ (xs.foldl (fun acc x => acc.put (key x) (val x)) t).keys
      ↔ k ∈ t.keys ∨ ∃ x ∈ xs, key x = k := by
  induction xs generalizing t with
  | nil => simp
  | cons x xs ih =>
    rw [List.foldl_cons, ih, mem_keys_put]
    simp only [List.mem_cons, exists_eq_or_imp]
    constructor
    · rintro ((h | h) | h)
      · exact Or.inl h
      · exact Or.inr (Or.inl h.symm)
      · exact Or.inr (Or.inr h)
    · rintro (h | h | h)
      · exact Or.inl (Or.inl h)
      · exact Or.inl (Or.inr h.symm)
      · exact Or.inr h

/-- Statuses in a table filled by a loop of `put`s of `UnStarted` records. -/
theorem status_foldl_put {α : Type} (key : α → String) (val : α → TaskDetail)
    (hval : ∀ x, (val x).TaskStatus = UnStarted) (xs : List α) (t : TaskStatusMap)
    (ht : ∀ e ∈ t.entries, e.2.TaskStatus = UnStarted) :
    ∀ e ∈ (xs.foldl (fun acc x => acc.put (key x) (val x)) t).entries,
      e.2.TaskStatus = UnStarted := by
  induction xs generalizing t with
  | nil => exact ht
  | cons x xs ih =>
    rw [List.foldl_cons]
    apply ih
    intro e he
    rcases mem_putEntries he with h1 | h1
    · exact ht e h1
    · rw [h1]
      exact hval x

theorem mem_keys_InitMapTaskStatus (files : List String) (f : String) :
    f ∈ (InitMapTaskStatus files).keys ↔ f ∈ files := by
  unfold InitMapTaskStatus
  rw [mem_keys_foldl_put (fun p : Nat × String => p.2)
    (fun p => { TaskId := (p.1 : Int), TaskStatus := UnStarted })]
  have h0 : f ∉ TaskStatusMap.empty.keys := by simp [TaskStatusMap.empty, TaskStatusMap.keys]
  simp only [h0, false_or]
  constructor
  · rintro ⟨p, hp, rfl⟩
    have : p.2 ∈ files.enum.map Prod.snd := List.mem_map.mpr ⟨p, hp, rfl⟩
    rwa [List.enum_map_snd] at this
  · intro hf
    rw [← List.enum_map_snd files] at hf
    obtain ⟨p, hp, hpf⟩ := List.mem_map.mp hf
    exact ⟨p, hp, hpf⟩

theorem mem_keys_InitReduceTaskStatus (nReduce : Int) (f : String) :
    f ∈ (InitReduceTaskStatus nReduce).keys
      ↔ ∃ i : Nat, (i : Int) < nReduce ∧ GetReduceFileName (i : Int) = f := by
  unfold InitReduceTaskStatus
  rw [mem_keys_foldl_put (fun i : Nat => GetReduceFileName (i : Int))
    (fun i => { TaskId := (i : Int), TaskStatus := UnStarted })]
  have h0 : f ∉ TaskStatusMap.empty.keys := by simp [TaskStatusMap.empty, TaskStatusMap.keys]
  simp only [h0, false_or, List.mem_range]
  constructor
  · rintro ⟨i, hi, rfl⟩
    exact ⟨i, by omega, rfl⟩
  · rintro ⟨i, hi, rfl⟩
    exact ⟨i, by omega, rfl⟩

theorem status_InitMapTaskStatus (files : List String) (f : String) (d : TaskDetail)
    (h : (InitMapTaskStatus files).get f = some d) : d.TaskStatus = UnStarted := by
  have := status_foldl_put (fun p : Nat × String => p.2)
    (fun p => { TaskId := (p.1 : Int), TaskStatus := UnStarted }) (fun _ => rfl)
    files.enum TaskStatusMap.empty (by simp [TaskStatusMap.empty])
  exact this (f, d) ((TaskStatusMap.get_eq_some_iff _ f d).mp h)

theorem status_InitReduceTaskStatus (nReduce : Int) (f : String) (d : TaskDetail)
    (h : (InitReduceTaskStatus nReduce).get f = some d) : d.TaskStatus = UnStarted := by
  have := status_foldl_put (fun i : Nat => GetReduceFileName (i : Int))
    (fun i => { TaskId := (i : Int), TaskStatus := UnStarted }) (fun _ => rfl)
    (List.range nReduce.toNat) TaskStatusMap.empty (by simp [TaskStatusMap.empty])
  exact this (f, d) ((TaskStatusMap.get_eq_some_iff _ f d).mp h)

/-- Right after `MakeMaster` every record is `UnStarted`. -/
theorem statusOf_MakeMaster (files : List String) (nReduce : Int) (ty : Int) (f : String) :
    (MakeMaster files nReduce).statusOf ty f = none
      ∨ (MakeMaster files nReduce).statusOf ty f = some UnStarted := by
  unfold Master.statusOf Master.record MakeMaster
  by_cases h1 : ty = MapTask
  · simp only [if_pos h1]
    cases hg : (InitMapTaskStatus files).get f with
    | none => exact Or.inl rfl
    | some d => exact Or.inr (by simp [status_InitMapTaskStatus files f d hg])
  · by_cases h2 : ty = ReduceTask
    · simp only [if_neg h1, if_pos h2]
      cases hg : (InitReduceTaskStatus nReduce).get f with
      | none => exact Or.inl rfl
      | some d => exact Or.inr (by simp [status_InitReduceTaskStatus nReduce f d hg])
    · simp only [if_neg h1, if_neg h2]
      exact Or.inl rfl

theorem statusOf_Map_ne_none_iff (m : Master) (f : String) :
    m.statusOf MapTask f ≠ none ↔ f ∈ m.MapTaskStatus.keys := by
  rw [TaskStatusMap.mem_keys_iff]
  unfold Master.statusOf Master.record
  rw [if_pos rfl]
  cases m.MapTaskStatus.get f <;> simp

theorem statusOf_Reduce_ne_none_iff (m : Master) (f : String) :
    m.statusOf ReduceTask f ≠ none ↔ f ∈ m.ReduceTaskStatus.keys := by
  rw [TaskStatusMap.mem_keys_iff]
  unfold Master.statusOf Master.record
  have hne : ¬ (ReduceTask = MapTask) := by decide
  rw [if_neg hne, if_pos rfl]
  cases m.ReduceTaskStatus.get f <;> simp

theorem PhaseInv_MakeSys (files : List String) (nReduce : Int) (hfiles : files ≠ [])
    (hn : 1 ≤ nReduce) : PhaseInv (MakeSys files nReduce) := by
  have hU := statusOf_MakeMaster files nReduce
  have hnf : ∀ ty f, (MakeMaster files nReduce).statusOf ty f ≠ some Finished := by
    intro ty f hf
    rcases hU ty f with h | h
    · rw [h] at hf
      exact absurd hf (by simp)
    · rw [h] at hf
      exact absurd hf (by simp)
  refine ⟨⟨GetReduceFileName 0, ?_⟩, Or.inl ⟨rfl, ?_, fun f => hnf _ f, fun f hm => ?_⟩⟩
  · rw [statusOf_Reduce_ne_none_iff]
    exact (mem_keys_InitReduceTaskStatus nReduce _).mpr ⟨0, by omega, rfl⟩
  · intro hd
    obtain ⟨f0, fs, rfl⟩ := List.exists_cons_of_ne_nil hfiles
    have hk : (MakeMaster (f0 :: fs) nReduce).statusOf MapTask f0 ≠ none := by
      rw [statusOf_Map_ne_none_iff]
      exact (mem_keys_InitMapTaskStatus _ _).mpr (List.mem_cons_self _ _)
    rcases hd f0 with h | h
    · exact hk h
    · exact hnf _ _ h
  · simp [MakeSys] at hm

/-! ## The visiting order is a permutation of the table -/

/-- A `range` loop visits every entry of the table exactly once. -/
theorem TaskStatusMap.rangeOrder_perm (t : TaskStatusMap) (ord : List String) :
    (t.rangeOrder ord).Perm t.entries := by
  have hne : t.entries.Nodup := List.Nodup.of_map _ t.nodup
  have hrn : (t.rangeOrder ord).Nodup := by
    unfold TaskStatusMap.rangeOrder
    apply List.Nodup.append
    · rw [List.nodup_flatten]
      constructor
      · intro l hl
        obtain ⟨k, _, rfl⟩ := List.mem_map.mp hl
        exact hne.filter _
      · rw [List.pairwise_map]
        apply (List.nodup_dedup ord).imp
        intro k k' hkk e he he'
        have h1 := (List.mem_filter.mp he).2
        have h2 := (List.mem_filter.mp he').2
        simp only [decide_eq_true_eq] at h1 h2
        exact hkk (h1.symm.trans h2)
    · exact hne.filter _
    · intro e he he'
      obtain ⟨l, hl, hel⟩ := List.mem_flatten.mp he
      obtain ⟨k, hk, rfl⟩ := List.mem_map.mp hl
      have h1 := (List.mem_filter.mp hel).2
      have h2 := (List.mem_filter.mp he').2
      simp only [decide_eq_true_eq, decide_not, Bool.not_eq_true', decide_eq_false_iff_not]
        at h1 h2
      rw [h1] at h2
      exact h2 (List.mem_dedup.mp hk)
  exact (List.perm_ext_iff_of_nodup hrn hne).mpr (TaskStatusMap.mem_rangeOrder t ord)

theorem filter_key_eq_singleton {es : List (String × TaskDetail)}
    (nd : (es.map Prod.fst).Nodup) {e : String × TaskDetail} (he : e ∈ es) :
    es.filter (fun x => decide (x.1 = e.1)) = [e] := by
  induction es with
  | nil => simp at he
  | cons x xs ih =>
    rw [List.map_cons, List.nodup_cons] at nd
    rcases List.mem_cons.mp he with rfl | hmem
    · have hnil : xs.filter (fun x => decide (x.1 = e.1)) = [] := by
        rw [List.filter_eq_nil_iff]
        intro y hy hk
        simp only [decide_eq_true_eq] at hk
        exact nd.1 (List.mem_map.mpr ⟨y, hy, hk⟩)
      simp [List.filter_cons, hnil]
    · have hne : ¬ x.1 = e.1 := fun hk => nd.1 (List.mem_map.mpr ⟨e, hmem, hk.symm⟩)
      simp only [List.filter_cons, hne, decide_False, Bool.false_eq_true, if_false]
      exact ih nd.2 hmem

/-- Every order of the entries is the visiting order for some `ord`: the list
of its keys. -/
theorem TaskStatusMap.rangeOrder_of_perm (t : TaskStatusMap)
    (p : List (String × TaskDetail)) (hp : p.Perm t.entries) :
    t.rangeOrder (p.map Prod.fst) = p := by
  have hkeys : (p.map Prod.fst).Nodup := (hp.map Prod.fst).nodup_iff.mpr t.nodup
  unfold TaskStatusMap.rangeOrder
  have h2 : t.entries.filter (fun e => decide (e.1 ∉ p.map Prod.fst)) = [] := by
    rw [List.filter_eq_nil_iff]
    intro e he hk
    simp only [decide_eq_true_eq] at hk
    exact hk (List.mem_map.mpr ⟨e, hp.mem_iff.mpr he, rfl⟩)
  have h1 : ((p.map Prod.fst).dedup.map
      (fun k => t.entries.filter (fun e => decide (e.1 = k)))).flatten = p := by
    rw [hkeys.dedup, List.map_map]
    have hcongr : p.map ((fun k => t.entries.filter (fun e => decide (e.1 = k))) ∘ Prod.fst)
        = p.map (fun e => [e]) := by
      apply List.map_congr_left
      intro e he
      exact filter_key_eq_singleton t.nodup (hp.mem_iff.mp he)
    rw [hcongr]
    clear hcongr h2 hkeys hp
    induction p with
    | nil => rfl
    | cons x xs ih => simp [ih]
  rw [h1, h2, List.append_nil]

/-! ## The decimal rendering of a number determines the number -/

/-- The character of a decimal digit gives the digit back. -/
theorem digitChar_toNat (k : Nat) (hk : k < 10) : (Nat.digitChar k).toNat - 48 = k := by
  interval_cases k <;> rfl

theorem decode_toDigitsCore (fuel n : Nat) (ds : List Char) (h : n < fuel) :
    (Nat.toDigitsCore 10 fuel n ds).foldl (fun a c => 10 * a + (c.toNat - 48)) 0
      = ds.foldl (fun a c => 10 * a + (c.toNat - 48)) n := by
  induction fuel generalizing n ds with
  | zero => exact absurd h (Nat.not_lt_zero n)
  | succ fuel ih =>
    unfold Nat.toDigitsCore
    by_cases h0 : n / 10 = 0
    · simp only [h0, if_true, List.foldl_cons, Nat.mul_zero, Nat.zero_add]
      rw [digitChar_toNat _ (Nat.mod_lt _ (by decide))]
      have : n % 10 = n := by omega
      rw [this]
    · simp only [h0, if_false]
      rw [ih (n / 10) _ (by omega), List.foldl_cons,
        digitChar_toNat _ (Nat.mod_lt _ (by decide))]
      have : 10 * (n / 10) + n % 10 = n := by omega
      rw [this]

theorem Nat_repr_injective {n m : Nat} (h : Nat.repr n = Nat.repr m) : n = m := by
  unfold Nat.repr List.asString at h
  have hd : Nat.toDigits 10 n = Nat.toDigits 10 m := congrArg String.data h
  have hn := decode_toDigitsCore (n + 1) n [] (Nat.lt_succ_self n)
  have hm := decode_toDigitsCore (m + 1) m [] (Nat.lt_succ_self m)
  unfold Nat.toDigits at hd
  rw [hd, hm] at hn
  simpa using hn.symm

theorem Itoa_natCast (i : Nat) : Itoa (i : Int) = Nat.repr i := rfl

theorem GetReduceFileName_injective {i j : Nat}
    (h : GetReduceFileName (i : Int) = GetReduceFileName (j : Int)) : i = j := by
  unfold GetReduceFileName at h
  rw [Itoa_natCast, Itoa_natCast] at h
  have hd := congrArg String.data h
  simp only [String.data_append, List.append_cancel_left_eq] at hd
  apply Nat_repr_injective
  exact String.ext hd

/-! ## The entries of a table filled by a loop of `put`s -/

/-- When the keys put are pairwise distinct and new, the loop appends one
entry per element, in order. -/
theorem entries_foldl_put {α : Type} (key : α → String) (val : α → TaskDetail)
    (xs : List α) (t : TaskStatusMap) (hnd : (xs.map key).Nodup)
    (hnew : ∀ x ∈ xs, key x ∉ t.keys) :
    (xs.foldl (fun acc x => acc.put (key x) (val x)) t).entries
      = t.entries ++ xs.map (fun x => (key x, val x)) := by
  induction xs generalizing t with
  | nil => simp
  | cons x xs ih =>
    rw [List.map_cons, List.nodup_cons] at hnd
    have hx : key x ∉ t.keys := hnew x (List.mem_cons_self _ _)
    have hput : (t.put (key x) (val x)).entries = t.entries ++ [(key x, val x)] := by
      unfold TaskStatusMap.put TaskStatusMap.putEntries
      simp only
      rw [if_neg]
      exact hx
    rw [List.foldl_cons, ih _ hnd.2, hput, List.map_cons, List.append_assoc]
    · rfl
    · intro y hy hmem
      rcases (mem_keys_put t (key x) (key y) (val x)).mp hmem with h | h
      · exact hnew y (List.mem_cons_of_mem _ hy) h
      · exact hnd.1 (List.mem_map.mpr ⟨y, hy, h⟩)

/-- Every entry of the table after the loop was in the table before it or was
put by the loop. -/
theorem mem_entries_foldl_put {α : Type} (key : α → String) (val : α → TaskDetail)
    (xs : List α) (t : TaskStatusMap) (e : String × TaskDetail)
    (he : e ∈ (xs.foldl (fun acc x => acc.put (key x) (val x)) t).entries) :
    e ∈ t.entries ∨ ∃ x ∈ xs, e = (key x, val x) := by
  induction xs generalizing t with
  | nil => exact Or.inl he
  | cons x xs ih =>
    rw [List.foldl_cons] at he
    rcases ih _ he with h | ⟨y, hy, h⟩
    · rcases mem_putEntries h with h1 | h1
      · exact Or.inl h1
      · exact Or.inr ⟨x, List.mem_cons_self _ _, h1⟩
    · exact Or.inr ⟨y, List.mem_cons_of_mem _ hy, h⟩

theorem entries_InitMapTaskStatus (files : List String) (hnd : files.Nodup) :
    (InitMapTaskStatus files).entries
      = files.enum.map
          (fun (p : Nat × String) =>
            (p.2, ({ TaskId := (p.1 : Int), TaskStatus := UnStarted } : TaskDetail))) := by
  unfold InitMapTaskStatus
  rw [entries_foldl_put (fun p : Nat × String => p.2)
    (fun p => { TaskId := (p.1 : Int), TaskStatus := UnStarted })]
  · rfl
  · rw [List.enum_map_snd]
    exact hnd
  · intro x _
    simp [TaskStatusMap.empty, TaskStatusMap.keys]

theorem entries_InitReduceTaskStatus (nReduce : Int) :
    (InitReduceTaskStatus nReduce).entries
      = (List.range nReduce.toNat).map
          (fun (i : Nat) => (GetReduceFileName (i : Int),
            ({ TaskId := (i : Int), TaskStatus := UnStarted } : TaskDetail))) := by
  unfold InitReduceTaskStatus
  rw [entries_foldl_put (fun i : Nat => GetReduceFileName (i : Int))
    (fun i => { TaskId := (i : Int), TaskStatus := UnStarted })]
  · rfl
  · exact (List.nodup_range _).map (fun i j h => GetReduceFileName_injective h)
  · intro x _
    simp [TaskStatusMap.empty, TaskStatusMap.keys]


/-! ## C1: when the job is done -/

/-- Along an execution a record is `Finished` at the end exactly when it was at
the start or the execution contains a report of it. -/
theorem run_finished_iff {s s' : Sys} {ops : List Op} (h : run s ops = .ok s') (ty : Int)
    (f : String) :
    s'.master.statusOf ty f = some Finished
      ↔ s.master.statusOf ty f = some Finished
        ∨ (s.master.statusOf ty f ≠ none ∧ Op.ReportFinishedTask ty f ∈ ops) := by
  induction ops generalizing s with
  | nil =>
    simp only [run, Except.ok.injEq] at h
    rw [h]
    simp
  | cons op ops ih =>
    obtain ⟨s1, h1, h2⟩ := run_cons h
    have hn1 := step_none_iff h1 ty f
    rw [ih h2, step_finished_iff h1, Ne, Ne, hn1, List.mem_cons]
    constructor
    · rintro ((hf | ⟨hn, he⟩) | ⟨hn, hm⟩)
      · exact Or.inl hf
      · exact Or.inr ⟨hn, Or.inl he.symm⟩
      · exact Or.inr ⟨hn, Or.inr hm⟩
    · rintro (hf | ⟨hn, he | hm⟩)
      · exact Or.inl (Or.inl hf)
      · exact Or.inl (Or.inr ⟨hn, he.symm⟩)
      · exact Or.inr ⟨hn, hm⟩

theorem run_PhaseInv {s s' : Sys} {ops : List Op} (hinv : PhaseInv s)
    (h : run s ops = .ok s') (hass : reportsAssigned s ops = true) : PhaseInv s' := by
  induction ops generalizing s with
  | nil =>
    simp only [run, Except.ok.injEq] at h
    rw [← h]
    exact hinv
  | cons op ops ih =>
    obtain ⟨s1, h1, h2⟩ := run_cons h
    simp only [reportsAssigned, h1, Bool.and_eq_true] at hass
    refine ih (step_PhaseInv hinv h1 ?_) h2 hass.2
    intro ty f he
    subst he
    simpa using hass.1

/-- C1 (amended): for a coordinator built from at least one input file and
`nReduce >= 1`, and every execution in which each report names a task that an
earlier `GetUnStartedTask` handed out, `Done` is true at the end if and only if
every Map task and every Reduce task has been reported in the execution. -/
theorem C1_done_iff_all_reported (files : List String) (nReduce : Int) (ops : List Op)
    (s : Sys) (hfiles : files ≠ []) (hn : 1 ≤ nReduce)
    (hrun : run (MakeSys files nReduce) ops = .ok s)
    (hass : reportsAssigned (MakeSys files nReduce) ops = true) :
    Done s.master = true
      ↔ (∀ f ∈ files, Op.ReportFinishedTask MapTask f ∈ ops)
        ∧ (∀ i : Nat, (i : Int) < nReduce →
            Op.ReportFinishedTask ReduceTask (GetReduceFileName (i : Int)) ∈ ops) := by
  have hinv := run_PhaseInv (PhaseInv_MakeSys files nReduce hfiles hn) hrun hass
  have hfin := run_finished_iff hrun
  have hnone := run_none_iff hrun
  have hnf : ∀ ty f, (MakeSys files nReduce).master.statusOf ty f ≠ some Finished := by
    intro ty f hf
    rcases statusOf_MakeMaster files nReduce ty f with h | h
    · exact absurd (h.symm.trans hf) (by simp)
    · exact absurd (h.symm.trans hf) (by simp)
  have hmap : ∀ f, (MakeSys files nReduce).master.statusOf MapTask f ≠ none ↔ f ∈ files :=
    fun f => (statusOf_Map_ne_none_iff _ f).trans (mem_keys_InitMapTaskStatus files f)
  have hred : ∀ f, (MakeSys files nReduce).master.statusOf ReduceTask f ≠ none
      ↔ ∃ i : Nat, (i : Int) < nReduce ∧ GetReduceFileName (i : Int) = f :=
    fun f => (statusOf_Reduce_ne_none_iff _ f).trans (mem_keys_InitReduceTaskStatus nReduce f)
  have hreported : ∀ ty f, s.master.statusOf ty f = some Finished
      → Op.ReportFinishedTask ty f ∈ ops := by
    intro ty f hf
    rcases (hfin ty f).mp hf with h | ⟨_, h⟩
    · exact absurd h (hnf ty f)
    · exact h
  unfold Done
  rw [decide_eq_true_eq]
  constructor
  · intro hdone
    obtain ⟨_, ⟨p, _⟩ | ⟨p, _⟩ | ⟨_, a, b⟩⟩ := hinv
    · rw [hdone] at p
      exact absurd p (by decide)
    · rw [hdone] at p
      exact absurd p (by decide)
    · constructor
      · intro f hf
        apply hreported
        rcases a f with h | h
        · exact absurd ((hnone _ _).mp h) ((hmap f).mpr hf)
        · exact h
      · intro i hi
        apply hreported
        rcases b (GetReduceFileName (i : Int)) with h | h
        · exact absurd ((hnone _ _).mp h) ((hred _).mpr ⟨i, hi, rfl⟩)
        · exact h
  · rintro ⟨hm, hr⟩
    have a : s.master.allDone MapTask := by
      intro f
      by_cases hx : (MakeSys files nReduce).master.statusOf MapTask f = none
      · exact Or.inl ((hnone _ _).mpr hx)
      · exact Or.inr ((hfin _ _).mpr (Or.inr ⟨hx, hm f ((hmap f).mp hx)⟩))
    have b : s.master.allDone ReduceTask := by
      intro f
      by_cases hx : (MakeSys files nReduce).master.statusOf ReduceTask f = none
      · exact Or.inl ((hnone _ _).mpr hx)
      · obtain ⟨i, hi, rfl⟩ := (hred f).mp hx
        exact Or.inr ((hfin _ _).mpr (Or.inr ⟨hx, hr i hi⟩))
    obtain ⟨_, ⟨_, na, _⟩ | ⟨_, _, nb⟩ | ⟨p, _, _⟩⟩ := hinv
    · exact absurd a na
    · exact absurd b nb
    · exact p

/-- The hypotheses of C1 hold for the complete run of the 3-file, 2-reduce job,
and both sides of the equivalence are true there. -/
theorem C1_done_iff_all_reported_witness :
    ["a.txt", "b.txt", "c.txt"] ≠ [] ∧ (1 : Int) ≤ 2
      ∧ run (MakeSys ["a.txt", "b.txt", "c.txt"] 2) fullJob
          = .ok (exec (MakeSys ["a.txt", "b.txt", "c.txt"] 2) fullJob)
      ∧ reportsAssigned (MakeSys ["a.txt", "b.txt", "c.txt"] 2) fullJob = true
      ∧ Done (exec (MakeSys ["a.txt", "b.txt", "c.txt"] 2) fullJob).master = true
      ∧ (Done (exec (MakeSys ["a.txt", "b.txt", "c.txt"] 2) fullJob).master = true
        ↔ (∀ f ∈ ["a.txt", "b.txt", "c.txt"], Op.ReportFinishedTask MapTask f ∈ fullJob)
          ∧ (∀ i : Nat, (i : Int) < 2 →
              Op.ReportFinishedTask ReduceTask (GetReduceFileName (i : Int)) ∈ fullJob)) :=
  ⟨by decide, by decide, by decide, by decide, by decide,
    C1_done_iff_all_reported ["a.txt", "b.txt", "c.txt"] 2 fullJob _ (by decide) (by decide)
      (by decide) (by decide)⟩

/-- C1 as stated fails: in the 3-file, 2-reduce job the two Reduce tasks are
reported while the phase is still Mapping, then the three Map tasks; the
execution has no fault, every task has been reported, and `Done` is false at
the end. -/
theorem C1_counterexample :
    run (MakeSys ["a.txt", "b.txt", "c.txt"] 2) reduceFirst
        = .ok (exec (MakeSys ["a.txt", "b.txt", "c.txt"] 2) reduceFirst)
      ∧ (∀ f ∈ (MakeMaster ["a.txt", "b.txt", "c.txt"] 2).MapTaskStatus.keys,
          Op.ReportFinishedTask MapTask f ∈ reduceFirst)
      ∧ (∀ f ∈ (MakeMaster ["a.txt", "b.txt", "c.txt"] 2).ReduceTaskStatus.keys,
          Op.ReportFinishedTask ReduceTask f ∈ reduceFirst)
      ∧ Done (exec (MakeSys ["a.txt", "b.txt", "c.txt"] 2) reduceFirst).master = false
      ∧ (exec (MakeSys ["a.txt", "b.txt", "c.txt"] 2) reduceFirst).master.TaskStatus
          = ReduceTask := by
  decide

/-! ## C2: a report that names no record -/

/-- C2 (what the code does): in the coordinator built from `a.txt` with
`nReduce = 1`, a report of the Map task `b.txt`, and a report of the Reduce
task `mr-out-7`, name no record of their table; the handler dereferences the
nil pointer of the failed lookup and produces no reply. -/
theorem C2_report_unknown_file_faults :
    (MakeMaster ["a.txt"] 1).MapTaskStatus.get "b.txt" = none
      ∧ ReportFinishedTask (MakeMaster ["a.txt"] 1) { TaskType := MapTask, File := "b.txt" }
          = .error Fault.nilDereference
      ∧ (MakeMaster ["a.txt"] 1).ReduceTaskStatus.get "mr-out-7" = none
      ∧ ReportFinishedTask (MakeMaster ["a.txt"] 1)
            { TaskType := ReduceTask, File := "mr-out-7" }
          = .error Fault.nilDereference := by
  decide

/-! ## C3: a report for the table of the other phase -/

/-- C3 (amended): a report whose type is `MapTask` or `ReduceTask`, is not the
type of the active phase, and whose file is a key of the table of that type,
is accepted: the reply has `Ok = true`, the `CheckMasterStatus` goroutine is
started, the named record becomes `Finished` and keeps its `TaskId`, every other
record and the phase are as before. -/
theorem C3_other_phase_report_accepted (m : Master) (a : TaskFinishedArgs) (d : TaskDetail)
    (_hty : a.TaskType = MapTask ∨ a.TaskType = ReduceTask)
    (_hphase : a.TaskType ≠ m.TaskStatus)
    (hkey : m.record a.TaskType a.File = some d) :
    ∃ m', ReportFinishedTask m a
          = .ok (m', { Ok := true }, [Goroutine.CheckMasterStatus])
      ∧ m'.record a.TaskType a.File = some { TaskId := d.TaskId, TaskStatus := Finished }
      ∧ m'.TaskStatus = m.TaskStatus
      ∧ ∀ ty f, ¬ (ty = a.TaskType ∧ f = a.File) → m'.record ty f = m.record ty f := by
  refine ⟨m.setStatus a.TaskType a.File Finished, ReportFinishedTask_present hkey, ?_,
    phase_setStatus _ _ _ _, ?_⟩
  · rw [record_setStatus, if_pos ⟨rfl, rfl⟩, hkey]
    rfl
  · intro ty f hne
    rw [record_setStatus, if_neg hne]

/-- The hypotheses of C3 hold for a report of the Reduce task `mr-out-0` right
after `MakeMaster ["a.txt"] 1`, when the phase is Mapping. -/
theorem C3_other_phase_report_accepted_witness :
    ((ReduceTask : Int) = MapTask ∨ (ReduceTask : Int) = ReduceTask)
      ∧ ReduceTask ≠ (MakeMaster ["a.txt"] 1).TaskStatus
      ∧ (MakeMaster ["a.txt"] 1).record ReduceTask "mr-out-0"
          = some { TaskId := 0, TaskStatus := UnStarted }
      ∧ ∃ m', ReportFinishedTask (MakeMaster ["a.txt"] 1)
              { TaskType := ReduceTask, File := "mr-out-0" }
            = .ok (m', { Ok := true }, [Goroutine.CheckMasterStatus])
        ∧ m'.record ReduceTask "mr-out-0" = some { TaskId := 0, TaskStatus := Finished }
        ∧ m'.TaskStatus = (MakeMaster ["a.txt"] 1).TaskStatus
        ∧ ∀ ty f, ¬ (ty = ReduceTask ∧ f = "mr-out-0")
            → m'.record ty f = (MakeMaster ["a.txt"] 1).record ty f :=
  ⟨by decide, by decide, by decide,
    C3_other_phase_report_accepted (MakeMaster ["a.txt"] 1)
      { TaskType := ReduceTask, File := "mr-out-0" } { TaskId := 0, TaskStatus := UnStarted }
      (by decide) (by decide) (by decide)⟩

/-- C3 as stated fails: right after `MakeMaster ["a.txt"] 1` the phase is
Mapping; a report of the Reduce task `mr-out-0` is answered with `Ok = true`
and changes the status of that record from `UnStarted` to `Finished`. -/
theorem C3_counterexample :
    (MakeMaster ["a.txt"] 1).TaskStatus = MapTask
      ∧ (MakeMaster ["a.txt"] 1).statusOf ReduceTask "mr-out-0" = some UnStarted
      ∧ (ReportFinishedTask (MakeMaster ["a.txt"] 1)
            { TaskType := ReduceTask, File := "mr-out-0" }).map (fun r => r.2.1.Ok)
          = .ok true
      ∧ (ReportFinishedTask (MakeMaster ["a.txt"] 1)
            { TaskType := ReduceTask, File := "mr-out-0" }).map
            (fun r => r.1.statusOf ReduceTask "mr-out-0")
          = .ok (some Finished) := by
  decide

/-! ## C4: reporting twice -/

theorem TaskStatusMap.setStatus_of_status (t : TaskStatusMap) (k : String) (s : Int)
    (h : ∀ d, t.get k = some d → d.TaskStatus = s) : t.setStatus k s = t := by
  have hent : (t.setStatus k s).entries = t.entries := by
    unfold TaskStatusMap.setStatus TaskStatusMap.setStatusEntries
    simp only
    conv_rhs => rw [← List.map_id t.entries]
    apply List.map_congr_left
    intro e he
    by_cases hk : e.1 = k
    · have hs := h e.2 ((TaskStatusMap.get_eq_some_iff t k e.2).mpr (by rw [← hk]; exact he))
      rw [if_pos hk, id]
      cases e with
      | mk k' d =>
        cases d
        simp_all
    · rw [if_neg hk, id]
  cases t
  simp only [TaskStatusMap.setStatus] at hent ⊢
  simp only [TaskStatusMap.mk.injEq]
  exact hent

theorem Master.setStatus_eq_self (m : Master) (ty : Int) (f : String) (s : Int)
    (h : m.statusOf ty f = some s) : m.setStatus ty f s = m := by
  unfold Master.statusOf Master.record at h
  unfold Master.setStatus
  by_cases h1 : ty = MapTask
  · rw [if_pos h1] at h ⊢
    rw [TaskStatusMap.setStatus_of_status]
    intro d hd
    rw [hd] at h
    simpa using h
  · by_cases h2 : ty = ReduceTask
    · rw [if_neg h1, if_pos h2] at h ⊢
      rw [TaskStatusMap.setStatus_of_status]
      intro d hd
      rw [hd] at h
      simpa using h
    · rw [if_neg h1, if_neg h2]

theorem reportAndCheck_present {m : Master} {a : TaskFinishedArgs} {d : TaskDetail}
    (hr : m.record a.TaskType a.File = some d) :
    reportAndCheck m a
      = .ok (CheckMasterStatus (m.setStatus a.TaskType a.File Finished), { Ok := true }) := by
  unfold reportAndCheck
  rw [ReportFinishedTask_present hr]
  simp

/-- C4 (amended): for every state and every task present in its table, two
reports in a row with the same arguments, each followed by its
`CheckMasterStatus`, both return `Ok = true`; the task is `Finished` after
each, and the two task tables after the second report are those after the
first.  The state after the second report is the state after the first with
one more `CheckMasterStatus` applied: it is the same state when the table of
the phase reached after the first report is not wholly `Finished`, and
otherwise the phase has moved one step further. -/
theorem C4_report_twice (m : Master) (a : TaskFinishedArgs) (d : TaskDetail)
    (hkey : m.record a.TaskType a.File = some d) :
    ∃ m1, reportAndCheck m a = .ok (m1, { Ok := true })
      ∧ reportAndCheck m1 a = .ok (CheckMasterStatus m1, { Ok := true })
      ∧ m1.statusOf a.TaskType a.File = some Finished
      ∧ (CheckMasterStatus m1).statusOf a.TaskType a.File = some Finished
      ∧ (CheckMasterStatus m1).MapTaskStatus = m1.MapTaskStatus
      ∧ (CheckMasterStatus m1).ReduceTaskStatus = m1.ReduceTaskStatus
      ∧ (IsPhaseFinished m1 m1.TaskStatus = false → CheckMasterStatus m1 = m1)
      ∧ (m1.TaskStatus = Free → CheckMasterStatus m1 = m1)
      ∧ (m1.TaskStatus = MapTask → IsPhaseFinished m1 MapTask = true
          → (CheckMasterStatus m1).TaskStatus = ReduceTask)
      ∧ (m1.TaskStatus = ReduceTask → IsPhaseFinished m1 ReduceTask = true
          → (CheckMasterStatus m1).TaskStatus = Free)
      ∧ phaseRank m1.TaskStatus ≤ phaseRank (CheckMasterStatus m1).TaskStatus := by
  have hfin : (CheckMasterStatus (m.setStatus a.TaskType a.File Finished)).statusOf
      a.TaskType a.File = some Finished := by
    rw [statusOf_CheckMasterStatus, statusOf_setStatus, if_pos ⟨rfl, rfl⟩]
    simp [Master.statusOf, hkey]
  refine ⟨_, reportAndCheck_present hkey, ?_, hfin, ?_,
    (tables_CheckMasterStatus _).1, (tables_CheckMasterStatus _).2, ?_, ?_, ?_, ?_, ?_⟩
  · obtain ⟨d1, hd1⟩ : ∃ d1, (CheckMasterStatus
        (m.setStatus a.TaskType a.File Finished)).record a.TaskType a.File = some d1 := by
      unfold Master.statusOf at hfin
      cases hc : (CheckMasterStatus
        (m.setStatus a.TaskType a.File Finished)).record a.TaskType a.File with
      | none => rw [hc] at hfin; simp at hfin
      | some d1 => exact ⟨d1, rfl⟩
    rw [reportAndCheck_present hd1, Master.setStatus_eq_self _ _ _ _ hfin]
  · rw [statusOf_CheckMasterStatus]
    exact hfin
  · intro hnot
    generalize CheckMasterStatus (m.setStatus a.TaskType a.File Finished) = m1 at hnot ⊢
    unfold CheckMasterStatus
    split
    · rename_i h1
      rw [h1] at hnot
      simp [hnot]
    · split
      · rename_i h2
        rw [h2] at hnot
        simp [hnot]
      · rfl
  · intro hfree
    generalize CheckMasterStatus (m.setStatus a.TaskType a.File Finished) = m1 at hfree ⊢
    unfold CheckMasterStatus
    rw [hfree]
    simp
  · intro hp hfinished
    generalize CheckMasterStatus (m.setStatus a.TaskType a.File Finished) = m1 at hp hfinished ⊢
    unfold CheckMasterStatus
    rw [if_pos hp, if_pos hfinished]
  · intro hp hfinished
    generalize CheckMasterStatus (m.setStatus a.TaskType a.File Finished) = m1 at hp hfinished ⊢
    have hne : ¬ (m1.TaskStatus = MapTask) := by
      rw [hp]
      decide
    unfold CheckMasterStatus
    rw [if_neg hne, if_pos hp, if_pos hfinished]
  · generalize CheckMasterStatus (m.setStatus a.TaskType a.File Finished) = m1
    rcases CheckMasterStatus_cases m1 with ⟨h1, _, h2⟩ | ⟨h1, _, h2⟩ | ⟨h1, _⟩
    · rw [h1, h2]; decide
    · rw [h1, h2]; decide
    · rw [h1]

/-- The hypothesis of C4 holds for the Map task `a.txt` right after
`MakeMaster ["a.txt", "b.txt"] 1`. -/
theorem C4_report_twice_witness :
    (MakeMaster ["a.txt", "b.txt"] 1).record MapTask "a.txt"
        = some { TaskId := 0, TaskStatus := UnStarted }
      ∧ ∃ m1, reportAndCheck (MakeMaster ["a.txt", "b.txt"] 1)
              { TaskType := MapTask, File := "a.txt" } = .ok (m1, { Ok := true })
        ∧ reportAndCheck m1 { TaskType := MapTask, File := "a.txt" }
            = .ok (CheckMasterStatus m1, { Ok := true })
        ∧ m1.statusOf MapTask "a.txt" = some Finished
        ∧ (CheckMasterStatus m1).statusOf MapTask "a.txt" = some Finished
        ∧ (CheckMasterStatus m1).MapTaskStatus = m1.MapTaskStatus
        ∧ (CheckMasterStatus m1).ReduceTaskStatus = m1.ReduceTaskStatus
        ∧ (IsPhaseFinished m1 m1.TaskStatus = false → CheckMasterStatus m1 = m1)
        ∧ (m1.TaskStatus = Free → CheckMasterStatus m1 = m1)
        ∧ (m1.TaskStatus = MapTask → IsPhaseFinished m1 MapTask = true
            → (CheckMasterStatus m1).TaskStatus = ReduceTask)
        ∧ (m1.TaskStatus = ReduceTask → IsPhaseFinished m1 ReduceTask = true
            → (CheckMasterStatus m1).TaskStatus = Free)
        ∧ phaseRank m1.TaskStatus ≤ phaseRank (CheckMasterStatus m1).TaskStatus :=
  ⟨by decide,
    C4_report_twice (MakeMaster ["a.txt", "b.txt"] 1) { TaskType := MapTask, File := "a.txt" }
      { TaskId := 0, TaskStatus := UnStarted } (by decide)⟩

/-- C4 as stated fails.  With `MakeMaster ["a.txt"] 0` the first report of the
Map task makes the phase Reducing and the second, identical, report makes it
AllDone.  With `MakeMaster ["a.txt"] 1`, once the Reduce task has been reported
during the Map phase, the same happens: both reports of `a.txt` return
`Ok = true`, and the states after the first and after the second differ. -/
theorem C4_counterexample :
    (reportAndCheck (MakeMaster ["a.txt"] 0) { TaskType := MapTask, File := "a.txt" }).map
          (fun r => (r.1.TaskStatus, r.2.Ok))
        = .ok (ReduceTask, true)
      ∧ ((reportAndCheck (MakeMaster ["a.txt"] 0) { TaskType := MapTask, File := "a.txt" }).bind
            (fun r => reportAndCheck r.1 { TaskType := MapTask, File := "a.txt" })).map
            (fun r => (r.1.TaskStatus, r.2.Ok))
          = .ok (Free, true)
      ∧ run (MakeSys ["a.txt"] 1) [Op.ReportFinishedTask ReduceTask "mr-out-0"]
          = .ok (exec (MakeSys ["a.txt"] 1) [Op.ReportFinishedTask ReduceTask "mr-out-0"])
      ∧ (reportAndCheck
            (exec (MakeSys ["a.txt"] 1) [Op.ReportFinishedTask ReduceTask "mr-out-0"]).master
            { TaskType := MapTask, File := "a.txt" }).map (fun r => (r.1.TaskStatus, r.2.Ok))
          = .ok (ReduceTask, true)
      ∧ ((reportAndCheck
            (exec (MakeSys ["a.txt"] 1) [Op.ReportFinishedTask ReduceTask "mr-out-0"]).master
            { TaskType := MapTask, File := "a.txt" }).bind
            (fun r => reportAndCheck r.1 { TaskType := MapTask, File := "a.txt" })).map
            (fun r => (r.1.TaskStatus, r.2.Ok))
          = .ok (Free, true) := by
  decide

/-! ## The phase in the schedule `step` -/

/-- What a step can do to the phase: nothing, or one move forward, made only
when the table of the phase that is left is complete after the step. -/
theorem step_phase_cases {s s' : Sys} {op : Op} (h : step s op = .ok s') :
    s'.master.TaskStatus = s.master.TaskStatus
      ∨ (s.master.TaskStatus = MapTask ∧ s'.master.allDone MapTask
          ∧ s'.master.TaskStatus = ReduceTask)
      ∨ (s.master.TaskStatus = ReduceTask ∧ s'.master.allDone ReduceTask
          ∧ s'.master.TaskStatus = Free) := by
  by_cases hop : op = Op.CheckMasterStatus
      ∨ ∃ ty f, op = Op.ReportFinishedTask ty f ∧ (ty = MapTask ∨ ty = ReduceTask)
  · obtain ⟨_, _, h1 | h1 | ⟨h1, _⟩⟩ := step_checked h hop
    · exact Or.inr (Or.inl h1)
    · exact Or.inr (Or.inr h1)
    · exact Or.inl h1
  · rw [not_or] at hop
    by_cases hr : ∃ ty f, op = Op.ReportFinishedTask ty f
    · obtain ⟨ty, f, rfl⟩ := hr
      rcases step_report h with ⟨hty, _, _⟩ | ⟨_, _, hs⟩
      · exact absurd ⟨ty, f, rfl, hty⟩ hop.2
      · rw [hs]
        exact Or.inl rfl
    · exact Or.inl (step_phase_eq h (fun ty f he => hr ⟨ty, f, he⟩) hop.1)

theorem step_phaseRank {s s' : Sys} {op : Op} (h : step s op = .ok s') :
    phaseRank s.master.TaskStatus ≤ phaseRank s'.master.TaskStatus := by
  rcases step_phase_cases h with h1 | ⟨h1, _, h2⟩ | ⟨h1, _, h2⟩
  · rw [h1]
  · rw [h1, h2]; decide
  · rw [h1, h2]; decide

theorem step_phase_Free {s s' : Sys} {op : Op} (h : step s op = .ok s')
    (hf : s.master.TaskStatus = Free) : s'.master.TaskStatus = Free := by
  rcases step_phase_cases h with h1 | ⟨h1, _⟩ | ⟨h1, _⟩
  · rw [h1, hf]
  · rw [hf] at h1
    exact absurd h1 (by decide)
  · rw [hf] at h1
    exact absurd h1 (by decide)

theorem phase_GetUnStartedTask (m : Master) (ord : List String) :
    (GetUnStartedTask m ord).master.TaskStatus = m.TaskStatus := by
  cases hok : (GetUnStartedTask m ord).ok with
  | true => rw [(GetUnStartedTask_ok hok).1, phase_setStatus]
  | false => rw [(GetUnStartedTask_not_ok hok).1]

theorem phase_ReportFinishedTask {m m' : Master} {a : TaskFinishedArgs}
    {reply : TaskFinishedReply} {started : List Goroutine}
    (h : ReportFinishedTask m a = .ok (m', reply, started)) :
    m'.TaskStatus = m.TaskStatus := by
  by_cases hty : a.TaskType = MapTask ∨ a.TaskType = ReduceTask
  · cases hr : m.record a.TaskType a.File with
    | none =>
      rw [ReportFinishedTask_absent hty hr] at h
      simp at h
    | some d =>
      rw [ReportFinishedTask_present hr] at h
      simp only [Except.ok.injEq, Prod.mk.injEq] at h
      rw [← h.1, phase_setStatus]
  · rw [not_or] at hty
    rw [ReportFinishedTask_other hty.1 hty.2] at h
    simp only [Except.ok.injEq, Prod.mk.injEq] at h
    rw [← h.1]

theorem phase_TimeOutDetection {m m' : Master} {f : String} {ty : Int}
    (h : TimeOutDetection m f ty = .ok m') : m'.TaskStatus = m.TaskStatus := by
  by_cases hty : ty = MapTask ∨ ty = ReduceTask
  · cases hr : m.record ty f with
    | none =>
      rw [TimeOutDetection_absent hty hr] at h
      simp at h
    | some d =>
      rw [TimeOutDetection_present hr] at h
      simp only [Except.ok.injEq] at h
      rw [← h]
      split
      · rw [phase_setStatus]
      · rfl
  · rw [not_or] at hty
    rw [TimeOutDetection_other hty.1 hty.2] at h
    simp only [Except.ok.injEq] at h
    rw [← h]

theorem phaseRank_CheckMasterStatus (m : Master) :
    phaseRank m.TaskStatus ≤ phaseRank (CheckMasterStatus m).TaskStatus := by
  rcases CheckMasterStatus_cases m with ⟨h1, _, h2⟩ | ⟨h1, _, h2⟩ | ⟨h1, _⟩
  · rw [h1, h2]; decide
  · rw [h1, h2]; decide
  · rw [h1]

/-- In the schedule `step`, in which every `CheckMasterStatus` runs to its end
right after the report that started it, no operation lowers the phase:
`GetUnStartedTask`, `ReportFinishedTask` and `TimeOutDetection` leave it as it
is (in every execution of the program too, they are atomic),
`CheckMasterStatus` run without interruption leaves it or raises it; hence
every step of the schedule keeps or raises the phase and `Done` stays true.
This is not a property of the program, in which a `CheckMasterStatus` can
write late: see the execution `lateCheck` at the end of this section. -/
theorem scheduled_phase_monotone :
    (∀ (m : Master) (ord : List String),
        (GetUnStartedTask m ord).master.TaskStatus = m.TaskStatus)
      ∧ (∀ (m m' : Master) (a : TaskFinishedArgs) (reply : TaskFinishedReply)
          (started : List Goroutine),
          ReportFinishedTask m a = .ok (m', reply, started) → m'.TaskStatus = m.TaskStatus)
      ∧ (∀ m : Master, phaseRank m.TaskStatus ≤ phaseRank (CheckMasterStatus m).TaskStatus)
      ∧ (∀ (m m' : Master) (a : TaskFinishedArgs) (reply : TaskFinishedReply),
          reportAndCheck m a = .ok (m', reply)
            → phaseRank m.TaskStatus ≤ phaseRank m'.TaskStatus)
      ∧ (∀ (m m' : Master) (f : String) (ty : Int),
          TimeOutDetection m f ty = .ok m' → m'.TaskStatus = m.TaskStatus)
      ∧ (∀ (s s' : Sys) (op : Op), step s op = .ok s'
          → phaseRank s.master.TaskStatus ≤ phaseRank s'.master.TaskStatus)
      ∧ (∀ (s s' : Sys) (op : Op), step s op = .ok s'
          → s.master.TaskStatus = Free → s'.master.TaskStatus = Free)
      ∧ (∀ (s s' : Sys) (ops : List Op), run s ops = .ok s'
          → phaseRank s.master.TaskStatus ≤ phaseRank s'.master.TaskStatus)
      ∧ (∀ (s s' : Sys) (ops : List Op), run s ops = .ok s'
          → Done s.master = true → Done s'.master = true) := by
  refine ⟨phase_GetUnStartedTask, fun m m' a reply started h => phase_ReportFinishedTask h,
    phaseRank_CheckMasterStatus, ?_, fun m m' f ty h => phase_TimeOutDetection h,
    fun s s' op h => step_phaseRank h, fun s s' op h => step_phase_Free h, ?_, ?_⟩
  · intro m m' a reply h
    unfold reportAndCheck at h
    cases hr : ReportFinishedTask m a with
    | error e => simp [hr] at h
    | ok r =>
      obtain ⟨m1, reply1, started⟩ := r
      rw [hr] at h
      simp only [Except.ok.injEq, Prod.mk.injEq] at h
      rw [← h.1, ← phase_ReportFinishedTask hr]
      split
      · exact phaseRank_CheckMasterStatus m1
      · exact le_refl _
  · intro s s' ops
    induction ops generalizing s with
    | nil =>
      intro h
      simp only [run, Except.ok.injEq] at h
      rw [h]
    | cons op ops ih =>
      intro h
      obtain ⟨s1, h1, h2⟩ := run_cons h
      exact le_trans (step_phaseRank h1) (ih s1 h2)
  · intro s s' ops
    induction ops generalizing s with
    | nil =>
      intro h hd
      simp only [run, Except.ok.injEq] at h
      rw [← h]
      exact hd
    | cons op ops ih =>
      intro h hd
      obtain ⟨s1, h1, h2⟩ := run_cons h
      apply ih s1 h2
      unfold Done at hd ⊢
      rw [decide_eq_true_eq] at hd ⊢
      exact step_phase_Free h1 hd

/-! ## The schedule `step` is one of the schedules of the program -/

/-- Run without interruption, the two halves of `CheckMasterStatus` are
`CheckMasterStatus`. -/
theorem CheckMasterStatus_split (m : Master) :
    CheckMasterStatus m
      = match CheckMasterStatus_decide m with
        | some phase => CheckMasterStatus_commit m phase
        | none => m := by
  unfold CheckMasterStatus CheckMasterStatus_decide CheckMasterStatus_commit
  by_cases h1 : m.TaskStatus = MapTask
  · rw [if_pos h1, if_pos h1]
    by_cases h2 : IsPhaseFinished m MapTask = true
    · rw [if_pos h2, if_pos h2]
    · rw [if_neg h2, if_neg h2]
  · rw [if_neg h1, if_neg h1]
    by_cases h3 : m.TaskStatus = ReduceTask
    · rw [if_pos h3, if_pos h3]
      by_cases h4 : IsPhaseFinished m ReduceTask = true
      · rw [if_pos h4, if_pos h4]
      · rw [if_neg h4, if_neg h4]
    · rw [if_neg h3, if_neg h3]

theorem fineRun_cons {s s'' : FineSys} {op : FineOp} {ops : List FineOp}
    (h : fineRun s (op :: ops) = .ok s'') :
    ∃ s', fineStep s op = .ok s' ∧ fineRun s' ops = .ok s'' := by
  simp only [fineRun] at h
  cases hs : fineStep s op with
  | error e => simp [hs] at h
  | ok s' =>
    rw [hs] at h
    exact ⟨s', rfl, h⟩

theorem fineRun_append_of {s s' s'' : FineSys} {ops1 ops2 : List FineOp}
    (h1 : fineRun s ops1 = .ok s') (h2 : fineRun s' ops2 = .ok s'') :
    fineRun s (ops1 ++ ops2) = .ok s'' := by
  induction ops1 generalizing s with
  | nil =>
    simp only [fineRun, Except.ok.injEq] at h1
    subst h1
    exact h2
  | cons op ops ih =>
    obtain ⟨s1, h3, h4⟩ := fineRun_cons h1
    simp only [List.cons_append, fineRun, h3]
    exact ih h4

/-- The writes of `CheckMasterStatus_at` are those of
`CheckMasterStatus_commit`, and `CheckMasterStatus_decide` is the check made
with no other step between the reads. -/
theorem CheckMasterStatus_at_write (m : Master) :
    (CheckMasterStatus_at m CheckPoint.writeReduce).1 = CheckMasterStatus_commit m ReduceTask
      ∧ (CheckMasterStatus_at m CheckPoint.writeFree).1 = CheckMasterStatus_commit m Free
      ∧ (CheckMasterStatus_decide m = some ReduceTask
          ↔ CheckPoint.writeReduce ∈ checkPath m)
      ∧ (CheckMasterStatus_decide m = some Free ↔ CheckPoint.writeFree ∈ checkPath m) := by
  refine ⟨rfl, rfl, ?_, ?_⟩
  · unfold CheckMasterStatus_decide checkPath
    by_cases h1 : m.TaskStatus = MapTask
    · by_cases h2 : IsPhaseFinished m MapTask = true
      · simp [h1, h2]
      · simp [h1, h2]
    · by_cases h3 : m.TaskStatus = ReduceTask
      · by_cases h4 : IsPhaseFinished m ReduceTask = true
        · simp [h1, h3, h4]
        · simp [h1, h3, h4]
      · simp [h1, h3]
  · unfold CheckMasterStatus_decide checkPath
    by_cases h1 : m.TaskStatus = MapTask
    · by_cases h2 : IsPhaseFinished m MapTask = true
      · simp [h1, h2]
      · simp [h1, h2]
    · by_cases h3 : m.TaskStatus = ReduceTask
      · by_cases h4 : IsPhaseFinished m ReduceTask = true
        · simp [h1, h3, h4]
        · simp [h1, h3, h4]
      · simp [h1, h3]

/-- A `CheckMasterStatus` goroutine that makes its accesses one after the other
with no other step in between does what `CheckMasterStatus` does. -/
theorem fineRun_checkPath (m : Master) (armed : List (String × Int)) :
    fineRun { master := m, armed := armed, checks := [CheckPoint.entry] }
        ((checkPath m).map FineOp.CheckMasterStatus)
      = .ok { master := CheckMasterStatus m, armed := armed, checks := [] } := by
  unfold checkPath CheckMasterStatus
  by_cases h1 : m.TaskStatus = MapTask
  · by_cases h2 : IsPhaseFinished m MapTask = true
    · simp [fineRun, fineStep, CheckMasterStatus_at, h1, h2]
    · simp [fineRun, fineStep, CheckMasterStatus_at, h1, h2]
  · by_cases h3 : m.TaskStatus = ReduceTask
    · by_cases h4 : IsPhaseFinished m ReduceTask = true
      · simp [fineRun, fineStep, CheckMasterStatus_at, h1, h3, h4]
      · simp [fineRun, fineStep, CheckMasterStatus_at, h1, h3, h4]
    · simp [fineRun, fineStep, CheckMasterStatus_at, h1, h3]

/-- One operation of the schedule `step`, other than a `CheckMasterStatus` on
its own, is the sequence `fineOps` of atomic steps of the program. -/
theorem step_refines {s s' : Sys} {op : Op} (h : step s op = .ok s')
    (hop : op ≠ Op.CheckMasterStatus) :
    fineRun s.fine (fineOps s.master op) = .ok s'.fine := by
  cases op with
  | GetUnStartedTask ord =>
    simp only [step, Except.ok.injEq] at h
    subst h
    rfl
  | ReportFinishedTask ty f =>
    by_cases hty : ty = MapTask ∨ ty = ReduceTask
    · rcases step_report h with ⟨_, ⟨d, hd⟩, rfl⟩ | ⟨h1, h2, _⟩
      · have hr := ReportFinishedTask_present (m := s.master) (a := ⟨ty, f⟩) hd
        simp only [fineOps, hr, List.mem_singleton, if_true, fineRun, fineStep, Sys.fine,
          checksStarted]
        exact fineRun_checkPath (s.master.setStatus ty f Finished) s.armed
      · rcases hty with hty | hty
        · exact absurd hty h1
        · exact absurd hty h2
    · rw [not_or] at hty
      have hr := ReportFinishedTask_other (m := s.master) (a := ⟨ty, f⟩) hty.1 hty.2
      rcases step_report h with ⟨hty', _, _⟩ | ⟨_, _, hs⟩
      · exact absurd hty' (by rw [not_or]; exact hty)
      · rw [hs]
        simp only [fineOps, hr, List.not_mem_nil, if_false, fineRun, fineStep, Sys.fine,
          checksStarted]
        rfl
  | CheckMasterStatus => exact absurd rfl hop
  | TimeOutDetection f ty =>
    obtain ⟨hmem, _, _, _⟩ := step_fire h
    simp only [step, hmem, if_true] at h
    simp only [fineOps, fineRun, fineStep, Sys.fine, hmem, if_true]
    cases ht : TimeOutDetection s.master f ty with
    | error e =>
      rw [ht] at h
      simp at h
    | ok m =>
      rw [ht] at h
      simp only [Except.ok.injEq] at h
      subst h
      rfl
  | Done =>
    rw [step_done h]
    rfl

/-- Every execution of the schedule `step` without a `CheckMasterStatus` on its
own is an execution of the program. -/
theorem run_refines {s s' : Sys} {ops : List Op} (h : run s ops = .ok s')
    (hno : Op.CheckMasterStatus ∉ ops) :
    ∃ fops, fineRun s.fine fops = .ok s'.fine := by
  induction ops generalizing s with
  | nil =>
    simp only [run, Except.ok.injEq] at h
    subst h
    exact ⟨[], rfl⟩
  | cons op ops ih =>
    obtain ⟨s1, h1, h2⟩ := run_cons h
    rw [List.mem_cons, not_or] at hno
    obtain ⟨fops, hf⟩ := ih h2 hno.2
    exact ⟨fineOps s.master op ++ fops,
      fineRun_append_of (step_refines h1 (fun he => hno.1 he.symm)) hf⟩

/-! ## C5: the phase can go back

The execution `lateCheck` of the program, and the write that follows it. -/

/-- C5 (what the code does): in the job `MakeMaster ["a.txt", "b.txt"] 1` every
task is handed out once and reported once by its worker.  Both Map reports
are in before the two `CheckMasterStatus` goroutines they started run; both
goroutines read the phase `MapTask` and find the Map table complete, and one
of them takes the lock and writes `ReduceTask`.  The Reduce task is handed out
and reported and its `CheckMasterStatus` writes `Free`: the phase is `Free`
and `Done` is true.  Then the other goroutine of the Map phase takes the write
lock and writes `ReduceTask`: the phase has gone back from `Free` to
`ReduceTask`, `Done` is false although every record of both tables is
`Finished`, and no goroutine is left to advance the phase again. -/
theorem C5_phase_regresses :
    fineRun (MakeFineSys ["a.txt", "b.txt"] 1) lateCheck
        = .ok (fineExec (MakeFineSys ["a.txt", "b.txt"] 1) lateCheck)
      ∧ (fineExec (MakeFineSys ["a.txt", "b.txt"] 1) lateCheck).master.TaskStatus = Free
      ∧ Done (fineExec (MakeFineSys ["a.txt", "b.txt"] 1) lateCheck).master = true
      ∧ (fineExec (MakeFineSys ["a.txt", "b.txt"] 1) lateCheck).checks
          = [CheckPoint.writeReduce]
      ∧ fineStep (fineExec (MakeFineSys ["a.txt", "b.txt"] 1) lateCheck)
          (FineOp.CheckMasterStatus CheckPoint.writeReduce)
        = .ok (fineExec (MakeFineSys ["a.txt", "b.txt"] 1)
            (lateCheck ++ [FineOp.CheckMasterStatus CheckPoint.writeReduce]))
      ∧ (fineExec (MakeFineSys ["a.txt", "b.txt"] 1)
          (lateCheck ++ [FineOp.CheckMasterStatus CheckPoint.writeReduce])).master.TaskStatus
          = ReduceTask
      ∧ Done (fineExec (MakeFineSys ["a.txt", "b.txt"] 1)
          (lateCheck ++ [FineOp.CheckMasterStatus CheckPoint.writeReduce])).master = false
      ∧ phaseRank (fineExec (MakeFineSys ["a.txt", "b.txt"] 1)
          (lateCheck ++ [FineOp.CheckMasterStatus CheckPoint.writeReduce])).master.TaskStatus
          < phaseRank (fineExec (MakeFineSys ["a.txt", "b.txt"] 1) lateCheck).master.TaskStatus
      ∧ TaskStatusMap.allFinished (Master.MapTaskStatus
          (fineExec (MakeFineSys ["a.txt", "b.txt"] 1)
            (lateCheck ++ [FineOp.CheckMasterStatus CheckPoint.writeReduce])).master) = true
      ∧ TaskStatusMap.allFinished (Master.ReduceTaskStatus
          (fineExec (MakeFineSys ["a.txt", "b.txt"] 1)
            (lateCheck ++ [FineOp.CheckMasterStatus CheckPoint.writeReduce])).master) = true
      ∧ (fineExec (MakeFineSys ["a.txt", "b.txt"] 1)
          (lateCheck ++ [FineOp.CheckMasterStatus CheckPoint.writeReduce])).checks = [] := by
  decide

/-! ## C6: a phase is left only when its table is complete -/

theorem step_allDone {s s' : Sys} {op : Op} (h : step s op = .ok s') (ty : Int)
    (hd : s.master.allDone ty) : s'.master.allDone ty :=
  allDone_mono (fun f hf => (step_finished_iff h ty f).mpr (Or.inl hf))
    (step_none_iff h ty) hd

/-- The progress invariant of the phase is kept by every step. -/
theorem step_progress {s s' : Sys} {op : Op} (h : step s op = .ok s')
    (hinv : (s.master.TaskStatus = ReduceTask → s.master.allDone MapTask)
      ∧ (s.master.TaskStatus = Free
          → s.master.allDone MapTask ∧ s.master.allDone ReduceTask)) :
    (s'.master.TaskStatus = ReduceTask → s'.master.allDone MapTask)
      ∧ (s'.master.TaskStatus = Free
          → s'.master.allDone MapTask ∧ s'.master.allDone ReduceTask) := by
  obtain ⟨hr, hf⟩ := hinv
  rcases step_phase_cases h with h1 | ⟨h1, a, h2⟩ | ⟨h1, b, h2⟩
  · rw [h1]
    exact ⟨fun p => step_allDone h _ (hr p),
      fun p => ⟨step_allDone h _ (hf p).1, step_allDone h _ (hf p).2⟩⟩
  · rw [h2]
    exact ⟨fun _ => a, fun p => absurd p (by decide)⟩
  · rw [h2]
    exact ⟨fun p => absurd p (by decide), fun _ => ⟨step_allDone h _ (hr h1), b⟩⟩

theorem run_progress {s s' : Sys} {ops : List Op} (h : run s ops = .ok s')
    (hinv : (s.master.TaskStatus = ReduceTask → s.master.allDone MapTask)
      ∧ (s.master.TaskStatus = Free
          → s.master.allDone MapTask ∧ s.master.allDone ReduceTask)) :
    (s'.master.TaskStatus = ReduceTask → s'.master.allDone MapTask)
      ∧ (s'.master.TaskStatus = Free
          → s'.master.allDone MapTask ∧ s'.master.allDone ReduceTask) := by
  induction ops generalizing s with
  | nil =>
    simp only [run, Except.ok.injEq] at h
    rw [← h]
    exact hinv
  | cons op ops ih =>
    obtain ⟨s1, h1, h2⟩ := run_cons h
    exact ih h2 (step_progress h1 hinv)

/-- C6: in every state reached from `MakeMaster files nReduce` by a sequence of
operations, if the phase is Reducing every record of the Map table is
`Finished`, and if the phase is AllDone every record of both tables is
`Finished`; and `CheckMasterStatus` changes the phase only when
`IsPhaseFinished` holds for the phase it leaves. -/
theorem C6_phase_implies_tables_finished (files : List String) (nReduce : Int)
    (ops : List Op) (s : Sys) (hrun : run (MakeSys files nReduce) ops = .ok s) :
    (s.master.TaskStatus = ReduceTask → s.master.MapTaskStatus.allFinished = true)
      ∧ (s.master.TaskStatus = Free
          → s.master.MapTaskStatus.allFinished = true
            ∧ s.master.ReduceTaskStatus.allFinished = true)
      ∧ (∀ m : Master, (CheckMasterStatus m).TaskStatus ≠ m.TaskStatus
          → IsPhaseFinished m m.TaskStatus = true) := by
  have hinit : ((MakeSys files nReduce).master.TaskStatus = ReduceTask
        → (MakeSys files nReduce).master.allDone MapTask)
      ∧ ((MakeSys files nReduce).master.TaskStatus = Free
        → (MakeSys files nReduce).master.allDone MapTask
          ∧ (MakeSys files nReduce).master.allDone ReduceTask) :=
    ⟨fun p => absurd (show (MapTask : Int) = ReduceTask from p) (by decide),
      fun p => absurd (show (MapTask : Int) = Free from p) (by decide)⟩
  obtain ⟨hr, hf⟩ := run_progress hrun hinit
  refine ⟨fun p => (allFinished_Map_iff _).mpr (hr p),
    fun p => ⟨(allFinished_Map_iff _).mpr (hf p).1, (allFinished_Reduce_iff _).mpr (hf p).2⟩,
    ?_⟩
  intro m hne
  rcases CheckMasterStatus_cases m with ⟨h1, a, _⟩ | ⟨h1, b, _⟩ | ⟨h1, _⟩
  · rw [h1]
    exact (IsPhaseFinished_Map_iff m).mpr a
  · rw [h1]
    exact (IsPhaseFinished_Reduce_iff m).mpr b
  · rw [h1] at hne
    exact absurd rfl hne

/-- C6 on two runs of the 3-file, 2-reduce job: after the three Map tasks have
been reported the phase is Reducing and the Map table is complete; at the end
of the complete run the phase is AllDone and both tables are complete. -/
theorem C6_phase_implies_tables_finished_witness :
    run (MakeSys ["a.txt", "b.txt", "c.txt"] 2) (fullJob.take 6)
        = .ok (exec (MakeSys ["a.txt", "b.txt", "c.txt"] 2) (fullJob.take 6))
      ∧ (exec (MakeSys ["a.txt", "b.txt", "c.txt"] 2) (fullJob.take 6)).master.TaskStatus
          = ReduceTask
      ∧ (exec (MakeSys ["a.txt", "b.txt", "c.txt"] 2)
          (fullJob.take 6)).master.MapTaskStatus.allFinished = true
      ∧ run (MakeSys ["a.txt", "b.txt", "c.txt"] 2) fullJob
          = .ok (exec (MakeSys ["a.txt", "b.txt", "c.txt"] 2) fullJob)
      ∧ (exec (MakeSys ["a.txt", "b.txt", "c.txt"] 2) fullJob).master.TaskStatus = Free
      ∧ (exec (MakeSys ["a.txt", "b.txt", "c.txt"] 2) fullJob).master.MapTaskStatus.allFinished
          = true
      ∧ (exec (MakeSys ["a.txt", "b.txt", "c.txt"] 2)
          fullJob).master.ReduceTaskStatus.allFinished = true :=
  ⟨by decide, by decide,
    (C6_phase_implies_tables_finished ["a.txt", "b.txt", "c.txt"] 2 (fullJob.take 6) _
      (by decide)).1 (by decide),
    by decide, by decide,
    ((C6_phase_implies_tables_finished ["a.txt", "b.txt", "c.txt"] 2 fullJob _
      (by decide)).2.1 (by decide)).1,
    ((C6_phase_implies_tables_finished ["a.txt", "b.txt", "c.txt"] 2 fullJob _
      (by decide)).2.1 (by decide)).2⟩

/-! ## C7: no task is handed out twice while its assignment is valid -/

theorem statusOf_of_GetUnStartedTask_ok {m : Master} {ord : List String}
    (h : (GetUnStartedTask m ord).ok = true) :
    m.statusOf (GetUnStartedTask m ord).taskType (GetUnStartedTask m ord).file
      = some UnStarted := by
  obtain ⟨_, _, _, h4, _⟩ := GetUnStartedTask_ok h
  simp [Master.statusOf, h4]

/-- The life of one record: a step leaves its status alone, or hands the task
out (`UnStarted` to `Processing`), or is a report of it (to `Finished`), or is
the firing of a watchdog of it that finds it `Processing` (back to
`UnStarted`). -/
theorem step_status {s s' : Sys} {op : Op} (h : step s op = .ok s') (ty : Int) (f : String) :
    s'.master.statusOf ty f = s.master.statusOf ty f
      ∨ (s.master.statusOf ty f = some UnStarted ∧ s'.master.statusOf ty f = some Processing
          ∧ ∃ ord, op = Op.GetUnStartedTask ord ∧ (GetUnStartedTask s.master ord).ok = true
            ∧ (GetUnStartedTask s.master ord).file = f
            ∧ (GetUnStartedTask s.master ord).taskType = ty)
      ∨ (s.master.statusOf ty f ≠ none ∧ s'.master.statusOf ty f = some Finished
          ∧ op = Op.ReportFinishedTask ty f)
      ∨ (s.master.statusOf ty f = some Processing ∧ s'.master.statusOf ty f = some UnStarted
          ∧ op = Op.TimeOutDetection f ty) := by
  cases op with
  | GetUnStartedTask ord =>
    rcases step_get h with ⟨ty0, f0, _, _, hu, hm, _, _, hf, ht, hok⟩ | ⟨rfl, _⟩
    · by_cases hc : ty = ty0 ∧ f = f0
      · obtain ⟨rfl, rfl⟩ := hc
        refine Or.inr (Or.inl ⟨hu, ?_, ord, rfl, hok, hf, ht⟩)
        rw [hm, statusOf_setStatus, if_pos ⟨rfl, rfl⟩, hu]
        rfl
      · left
        rw [hm, statusOf_setStatus, if_neg hc]
    · exact Or.inl rfl
  | ReportFinishedTask ty0 f0 =>
    rcases step_report h with ⟨_, ⟨d, hd⟩, rfl⟩ | ⟨_, _, rfl⟩
    · by_cases hc : ty = ty0 ∧ f = f0
      · obtain ⟨rfl, rfl⟩ := hc
        refine Or.inr (Or.inr (Or.inl ⟨?_, ?_, rfl⟩))
        · simp [Master.statusOf, hd]
        · simp only [statusOf_CheckMasterStatus, statusOf_setStatus]
          simp [Master.statusOf, hd]
      · left
        simp only [statusOf_CheckMasterStatus, statusOf_setStatus, if_neg hc]
    · exact Or.inl rfl
  | CheckMasterStatus =>
    rw [step_check h]
    exact Or.inl (statusOf_CheckMasterStatus _ _ _)
  | TimeOutDetection f0 ty0 =>
    obtain ⟨_, _, _, ⟨hp, hm⟩ | ⟨_, hm⟩⟩ := step_fire h
    · by_cases hc : ty = ty0 ∧ f = f0
      · obtain ⟨rfl, rfl⟩ := hc
        refine Or.inr (Or.inr (Or.inr ⟨hp, ?_, rfl⟩))
        rw [hm, statusOf_setStatus, if_pos ⟨rfl, rfl⟩, hp]
        rfl
      · left
        rw [hm, statusOf_setStatus, if_neg hc]
    · left
      rw [hm]
  | Done =>
    rw [step_done h]
    exact Or.inl rfl

/-- A record that is `Processing` or `Finished` and is found `UnStarted` later
has been reverted in between by the firing of a watchdog of it that found it
`Processing`. -/
theorem run_reverted {s1 s2 : Sys} {mid : List Op} {ty : Int} {f : String}
    (h : run s1 mid = .ok s2)
    (h1 : s1.master.statusOf ty f = some Processing
      ∨ s1.master.statusOf ty f = some Finished)
    (h2 : s2.master.statusOf ty f = some UnStarted) :
    ∃ mid1 mid2 sf sf', mid = mid1 ++ Op.TimeOutDetection f ty :: mid2
      ∧ run s1 mid1 = .ok sf ∧ sf.master.statusOf ty f = some Processing
      ∧ step sf (Op.TimeOutDetection f ty) = .ok sf'
      ∧ sf'.master.statusOf ty f = some UnStarted := by
  induction mid generalizing s1 with
  | nil =>
    simp only [run, Except.ok.injEq] at h
    rw [← h] at h2
    rcases h1 with h1 | h1
    · rw [h1] at h2
      exact absurd h2 (by decide)
    · rw [h1] at h2
      exact absurd h2 (by decide)
  | cons op ops ih =>
    obtain ⟨sx, hs, hr⟩ := run_cons h
    have hnext : (sx.master.statusOf ty f = some Processing
        ∨ sx.master.statusOf ty f = some Finished) →
        ∃ mid1 mid2 sf sf', op :: ops = mid1 ++ Op.TimeOutDetection f ty :: mid2
          ∧ run s1 mid1 = .ok sf ∧ sf.master.statusOf ty f = some Processing
          ∧ step sf (Op.TimeOutDetection f ty) = .ok sf'
          ∧ sf'.master.statusOf ty f = some UnStarted := by
      intro hx
      obtain ⟨mid1, mid2, sf, sf', e, r, p, st, u⟩ := ih hr hx
      refine ⟨op :: mid1, mid2, sf, sf', by rw [e]; rfl, ?_, p, st, u⟩
      simp only [run, hs]
      exact r
    rcases step_status hs ty f with hsame | ⟨hu, _⟩ | ⟨_, hfin, _⟩ | ⟨hp, hu, rfl⟩
    · exact hnext (by rw [hsame]; exact h1)
    · rcases h1 with h1 | h1
      · rw [h1] at hu
        exact absurd hu (by decide)
      · rw [h1] at hu
        exact absurd hu (by decide)
    · exact hnext (Or.inr hfin)
    · exact ⟨[], ops, s1, sx, rfl, rfl, hp, hs, hu⟩

/-- C7: in an execution from `MakeMaster`, if `GetUnStartedTask` hands out a
task (first call, in state `s`) and a later call (in state `s2`, after the
operations `mid`) hands out the same task, then `mid` contains a firing of
`TimeOutDetection` for that task which found it `Processing` and reverted it
to `UnStarted`; and whatever the state, a task that `GetUnStartedTask` hands
out is `UnStarted` before the call (so never `Processing` or `Finished`). -/
theorem C7_no_double_hand_out (files : List String) (nReduce : Int) (pre mid : List Op)
    (ord1 ord2 : List String) (s s1 s2 : Sys)
    (_hpre : run (MakeSys files nReduce) pre = .ok s)
    (hok1 : (GetUnStartedTask s.master ord1).ok = true)
    (hstep : step s (Op.GetUnStartedTask ord1) = .ok s1)
    (hmid : run s1 mid = .ok s2)
    (hok2 : (GetUnStartedTask s2.master ord2).ok = true)
    (hfile : (GetUnStartedTask s2.master ord2).file = (GetUnStartedTask s.master ord1).file)
    (htype : (GetUnStartedTask s2.master ord2).taskType
      = (GetUnStartedTask s.master ord1).taskType) :
    (∃ mid1 mid2 sf sf',
        mid = mid1 ++ Op.TimeOutDetection (GetUnStartedTask s.master ord1).file
          (GetUnStartedTask s.master ord1).taskType :: mid2
        ∧ run s1 mid1 = .ok sf
        ∧ sf.master.statusOf (GetUnStartedTask s.master ord1).taskType
            (GetUnStartedTask s.master ord1).file = some Processing
        ∧ step sf (Op.TimeOutDetection (GetUnStartedTask s.master ord1).file
            (GetUnStartedTask s.master ord1).taskType) = .ok sf'
        ∧ sf'.master.statusOf (GetUnStartedTask s.master ord1).taskType
            (GetUnStartedTask s.master ord1).file = some UnStarted)
      ∧ (∀ (m : Master) (ord : List String), (GetUnStartedTask m ord).ok = true →
          m.statusOf (GetUnStartedTask m ord).taskType (GetUnStartedTask m ord).file
            = some UnStarted) := by
  refine ⟨?_, fun m ord h => statusOf_of_GetUnStartedTask_ok h⟩
  have hp : s1.master.statusOf (GetUnStartedTask s.master ord1).taskType
      (GetUnStartedTask s.master ord1).file = some Processing := by
    rcases step_get hstep with ⟨ty0, f0, _, _, hu, hm, _, _, hf, ht, _⟩ | ⟨_, hno⟩
    · rw [hf, ht, hm, statusOf_setStatus, if_pos ⟨rfl, rfl⟩, hu]
      rfl
    · rw [hok1] at hno
      exact absurd hno (by decide)
  have hu := statusOf_of_GetUnStartedTask_ok hok2
  rw [hfile, htype] at hu
  exact run_reverted hmid (Or.inl hp) hu

/-- C7 on the job of one file: `a.txt` is handed out, its watchdog fires, and
`a.txt` is handed out again; the firing is found between the two calls. -/
theorem C7_no_double_hand_out_witness :
    run (MakeSys ["a.txt"] 1) [] = .ok (MakeSys ["a.txt"] 1)
      ∧ (GetUnStartedTask (MakeSys ["a.txt"] 1).master []).ok = true
      ∧ step (MakeSys ["a.txt"] 1) (Op.GetUnStartedTask [])
          = .ok (exec (MakeSys ["a.txt"] 1) [Op.GetUnStartedTask []])
      ∧ run (exec (MakeSys ["a.txt"] 1) [Op.GetUnStartedTask []])
            [Op.TimeOutDetection "a.txt" MapTask]
          = .ok (exec (MakeSys ["a.txt"] 1)
              [Op.GetUnStartedTask [], Op.TimeOutDetection "a.txt" MapTask])
      ∧ (GetUnStartedTask (exec (MakeSys ["a.txt"] 1)
          [Op.GetUnStartedTask [], Op.TimeOutDetection "a.txt" MapTask]).master []).ok = true
      ∧ (GetUnStartedTask (exec (MakeSys ["a.txt"] 1)
          [Op.GetUnStartedTask [], Op.TimeOutDetection "a.txt" MapTask]).master []).file
          = (GetUnStartedTask (MakeSys ["a.txt"] 1).master []).file
      ∧ (GetUnStartedTask (exec (MakeSys ["a.txt"] 1)
          [Op.GetUnStartedTask [], Op.TimeOutDetection "a.txt" MapTask]).master []).taskType
          = (GetUnStartedTask (MakeSys ["a.txt"] 1).master []).taskType
      ∧ ((∃ mid1 mid2 sf sf',
          [Op.TimeOutDetection "a.txt" MapTask]
            = mid1 ++ Op.TimeOutDetection (GetUnStartedTask (MakeSys ["a.txt"] 1).master []).file
                (GetUnStartedTask (MakeSys ["a.txt"] 1).master []).taskType :: mid2
          ∧ run (exec (MakeSys ["a.txt"] 1) [Op.GetUnStartedTask []]) mid1 = .ok sf
          ∧ sf.master.statusOf (GetUnStartedTask (MakeSys ["a.txt"] 1).master []).taskType
              (GetUnStartedTask (MakeSys ["a.txt"] 1).master []).file = some Processing
          ∧ step sf (Op.TimeOutDetection (GetUnStartedTask (MakeSys ["a.txt"] 1).master []).file
              (GetUnStartedTask (MakeSys ["a.txt"] 1).master []).taskType) = .ok sf'
          ∧ sf'.master.statusOf (GetUnStartedTask (MakeSys ["a.txt"] 1).master []).taskType
              (GetUnStartedTask (MakeSys ["a.txt"] 1).master []).file = some UnStarted)
        ∧ (∀ (m : Master) (ord : List String), (GetUnStartedTask m ord).ok = true →
            m.statusOf (GetUnStartedTask m ord).taskType (GetUnStartedTask m ord).file
              = some UnStarted)) :=
  ⟨by decide, by decide, by decide, by decide, by decide, by decide, by decide,
    C7_no_double_hand_out ["a.txt"] 1 [] [Op.TimeOutDetection "a.txt" MapTask] [] []
      (MakeSys ["a.txt"] 1) (exec (MakeSys ["a.txt"] 1) [Op.GetUnStartedTask []])
      (exec (MakeSys ["a.txt"] 1) [Op.GetUnStartedTask [], Op.TimeOutDetection "a.txt" MapTask])
      (by decide) (by decide) (by decide) (by decide) (by decide) (by decide) (by decide)⟩

/-! ## C8: a task is reverted only by its own watchdog -/

/-- What a step does to the armed watchdogs of one task: nothing, or it arms
one (the step hands the task out), or one fires. -/
theorem step_armed {s s' : Sys} {op : Op} (h : step s op = .ok s') (ty : Int) (f : String) :
    (s'.armed.count (f, ty) = s.armed.count (f, ty)
        ∧ (∀ ord, op = Op.GetUnStartedTask ord → (GetUnStartedTask s.master ord).ok = true →
            ¬ ((GetUnStartedTask s.master ord).file = f
              ∧ (GetUnStartedTask s.master ord).taskType = ty))
        ∧ op ≠ Op.TimeOutDetection f ty)
      ∨ (s'.armed.count (f, ty) = s.armed.count (f, ty) + 1
          ∧ ∃ ord, op = Op.GetUnStartedTask ord ∧ (GetUnStartedTask s.master ord).ok = true
            ∧ (GetUnStartedTask s.master ord).file = f
            ∧ (GetUnStartedTask s.master ord).taskType = ty)
      ∨ (0 < s.armed.count (f, ty) ∧ s'.armed.count (f, ty) = s.armed.count (f, ty) - 1
          ∧ op = Op.TimeOutDetection f ty) := by
  cases op with
  | GetUnStartedTask ord =>
    rcases step_get h with ⟨ty0, f0, _, _, _, _, ha, _, hf, ht, hok⟩ | ⟨rfl, hno⟩
    · by_cases hc : f0 = f ∧ ty0 = ty
      · obtain ⟨rfl, rfl⟩ := hc
        refine Or.inr (Or.inl ⟨?_, ord, rfl, hok, hf, ht⟩)
        rw [ha, List.count_append, List.count_singleton_self]
      · refine Or.inl ⟨?_, ?_, by simp⟩
        · have hz : List.count (f, ty) [(f0, ty0)] = 0 := by
            apply List.count_eq_zero_of_not_mem
            rw [List.mem_singleton, Prod.mk.injEq]
            exact fun he => hc ⟨he.1.symm, he.2.symm⟩
          rw [ha, List.count_append, hz]
          rfl
        · intro ord' he _
          simp only [Op.GetUnStartedTask.injEq] at he
          subst he
          rw [hf, ht]
          exact hc
    · refine Or.inl ⟨rfl, ?_, by simp⟩
      intro ord' he hok'
      simp only [Op.GetUnStartedTask.injEq] at he
      subst he
      rw [hok'] at hno
      exact absurd hno (by decide)
  | ReportFinishedTask ty0 f0 =>
    rcases step_report h with ⟨_, _, rfl⟩ | ⟨_, _, rfl⟩
    · exact Or.inl ⟨rfl, by simp, by simp⟩
    · exact Or.inl ⟨rfl, by simp, by simp⟩
  | CheckMasterStatus =>
    rw [step_check h]
    exact Or.inl ⟨rfl, by simp, by simp⟩
  | TimeOutDetection f0 ty0 =>
    obtain ⟨hm, ha, _, _⟩ := step_fire h
    by_cases hc : f0 = f ∧ ty0 = ty
    · obtain ⟨rfl, rfl⟩ := hc
      refine Or.inr (Or.inr ⟨List.count_pos_iff.mpr hm, ?_, rfl⟩)
      rw [ha, List.count_erase_self]
    · refine Or.inl ⟨?_, by simp, ?_⟩
      · rw [ha]
        apply List.count_erase_of_ne
        intro he
        rw [Prod.mk.injEq] at he
        exact hc ⟨he.1.symm, he.2.symm⟩
      · intro he
        simp only [Op.TimeOutDetection.injEq] at he
        exact hc he
  | Done =>
    rw [step_done h]
    exact Or.inl ⟨rfl, by simp, by simp⟩

theorem step_WatchdogInv {s s' : Sys} {op : Op} (hinv : WatchdogInv s)
    (h : step s op = .ok s') : WatchdogInv s' := by
  intro ty f
  obtain ⟨hle, hp, hu⟩ := hinv ty f
  rcases step_armed h ty f with ⟨hc, hnget, hnfire⟩ | ⟨hc, ord, rfl, hok, hf, ht⟩
    | ⟨hpos, hc, rfl⟩
  · -- no watchdog of the task is armed or fired: its status is kept or becomes Finished
    rw [hc]
    rcases step_status h ty f with hs | ⟨_, _, ord, rfl, hok, hf, ht⟩ | ⟨_, hfin, _⟩
      | ⟨_, _, he⟩
    · rw [hs]
      exact ⟨hle, hp, hu⟩
    · exact absurd ⟨hf, ht⟩ (hnget ord rfl hok)
    · rw [hfin]
      exact ⟨hle, fun hx => absurd hx (by decide), fun hx => absurd hx (by decide)⟩
    · exact absurd he hnfire
  · -- the task is handed out: it was UnStarted, with no watchdog
    have hun := statusOf_of_GetUnStartedTask_ok hok
    rw [hf, ht] at hun
    have h0 := hu hun
    rw [hc, h0]
    rcases step_status h ty f with hs | ⟨_, hpr, _⟩ | ⟨_, _, he⟩ | ⟨_, _, he⟩
    · -- impossible: the status did change
      rcases step_get h with ⟨ty0, f0, _, _, _, hm, _, _, hf0, ht0, _⟩ | ⟨_, hno⟩
      · rw [hf] at hf0
        rw [ht] at ht0
        subst hf0
        subst ht0
        rw [hm, statusOf_setStatus, if_pos ⟨rfl, rfl⟩, hun] at hs
        exact absurd hs (by decide)
      · rw [hok] at hno
        exact absurd hno (by decide)
    · rw [hpr]
      exact ⟨le_refl _, fun _ => rfl, fun hx => absurd hx (by decide)⟩
    · exact absurd he (by simp)
    · exact absurd he (by simp)
  · -- a watchdog of the task fires: it was the only one
    have h1 : s.armed.count (f, ty) = 1 := le_antisymm hle hpos
    rw [hc, h1]
    have hnu : s.master.statusOf ty f ≠ some UnStarted := by
      intro hx
      rw [hu hx] at h1
      exact absurd h1 (by decide)
    obtain ⟨_, _, _, ⟨_, hm⟩ | ⟨hnp, hm⟩⟩ := step_fire h
    · refine ⟨by decide, ?_, fun _ => rfl⟩
      rw [hm, statusOf_setStatus, if_pos ⟨rfl, rfl⟩]
      intro hx
      cases hst : s.master.statusOf ty f with
      | none => rw [hst] at hx; simp at hx
      | some v => rw [hst] at hx; simp at hx
    · rw [hm]
      exact ⟨by decide, fun hx => absurd hx hnp, fun _ => rfl⟩

theorem run_WatchdogInv {s s' : Sys} {ops : List Op} (hinv : WatchdogInv s)
    (h : run s ops = .ok s') : WatchdogInv s' := by
  induction ops generalizing s with
  | nil =>
    simp only [run, Except.ok.injEq] at h
    rw [← h]
    exact hinv
  | cons op ops ih =>
    obtain ⟨s1, h1, h2⟩ := run_cons h
    exact ih (step_WatchdogInv hinv h1) h2

theorem WatchdogInv_MakeSys (files : List String) (nReduce : Int) :
    WatchdogInv (MakeSys files nReduce) := by
  intro ty f
  refine ⟨by simp [MakeSys], fun hx => ?_, fun _ => by simp [MakeSys]⟩
  rcases statusOf_MakeMaster files nReduce ty f with h | h
  · exact absurd (h.symm.trans hx) (by simp)
  · exact absurd (h.symm.trans hx) (by simp)

/-- C8: in every state `s` reached from `MakeMaster files nReduce`, with
`armed` the multiset of watchdogs started and not yet fired: every task has at
most one armed watchdog, exactly one when it is `Processing` and none when it
is `UnStarted`; an assignment is made to a task without armed watchdog and
arms the only one; a watchdog that fires is the only one of its task, and it
reverts the task exactly when it finds it `Processing`; and no step other than
the firing of a watchdog of the task takes a task from `Processing` to
`UnStarted`. -/
theorem C8_reverted_only_by_own_watchdog (files : List String) (nReduce : Int)
    (ops : List Op) (s : Sys) (hrun : run (MakeSys files nReduce) ops = .ok s) :
    (∀ (ty : Int) (f : String),
        s.armed.count (f, ty) ≤ 1
        ∧ (s.master.statusOf ty f = some Processing → s.armed.count (f, ty) = 1)
        ∧ (s.master.statusOf ty f = some UnStarted → s.armed.count (f, ty) = 0))
      ∧ (∀ (ord : List String) (s' : Sys), step s (Op.GetUnStartedTask ord) = .ok s' →
          (GetUnStartedTask s.master ord).ok = true →
          s.armed.count ((GetUnStartedTask s.master ord).file,
              (GetUnStartedTask s.master ord).taskType) = 0
          ∧ s'.armed.count ((GetUnStartedTask s.master ord).file,
              (GetUnStartedTask s.master ord).taskType) = 1
          ∧ s'.master.statusOf (GetUnStartedTask s.master ord).taskType
              (GetUnStartedTask s.master ord).file = some Processing)
      ∧ (∀ (f : String) (ty : Int) (s' : Sys), step s (Op.TimeOutDetection f ty) = .ok s' →
          s.armed.count (f, ty) = 1 ∧ s'.armed.count (f, ty) = 0
          ∧ ((s.master.statusOf ty f = some Processing
                ∧ s'.master.statusOf ty f = some UnStarted)
            ∨ (s.master.statusOf ty f ≠ some Processing ∧ s'.master = s.master)))
      ∧ (∀ (op : Op) (s' : Sys) (ty : Int) (f : String), step s op = .ok s' →
          s.master.statusOf ty f = some Processing →
          s'.master.statusOf ty f = some UnStarted → op = Op.TimeOutDetection f ty) := by
  have hinv := run_WatchdogInv (WatchdogInv_MakeSys files nReduce) hrun
  refine ⟨hinv, ?_, ?_, ?_⟩
  · intro ord s' hs hok
    have hinv' := step_WatchdogInv hinv hs
    have hun := statusOf_of_GetUnStartedTask_ok hok
    have hpr : s'.master.statusOf (GetUnStartedTask s.master ord).taskType
        (GetUnStartedTask s.master ord).file = some Processing := by
      rcases step_get hs with ⟨ty0, f0, _, _, hu, hm, _, _, hf, ht, _⟩ | ⟨_, hno⟩
      · rw [hf, ht, hm, statusOf_setStatus, if_pos ⟨rfl, rfl⟩, hu]
        rfl
      · rw [hok] at hno
        exact absurd hno (by decide)
    exact ⟨(hinv _ _).2.2 hun, (hinv' _ _).2.1 hpr, hpr⟩
  · intro f ty s' hs
    obtain ⟨hm, ha, _, hcase⟩ := step_fire hs
    have h1 : s.armed.count (f, ty) = 1 :=
      le_antisymm (hinv ty f).1 (List.count_pos_iff.mpr hm)
    refine ⟨h1, ?_, ?_⟩
    · rw [ha, List.count_erase_self, h1]
    · rcases hcase with ⟨hp, hm'⟩ | ⟨hnp, hm'⟩
      · left
        refine ⟨hp, ?_⟩
        rw [hm', statusOf_setStatus, if_pos ⟨rfl, rfl⟩, hp]
        rfl
      · exact Or.inr ⟨hnp, hm'⟩
  · intro op s' ty f hs hp hu
    rcases step_status hs ty f with h1 | ⟨h1, _⟩ | ⟨_, h1, _⟩ | ⟨_, _, h1⟩
    · rw [h1, hp] at hu
      exact absurd hu (by decide)
    · rw [hp] at h1
      exact absurd h1 (by decide)
    · rw [hu] at h1
      exact absurd h1 (by decide)
    · exact h1

/-- C8 on the job of two files after both have been handed out and the
watchdog of `a.txt` has fired: `b.txt` is `Processing` with one armed
watchdog, `a.txt` is `UnStarted` with none. -/
theorem C8_reverted_only_by_own_watchdog_witness :
    run (MakeSys ["a.txt", "b.txt"] 1)
        [Op.GetUnStartedTask [], Op.GetUnStartedTask [], Op.TimeOutDetection "a.txt" MapTask]
      = .ok (exec (MakeSys ["a.txt", "b.txt"] 1)
        [Op.GetUnStartedTask [], Op.GetUnStartedTask [], Op.TimeOutDetection "a.txt" MapTask])
      ∧ (exec (MakeSys ["a.txt", "b.txt"] 1)
          [Op.GetUnStartedTask [], Op.GetUnStartedTask [],
           Op.TimeOutDetection "a.txt" MapTask]).master.statusOf MapTask "b.txt"
          = some Processing
      ∧ (exec (MakeSys ["a.txt", "b.txt"] 1)
          [Op.GetUnStartedTask [], Op.GetUnStartedTask [],
           Op.TimeOutDetection "a.txt" MapTask]).armed.count ("b.txt", MapTask) = 1
      ∧ (exec (MakeSys ["a.txt", "b.txt"] 1)
          [Op.GetUnStartedTask [], Op.GetUnStartedTask [],
           Op.TimeOutDetection "a.txt" MapTask]).master.statusOf MapTask "a.txt"
          = some UnStarted
      ∧ (exec (MakeSys ["a.txt", "b.txt"] 1)
          [Op.GetUnStartedTask [], Op.GetUnStartedTask [],
           Op.TimeOutDetection "a.txt" MapTask]).armed.count ("a.txt", MapTask) = 0 :=
  ⟨by decide, by decide,
    ((C8_reverted_only_by_own_watchdog ["a.txt", "b.txt"] 1
      [Op.GetUnStartedTask [], Op.GetUnStartedTask [], Op.TimeOutDetection "a.txt" MapTask]
      _ (by decide)).1 MapTask "b.txt").2.1 (by decide),
    by decide,
    ((C8_reverted_only_by_own_watchdog ["a.txt", "b.txt"] 1
      [Op.GetUnStartedTask [], Op.GetUnStartedTask [], Op.TimeOutDetection "a.txt" MapTask]
      _ (by decide)).1 MapTask "a.txt").2.2 (by decide)⟩

/-! ## C9: a `Finished` record is never changed again -/

theorem statusOf_GetUnStartedTask_of_finished (m : Master) (ord : List String) (ty : Int)
    (f : String) (hf : m.statusOf ty f = some Finished) :
    (GetUnStartedTask m ord).master.statusOf ty f = some Finished := by
  cases hok : (GetUnStartedTask m ord).ok with
  | true =>
    have hun := statusOf_of_GetUnStartedTask_ok hok
    rw [(GetUnStartedTask_ok hok).1, statusOf_setStatus]
    split
    · rename_i hc
      obtain ⟨rfl, rfl⟩ := hc
      rw [hf] at hun
      exact absurd hun (by decide)
    · exact hf
  | false =>
    rw [(GetUnStartedTask_not_ok hok).1]
    exact hf

/-- C9: for every state and every task whose status is `Finished`: the task is
still `Finished` after `GetUnStartedTask`, after `ReportFinishedTask` for any
existing task (which answers `Ok = true` without fault), after
`CheckMasterStatus`, and after `TimeOutDetection` for any existing task (which
ends without fault); hence after every step and every execution of the
serialised system. -/
theorem C9_finished_is_final (m : Master) (ty : Int) (f : String)
    (hfin : m.statusOf ty f = some Finished) :
    (∀ ord, (GetUnStartedTask m ord).master.statusOf ty f = some Finished)
      ∧ (∀ (a : TaskFinishedArgs), m.record a.TaskType a.File ≠ none →
          ∃ m', ReportFinishedTask m a = .ok (m', { Ok := true }, [Goroutine.CheckMasterStatus])
            ∧ m'.statusOf ty f = some Finished
            ∧ (CheckMasterStatus m').statusOf ty f = some Finished)
      ∧ (CheckMasterStatus m).statusOf ty f = some Finished
      ∧ (∀ (f' : String) (ty' : Int), m.record ty' f' ≠ none →
          ∃ m', TimeOutDetection m f' ty' = .ok m' ∧ m'.statusOf ty f = some Finished)
      ∧ (∀ (armed handed : List (String × Int)) (ops : List Op) (s' : Sys),
          run { master := m, armed := armed, handed := handed } ops = .ok s' →
          s'.master.statusOf ty f = some Finished) := by
  refine ⟨fun ord => statusOf_GetUnStartedTask_of_finished m ord ty f hfin, ?_, ?_, ?_, ?_⟩
  · intro a ha
    cases hr : m.record a.TaskType a.File with
    | none => exact absurd hr ha
    | some d =>
      have hset : (m.setStatus a.TaskType a.File Finished).statusOf ty f = some Finished := by
        rw [statusOf_setStatus]
        split
        · rename_i hc
          obtain ⟨rfl, rfl⟩ := hc
          rw [hfin]
          rfl
        · exact hfin
      refine ⟨_, ReportFinishedTask_present hr, hset, ?_⟩
      rw [statusOf_CheckMasterStatus]
      exact hset
  · rw [statusOf_CheckMasterStatus]
    exact hfin
  · intro f' ty' ha
    cases hr : m.record ty' f' with
    | none => exact absurd hr ha
    | some d =>
      refine ⟨_, TimeOutDetection_present hr, ?_⟩
      split
      · rename_i hp
        rw [statusOf_setStatus]
        split
        · rename_i hc
          obtain ⟨rfl, rfl⟩ := hc
          have : m.statusOf ty f = some Processing := by simp [Master.statusOf, hr, hp]
          rw [hfin] at this
          exact absurd this (by decide)
        · exact hfin
      · exact hfin
  · intro armed handed ops s' hrun
    exact run_finished hrun ty f hfin

/-- C9 on the scenario of the claim, in the job of the single file `a.txt`:
`a.txt` is handed to worker A, its watchdog fires, it is handed to worker B, B
reports it; in the state reached `a.txt` is `Finished`.  Then A reports it
(answer `Ok = true`, no fault) and the watchdog started for B fires: `a.txt`
is `Finished` at the end. -/
theorem C9_finished_is_final_witness :
    run (MakeSys ["a.txt"] 1)
        [Op.GetUnStartedTask [], Op.TimeOutDetection "a.txt" MapTask, Op.GetUnStartedTask [],
         Op.ReportFinishedTask MapTask "a.txt"]
      = .ok (exec (MakeSys ["a.txt"] 1)
        [Op.GetUnStartedTask [], Op.TimeOutDetection "a.txt" MapTask, Op.GetUnStartedTask [],
         Op.ReportFinishedTask MapTask "a.txt"])
      ∧ (exec (MakeSys ["a.txt"] 1)
          [Op.GetUnStartedTask [], Op.TimeOutDetection "a.txt" MapTask, Op.GetUnStartedTask [],
           Op.ReportFinishedTask MapTask "a.txt"]).master.statusOf MapTask "a.txt"
          = some Finished
      ∧ (∃ m', ReportFinishedTask
            (exec (MakeSys ["a.txt"] 1)
              [Op.GetUnStartedTask [], Op.TimeOutDetection "a.txt" MapTask,
               Op.GetUnStartedTask [], Op.ReportFinishedTask MapTask "a.txt"]).master
            { TaskType := MapTask, File := "a.txt" }
          = .ok (m', { Ok := true }, [Goroutine.CheckMasterStatus])
        ∧ m'.statusOf MapTask "a.txt" = some Finished
        ∧ (CheckMasterStatus m').statusOf MapTask "a.txt" = some Finished)
      ∧ run (MakeSys ["a.txt"] 1)
          [Op.GetUnStartedTask [], Op.TimeOutDetection "a.txt" MapTask, Op.GetUnStartedTask [],
           Op.ReportFinishedTask MapTask "a.txt", Op.ReportFinishedTask MapTask "a.txt",
           Op.TimeOutDetection "a.txt" MapTask]
        = .ok (exec (MakeSys ["a.txt"] 1)
          [Op.GetUnStartedTask [], Op.TimeOutDetection "a.txt" MapTask, Op.GetUnStartedTask [],
           Op.ReportFinishedTask MapTask "a.txt", Op.ReportFinishedTask MapTask "a.txt",
           Op.TimeOutDetection "a.txt" MapTask])
      ∧ (exec (MakeSys ["a.txt"] 1)
          [Op.GetUnStartedTask [], Op.TimeOutDetection "a.txt" MapTask, Op.GetUnStartedTask [],
           Op.ReportFinishedTask MapTask "a.txt", Op.ReportFinishedTask MapTask "a.txt",
           Op.TimeOutDetection "a.txt" MapTask]).master.statusOf MapTask "a.txt"
          = some Finished :=
  ⟨by decide, by decide,
    (C9_finished_is_final
      (exec (MakeSys ["a.txt"] 1)
        [Op.GetUnStartedTask [], Op.TimeOutDetection "a.txt" MapTask, Op.GetUnStartedTask [],
         Op.ReportFinishedTask MapTask "a.txt"]).master MapTask "a.txt" (by decide)).2.1
      { TaskType := MapTask, File := "a.txt" } (by decide),
    by decide, by decide⟩

/-! ## C10: a timed-out task can be assigned again -/

theorem taskId_setStatus (m : Master) (ty ty' : Int) (f f' : String) (st : Int) :
    ((m.setStatus ty f st).record ty' f').map TaskDetail.TaskId
      = (m.record ty' f').map TaskDetail.TaskId := by
  rw [record_setStatus]
  split
  · rename_i hc
    obtain ⟨rfl, rfl⟩ := hc
    cases m.record ty' f' <;> rfl
  · rfl

/-- No step changes the `TaskId` of a record. -/
theorem step_taskId {s s' : Sys} {op : Op} (h : step s op = .ok s') (ty : Int) (f : String) :
    (s'.master.record ty f).map TaskDetail.TaskId
      = (s.master.record ty f).map TaskDetail.TaskId := by
  cases op with
  | GetUnStartedTask ord =>
    rcases step_get h with ⟨ty0, f0, _, _, _, hm, _⟩ | ⟨rfl, _⟩
    · rw [hm, taskId_setStatus]
    · rfl
  | ReportFinishedTask ty0 f0 =>
    rcases step_report h with ⟨_, _, rfl⟩ | ⟨_, _, rfl⟩
    · simp only [record_CheckMasterStatus, taskId_setStatus]
    · rfl
  | CheckMasterStatus =>
    rw [step_check h]
    simp only [record_CheckMasterStatus]
  | TimeOutDetection f0 ty0 =>
    obtain ⟨_, _, _, ⟨_, hm⟩ | ⟨_, hm⟩⟩ := step_fire h
    · rw [hm, taskId_setStatus]
    · rw [hm]
  | Done =>
    rw [step_done h]

/-- When the active table has an `UnStarted` record, `GetUnStartedTask` hands
out a task, whatever the visiting order. -/
theorem GetUnStartedTask_ok_of_unstarted {m : Master} {ty : Int} {f : String}
    (ord : List String) (hty : ty = MapTask ∨ ty = ReduceTask) (hph : m.TaskStatus = ty)
    (hu : m.statusOf ty f = some UnStarted) : (GetUnStartedTask m ord).ok = true := by
  unfold Master.statusOf Master.record at hu
  unfold GetUnStartedTask
  rcases hty with rfl | rfl
  · rw [if_pos hph]
    rw [if_pos rfl] at hu
    cases hs : m.MapTaskStatus.scanUnStarted ord with
    | some e => rfl
    | none =>
      exfalso
      cases hg : m.MapTaskStatus.get f with
      | none => rw [hg] at hu; simp at hu
      | some d =>
        rw [hg] at hu
        exact (TaskStatusMap.scanUnStarted_none_iff _ ord).mp hs f d hg (by simpa using hu)
  · have hne : ¬ (m.TaskStatus = MapTask) := by
      rw [hph]
      decide
    have hne' : ¬ (ReduceTask = MapTask) := by decide
    rw [if_neg hne, if_pos hph]
    rw [if_neg hne', if_pos rfl] at hu
    cases hs : m.ReduceTaskStatus.scanUnStarted ord with
    | some e => rfl
    | none =>
      exfalso
      cases hg : m.ReduceTaskStatus.get f with
      | none => rw [hg] at hu; simp at hu
      | some d =>
        rw [hg] at hu
        exact (TaskStatusMap.scanUnStarted_none_iff _ ord).mp hs f d hg (by simpa using hu)

/-- While a task of the active phase is `Processing` and is neither reported
nor timed out, it stays `Processing`, the phase stays, its watchdog stays
armed and its `TaskId` stays. -/
theorem run_in_flight {s1 s2 : Sys} {mid : List Op} {ty : Int} {f : String}
    (h : run s1 mid = .ok s2)
    (hnorep : Op.ReportFinishedTask ty f ∉ mid)
    (hnofire : Op.TimeOutDetection f ty ∉ mid)
    (hp : s1.master.statusOf ty f = some Processing)
    (hph : s1.master.TaskStatus = ty)
    (ha : (f, ty) ∈ s1.armed) :
    s2.master.statusOf ty f = some Processing ∧ s2.master.TaskStatus = ty
      ∧ (f, ty) ∈ s2.armed
      ∧ (s2.master.record ty f).map TaskDetail.TaskId
          = (s1.master.record ty f).map TaskDetail.TaskId := by
  induction mid generalizing s1 with
  | nil =>
    simp only [run, Except.ok.injEq] at h
    rw [← h]
    exact ⟨hp, hph, ha, rfl⟩
  | cons op ops ih =>
    obtain ⟨sx, hs, hr⟩ := run_cons h
    rw [List.mem_cons, not_or] at hnorep hnofire
    have hp' : sx.master.statusOf ty f = some Processing := by
      rcases step_status hs ty f with h1 | ⟨h1, _⟩ | ⟨_, _, h1⟩ | ⟨_, _, h1⟩
      · rw [h1]
        exact hp
      · rw [hp] at h1
        exact absurd h1 (by decide)
      · exact absurd h1.symm hnorep.1
      · exact absurd h1.symm hnofire.1
    have hnd : ¬ sx.master.allDone ty := by
      intro hd
      rcases hd f with h1 | h1
      · rw [hp'] at h1
        exact absurd h1 (by simp)
      · rw [hp'] at h1
        exact absurd h1 (by decide)
    have hph' : sx.master.TaskStatus = ty := by
      rcases step_phase_cases hs with h1 | ⟨h1, hd, _⟩ | ⟨h1, hd, _⟩
      · rw [h1]
        exact hph
      · rw [hph] at h1
        rw [h1] at hnd
        exact absurd hd hnd
      · rw [hph] at h1
        rw [h1] at hnd
        exact absurd hd hnd
    have ha' : (f, ty) ∈ sx.armed := by
      rw [← List.count_pos_iff]
      have hpos := List.count_pos_iff.mpr ha
      rcases step_armed hs ty f with ⟨h1, _⟩ | ⟨h1, _⟩ | ⟨_, _, h1⟩
      · rw [h1]
        exact hpos
      · rw [h1]
        exact Nat.succ_pos _
      · exact absurd h1.symm hnofire.1
    obtain ⟨r1, r2, r3, r4⟩ := ih hr hnorep.2 hnofire.2 hp' hph' ha'
    exact ⟨r1, r2, r3, r4.trans (step_taskId hs ty f)⟩

/-- C10: in every state `s` (reachable or not), if `GetUnStartedTask` hands out
a task, and after operations `mid` that contain neither a report of the task
nor a firing of its watchdog the watchdog fires, then the firing ends without
fault, the task is `UnStarted` after it and the phase is still the type of the
task; so the next `GetUnStartedTask` returns `ok = true` for every visiting
order, and it returns the same file, task id and task type whenever the task
is the only `UnStarted` record of the active table. -/
theorem C10_timeout_reassignable (s s1 s2 : Sys) (ord : List String) (mid : List Op)
    (hok : (GetUnStartedTask s.master ord).ok = true)
    (hstep : step s (Op.GetUnStartedTask ord) = .ok s1)
    (hmid : run s1 mid = .ok s2)
    (hnorep : Op.ReportFinishedTask (GetUnStartedTask s.master ord).taskType
      (GetUnStartedTask s.master ord).file ∉ mid)
    (hnofire : Op.TimeOutDetection (GetUnStartedTask s.master ord).file
      (GetUnStartedTask s.master ord).taskType ∉ mid) :
    ∃ s3, step s2 (Op.TimeOutDetection (GetUnStartedTask s.master ord).file
          (GetUnStartedTask s.master ord).taskType) = .ok s3
      ∧ s3.master.statusOf (GetUnStartedTask s.master ord).taskType
          (GetUnStartedTask s.master ord).file = some UnStarted
      ∧ s3.master.TaskStatus = (GetUnStartedTask s.master ord).taskType
      ∧ ∀ ord', (GetUnStartedTask s3.master ord').ok = true
          ∧ ((∀ f', s3.master.statusOf (GetUnStartedTask s.master ord).taskType f'
                = some UnStarted → f' = (GetUnStartedTask s.master ord).file) →
              (GetUnStartedTask s3.master ord').file = (GetUnStartedTask s.master ord).file
              ∧ (GetUnStartedTask s3.master ord').taskId
                  = (GetUnStartedTask s.master ord).taskId
              ∧ (GetUnStartedTask s3.master ord').taskType
                  = (GetUnStartedTask s.master ord).taskType) := by
  obtain ⟨_, _, hty, hrec, _⟩ := GetUnStartedTask_ok hok
  generalize hT : (GetUnStartedTask s.master ord).taskType = ty at *
  generalize hF : (GetUnStartedTask s.master ord).file = f at *
  generalize hI : (GetUnStartedTask s.master ord).taskId = tid at *
  -- right after the assignment
  have h1 : s1.master.statusOf ty f = some Processing ∧ s1.master.TaskStatus = ty
      ∧ (f, ty) ∈ s1.armed
      ∧ (s1.master.record ty f).map TaskDetail.TaskId = some tid := by
    rcases step_get hstep with ⟨ty0, f0, _, hph, hu, hm, ha, _, hf, ht, _⟩ | ⟨_, hno⟩
    · rw [hF] at hf
      rw [hT] at ht
      subst hf
      subst ht
      refine ⟨?_, ?_, ?_, ?_⟩
      · rw [hm, statusOf_setStatus, if_pos ⟨rfl, rfl⟩, hu]
        rfl
      · rw [hm, phase_setStatus]
        exact hph
      · rw [ha]
        simp
      · rw [hm, taskId_setStatus, hrec]
        rfl
    · rw [hok] at hno
      exact absurd hno (by decide)
  obtain ⟨hp2, hph2, ha2, hid2⟩ := run_in_flight hmid hnorep hnofire h1.1 h1.2.1 h1.2.2.1
  rw [h1.2.2.2] at hid2
  -- the firing
  obtain ⟨d, hd⟩ : ∃ d, s2.master.record ty f = some d := by
    cases hc : s2.master.record ty f with
    | none =>
      rw [Master.statusOf, hc] at hp2
      simp at hp2
    | some d => exact ⟨d, rfl⟩
  have hdp : d.TaskStatus = Processing := by
    rw [Master.statusOf, hd] at hp2
    simpa using hp2
  have hfire : step s2 (Op.TimeOutDetection f ty)
      = .ok { s2 with master := s2.master.setStatus ty f UnStarted
                      armed := s2.armed.erase (f, ty) } := by
    simp only [step, ha2, if_true, TimeOutDetection_present hd, hdp]
  refine ⟨_, hfire, ?_, ?_, ?_⟩
  · show (s2.master.setStatus ty f UnStarted).statusOf ty f = some UnStarted
    rw [statusOf_setStatus, if_pos ⟨rfl, rfl⟩, hp2]
    rfl
  · show (s2.master.setStatus ty f UnStarted).TaskStatus = ty
    rw [phase_setStatus]
    exact hph2
  · intro ord'
    have hu3 : (s2.master.setStatus ty f UnStarted).statusOf ty f = some UnStarted := by
      rw [statusOf_setStatus, if_pos ⟨rfl, rfl⟩, hp2]
      rfl
    have hph3 : (s2.master.setStatus ty f UnStarted).TaskStatus = ty := by
      rw [phase_setStatus]
      exact hph2
    have hid3 : ((s2.master.setStatus ty f UnStarted).record ty f).map TaskDetail.TaskId
        = some tid := by
      rw [taskId_setStatus]
      exact hid2
    have hok3 := GetUnStartedTask_ok_of_unstarted ord' hty hph3 hu3
    refine ⟨hok3, ?_⟩
    intro honly
    obtain ⟨_, hph', _, hrec', _⟩ := GetUnStartedTask_ok hok3
    have hun' := statusOf_of_GetUnStartedTask_ok hok3
    have hty' : (GetUnStartedTask (s2.master.setStatus ty f UnStarted) ord').taskType = ty := by
      rw [← hph', hph3]
    rw [hty'] at hun' hrec'
    have hf' := honly _ hun'
    rw [hf'] at hrec'
    rw [hrec'] at hid3
    simp only [Option.map_some', Option.some.injEq] at hid3
    exact ⟨hf', hid3, hty'⟩

/-- C10 on the job of two files: `a.txt` is handed out, then `b.txt` is handed
out and reported, then the watchdog of `a.txt` fires; `a.txt` is `UnStarted`
again, the phase is still Mapping, and the next `GetUnStartedTask` returns
`a.txt` with task id 0, the only `UnStarted` record. -/
theorem C10_timeout_reassignable_witness :
    (GetUnStartedTask (MakeSys ["a.txt", "b.txt"] 1).master []).ok = true
      ∧ step (MakeSys ["a.txt", "b.txt"] 1) (Op.GetUnStartedTask [])
          = .ok (exec (MakeSys ["a.txt", "b.txt"] 1) [Op.GetUnStartedTask []])
      ∧ run (exec (MakeSys ["a.txt", "b.txt"] 1) [Op.GetUnStartedTask []])
            [Op.GetUnStartedTask [], Op.ReportFinishedTask MapTask "b.txt"]
          = .ok (exec (MakeSys ["a.txt", "b.txt"] 1)
              [Op.GetUnStartedTask [], Op.GetUnStartedTask [],
               Op.ReportFinishedTask MapTask "b.txt"])
      ∧ Op.ReportFinishedTask MapTask "a.txt"
          ∉ [Op.GetUnStartedTask [], Op.ReportFinishedTask MapTask "b.txt"]
      ∧ Op.TimeOutDetection "a.txt" MapTask
          ∉ [Op.GetUnStartedTask [], Op.ReportFinishedTask MapTask "b.txt"]
      ∧ ∃ s3, step (exec (MakeSys ["a.txt", "b.txt"] 1)
              [Op.GetUnStartedTask [], Op.GetUnStartedTask [],
               Op.ReportFinishedTask MapTask "b.txt"])
            (Op.TimeOutDetection "a.txt" MapTask) = .ok s3
        ∧ s3.master.statusOf MapTask "a.txt" = some UnStarted
        ∧ s3.master.TaskStatus = MapTask
        ∧ ∀ ord', (GetUnStartedTask s3.master ord').ok = true
            ∧ ((∀ f', s3.master.statusOf MapTask f' = some UnStarted → f' = "a.txt") →
                (GetUnStartedTask s3.master ord').file = "a.txt"
                ∧ (GetUnStartedTask s3.master ord').taskId = 0
                ∧ (GetUnStartedTask s3.master ord').taskType = MapTask) :=
  ⟨by decide, by decide, by decide, by decide, by decide,
    C10_timeout_reassignable (MakeSys ["a.txt", "b.txt"] 1)
      (exec (MakeSys ["a.txt", "b.txt"] 1) [Op.GetUnStartedTask []])
      (exec (MakeSys ["a.txt", "b.txt"] 1)
        [Op.GetUnStartedTask [], Op.GetUnStartedTask [], Op.ReportFinishedTask MapTask "b.txt"])
      [] [Op.GetUnStartedTask [], Op.ReportFinishedTask MapTask "b.txt"]
      (by decide) (by decide) (by decide) (by decide) (by decide)⟩

/-! ## The parts of the coordinator that no step touches -/

theorem nums_setStatus (m : Master) (ty : Int) (f : String) (st : Int) :
    (m.setStatus ty f st).MapTaskNum = m.MapTaskNum
      ∧ (m.setStatus ty f st).ReduceTaskNum = m.ReduceTaskNum := by
  unfold Master.setStatus
  split
  · exact ⟨rfl, rfl⟩
  · split <;> exact ⟨rfl, rfl⟩

theorem nums_CheckMasterStatus (m : Master) :
    (CheckMasterStatus m).MapTaskNum = m.MapTaskNum
      ∧ (CheckMasterStatus m).ReduceTaskNum = m.ReduceTaskNum := by
  unfold CheckMasterStatus
  split
  · split <;> exact ⟨rfl, rfl⟩
  · split
    · split <;> exact ⟨rfl, rfl⟩
    · exact ⟨rfl, rfl⟩

/-- No step changes `MapTaskNum` or `ReduceTaskNum`. -/
theorem step_nums {s s' : Sys} {op : Op} (h : step s op = .ok s') :
    s'.master.MapTaskNum = s.master.MapTaskNum
      ∧ s'.master.ReduceTaskNum = s.master.ReduceTaskNum := by
  cases op with
  | GetUnStartedTask ord =>
    rcases step_get h with ⟨ty0, f0, _, _, _, hm, _⟩ | ⟨rfl, _⟩
    · rw [hm]
      exact nums_setStatus _ _ _ _
    · exact ⟨rfl, rfl⟩
  | ReportFinishedTask ty0 f0 =>
    rcases step_report h with ⟨_, _, rfl⟩ | ⟨_, _, rfl⟩
    · exact ⟨(nums_CheckMasterStatus _).1.trans (nums_setStatus _ _ _ _).1,
        (nums_CheckMasterStatus _).2.trans (nums_setStatus _ _ _ _).2⟩
    · exact ⟨rfl, rfl⟩
  | CheckMasterStatus =>
    rw [step_check h]
    exact nums_CheckMasterStatus _
  | TimeOutDetection f0 ty0 =>
    obtain ⟨_, _, _, ⟨_, hm⟩ | ⟨_, hm⟩⟩ := step_fire h
    · rw [hm]
      exact nums_setStatus _ _ _ _
    · rw [hm]
      exact ⟨rfl, rfl⟩
  | Done =>
    rw [step_done h]
    exact ⟨rfl, rfl⟩

theorem run_nums {s s' : Sys} {ops : List Op} (h : run s ops = .ok s') :
    s'.master.MapTaskNum = s.master.MapTaskNum
      ∧ s'.master.ReduceTaskNum = s.master.ReduceTaskNum := by
  induction ops generalizing s with
  | nil =>
    simp only [run, Except.ok.injEq] at h
    rw [h]
    exact ⟨rfl, rfl⟩
  | cons op ops ih =>
    obtain ⟨s1, h1, h2⟩ := run_cons h
    exact ⟨(ih h2).1.trans (step_nums h1).1, (ih h2).2.trans (step_nums h1).2⟩

theorem SameFrame_refl (m : Master) : SameFrame m m :=
  ⟨rfl, rfl, fun _ _ => rfl, rfl, rfl⟩

theorem SameFrame_trans {m1 m2 m3 : Master} (h12 : SameFrame m1 m2) (h23 : SameFrame m2 m3) :
    SameFrame m1 m3 :=
  ⟨h23.1.trans h12.1, h23.2.1.trans h12.2.1,
    fun ty f => (h23.2.2.1 ty f).trans (h12.2.2.1 ty f),
    h23.2.2.2.1.trans h12.2.2.2.1, h23.2.2.2.2.trans h12.2.2.2.2⟩

theorem SameFrame_setStatus (m : Master) (ty : Int) (f : String) (st : Int) :
    SameFrame m (m.setStatus ty f st) := by
  refine ⟨?_, ?_, fun ty' f' => taskId_setStatus m ty ty' f f' st,
    (nums_setStatus m ty f st).1, (nums_setStatus m ty f st).2⟩
  · unfold Master.setStatus
    split
    · exact TaskStatusMap.keys_setStatus _ _ _
    · split <;> rfl
  · unfold Master.setStatus
    split
    · rfl
    · split
      · exact TaskStatusMap.keys_setStatus _ _ _
      · rfl

theorem SameFrame_CheckMasterStatus (m : Master) : SameFrame m (CheckMasterStatus m) := by
  refine ⟨?_, ?_, fun ty f => by rw [record_CheckMasterStatus],
    (nums_CheckMasterStatus m).1, (nums_CheckMasterStatus m).2⟩
  · rw [(tables_CheckMasterStatus m).1]
  · rw [(tables_CheckMasterStatus m).2]

theorem SameFrame_GetUnStartedTask (m : Master) (ord : List String) :
    SameFrame m (GetUnStartedTask m ord).master := by
  cases hok : (GetUnStartedTask m ord).ok with
  | true =>
    rw [(GetUnStartedTask_ok hok).1]
    exact SameFrame_setStatus _ _ _ _
  | false =>
    rw [(GetUnStartedTask_not_ok hok).1]
    exact SameFrame_refl m

theorem SameFrame_ReportFinishedTask {m m' : Master} {a : TaskFinishedArgs}
    {reply : TaskFinishedReply} {started : List Goroutine}
    (h : ReportFinishedTask m a = .ok (m', reply, started)) : SameFrame m m' := by
  by_cases hty : a.TaskType = MapTask ∨ a.TaskType = ReduceTask
  · cases hr : m.record a.TaskType a.File with
    | none =>
      rw [ReportFinishedTask_absent hty hr] at h
      simp at h
    | some d =>
      rw [ReportFinishedTask_present hr] at h
      simp only [Except.ok.injEq, Prod.mk.injEq] at h
      rw [← h.1]
      exact SameFrame_setStatus _ _ _ _
  · rw [not_or] at hty
    rw [ReportFinishedTask_other hty.1 hty.2] at h
    simp only [Except.ok.injEq, Prod.mk.injEq] at h
    rw [← h.1]
    exact SameFrame_refl m

theorem SameFrame_TimeOutDetection {m m' : Master} {f : String} {ty : Int}
    (h : TimeOutDetection m f ty = .ok m') : SameFrame m m' := by
  by_cases hty : ty = MapTask ∨ ty = ReduceTask
  · cases hr : m.record ty f with
    | none =>
      rw [TimeOutDetection_absent hty hr] at h
      simp at h
    | some d =>
      rw [TimeOutDetection_present hr] at h
      simp only [Except.ok.injEq] at h
      rw [← h]
      split
      · exact SameFrame_setStatus _ _ _ _
      · exact SameFrame_refl m
  · rw [not_or] at hty
    rw [TimeOutDetection_other hty.1 hty.2] at h
    simp only [Except.ok.injEq] at h
    rw [← h]
    exact SameFrame_refl m

theorem SameFrame_step {s s' : Sys} {op : Op} (h : step s op = .ok s') :
    SameFrame s.master s'.master := by
  cases op with
  | GetUnStartedTask ord =>
    simp only [step, Except.ok.injEq] at h
    rw [← h]
    exact SameFrame_GetUnStartedTask _ _
  | ReportFinishedTask ty0 f0 =>
    rcases step_report h with ⟨_, _, rfl⟩ | ⟨_, _, rfl⟩
    · exact SameFrame_trans (SameFrame_setStatus _ _ _ _) (SameFrame_CheckMasterStatus _)
    · exact SameFrame_refl _
  | CheckMasterStatus =>
    rw [step_check h]
    exact SameFrame_CheckMasterStatus _
  | TimeOutDetection f0 ty0 =>
    obtain ⟨_, _, _, ⟨_, hm⟩ | ⟨_, hm⟩⟩ := step_fire h
    · rw [hm]
      exact SameFrame_setStatus _ _ _ _
    · rw [hm]
      exact SameFrame_refl _
  | Done =>
    rw [step_done h]
    exact SameFrame_refl _

theorem SameFrame_run {s s' : Sys} {ops : List Op} (h : run s ops = .ok s') :
    SameFrame s.master s'.master := by
  induction ops generalizing s with
  | nil =>
    simp only [run, Except.ok.injEq] at h
    rw [← h]
    exact SameFrame_refl _
  | cons op ops ih =>
    obtain ⟨s1, h1, h2⟩ := run_cons h
    exact SameFrame_trans (SameFrame_step h1) (ih h2)

theorem len_of_SameFrame {m m' : Master} (hf : SameFrame m m') :
    m'.MapTaskStatus.len = m.MapTaskStatus.len
      ∧ m'.ReduceTaskStatus.len = m.ReduceTaskStatus.len := by
  have h1 := congrArg List.length hf.1
  have h2 := congrArg List.length hf.2.1
  simp only [TaskStatusMap.keys, List.length_map] at h1 h2
  exact ⟨h1, h2⟩

/-! ## C11: what a successful offer contains -/

/-- C11: for every state whose phase is Mapping or Reducing and whose active
table has an `UnStarted` record, and every visiting order, `ReplyTaskToWorker`
answers `Ok = true` with the type of the active phase, the key and the
`TaskId` of a record that was `UnStarted` in the active table, and the
coordinator's `MapTaskNum` and `ReduceTaskNum`; it starts the watchdog of that
task; afterwards that record is `Processing` with the same `TaskId`, every
other record of both tables and the phase are as before.  In every state
reached from `MakeMaster files nReduce` the two numbers are `len(files)` and
`nReduce`. -/
theorem C11_offer_postcondition (m : Master) (ord : List String) (f0 : String)
    (hphase : m.TaskStatus = MapTask ∨ m.TaskStatus = ReduceTask)
    (hun : m.statusOf m.TaskStatus f0 = some UnStarted) :
    (ReplyTaskToWorker m ord).2.1.Ok = true
      ∧ (ReplyTaskToWorker m ord).2.1.TaskType = m.TaskStatus
      ∧ m.record m.TaskStatus (ReplyTaskToWorker m ord).2.1.File
          = some { TaskId := (ReplyTaskToWorker m ord).2.1.TaskId, TaskStatus := UnStarted }
      ∧ (ReplyTaskToWorker m ord).2.1.MapTaskNum = m.MapTaskNum
      ∧ (ReplyTaskToWorker m ord).2.1.ReduceTaskNum = m.ReduceTaskNum
      ∧ (ReplyTaskToWorker m ord).2.2
          = [Goroutine.TimeOutDetection (ReplyTaskToWorker m ord).2.1.File m.TaskStatus]
      ∧ (ReplyTaskToWorker m ord).1.record m.TaskStatus (ReplyTaskToWorker m ord).2.1.File
          = some { TaskId := (ReplyTaskToWorker m ord).2.1.TaskId, TaskStatus := Processing }
      ∧ (∀ ty f, ¬ (ty = m.TaskStatus ∧ f = (ReplyTaskToWorker m ord).2.1.File)
          → (ReplyTaskToWorker m ord).1.record ty f = m.record ty f)
      ∧ (ReplyTaskToWorker m ord).1.TaskStatus = m.TaskStatus
      ∧ (∀ (files : List String) (nReduce : Int) (ops : List Op) (s : Sys),
          run (MakeSys files nReduce) ops = .ok s →
          s.master.MapTaskNum = (files.length : Int) ∧ s.master.ReduceTaskNum = nReduce) := by
  have hok := GetUnStartedTask_ok_of_unstarted ord hphase rfl hun
  obtain ⟨hm, hty, _, hrec, hst⟩ := GetUnStartedTask_ok hok
  simp only [ReplyTaskToWorker]
  rw [← hty] at hrec hst hm
  refine ⟨hok, hty.symm, hrec, ?_, ?_, hst, ?_, ?_, ?_, ?_⟩
  · rw [hm]
    exact (nums_setStatus _ _ _ _).1
  · rw [hm]
    exact (nums_setStatus _ _ _ _).2
  · rw [hm, record_setStatus, if_pos ⟨rfl, rfl⟩, hrec]
    rfl
  · intro ty f hne
    rw [hm, record_setStatus, if_neg hne]
  · rw [hm, phase_setStatus]
  · intro files nReduce ops s hrun
    exact run_nums hrun

/-- C11 right after `MakeMaster ["a.txt", "b.txt"] 2`, with `b.txt` first in
the visiting order: the hypotheses hold and the offer is `b.txt`, task id 1,
type `MapTask`, with the numbers 2 and 2. -/
theorem C11_offer_postcondition_witness :
    ((MakeMaster ["a.txt", "b.txt"] 2).TaskStatus = MapTask
        ∨ (MakeMaster ["a.txt", "b.txt"] 2).TaskStatus = ReduceTask)
      ∧ (MakeMaster ["a.txt", "b.txt"] 2).statusOf (MakeMaster ["a.txt", "b.txt"] 2).TaskStatus
          "a.txt" = some UnStarted
      ∧ (ReplyTaskToWorker (MakeMaster ["a.txt", "b.txt"] 2) ["b.txt"]).2.1
          = { MapTaskNum := 2, ReduceTaskNum := 2, File := "b.txt", TaskId := 1,
              TaskType := MapTask, Ok := true }
      ∧ (ReplyTaskToWorker (MakeMaster ["a.txt", "b.txt"] 2) ["b.txt"]).2.1.Ok = true
      ∧ (ReplyTaskToWorker (MakeMaster ["a.txt", "b.txt"] 2) ["b.txt"]).2.1.TaskType
          = (MakeMaster ["a.txt", "b.txt"] 2).TaskStatus :=
  ⟨by decide, by decide, by decide,
    (C11_offer_postcondition (MakeMaster ["a.txt", "b.txt"] 2) ["b.txt"] "a.txt"
      (by decide) (by decide)).1,
    (C11_offer_postcondition (MakeMaster ["a.txt", "b.txt"] 2) ["b.txt"] "a.txt"
      (by decide) (by decide)).2.1⟩

/-! ## C12: when no task is offered -/

theorem GetUnStartedTask_taskType (m : Master) (ord : List String) :
    (GetUnStartedTask m ord).taskType
      = if m.TaskStatus = MapTask then MapTask
        else if m.TaskStatus = ReduceTask then ReduceTask else Free := by
  unfold GetUnStartedTask
  split
  · split <;> rfl
  · split
    · split <;> rfl
    · rfl

/-- C12: in a state whose phase is one of Mapping, Reducing, AllDone,
`GetUnStartedTask` returns `ok = false` if and only if the phase is AllDone
(`Free`) or the table of the active phase has no `UnStarted` record; it then
returns the empty file name, task id 0 and the current phase as task type,
starts no watchdog and returns the coordinator as it was (so a step of the
system leaves the armed watchdogs as they were too). -/
theorem C12_no_offer (m : Master) (ord : List String)
    (hphase : m.TaskStatus = Free ∨ m.TaskStatus = MapTask ∨ m.TaskStatus = ReduceTask) :
    ((GetUnStartedTask m ord).ok = false
        ↔ (m.TaskStatus = Free ∨ ∀ f, m.statusOf m.TaskStatus f ≠ some UnStarted))
      ∧ ((GetUnStartedTask m ord).ok = false →
          (GetUnStartedTask m ord).file = "" ∧ (GetUnStartedTask m ord).taskId = 0
          ∧ (GetUnStartedTask m ord).taskType = m.TaskStatus
          ∧ (GetUnStartedTask m ord).started = []
          ∧ (GetUnStartedTask m ord).master = m
          ∧ ∀ (armed handed : List (String × Int)),
              step { master := m, armed := armed, handed := handed } (Op.GetUnStartedTask ord)
                = .ok { master := m, armed := armed, handed := handed }) := by
  have htype : (GetUnStartedTask m ord).taskType = m.TaskStatus := by
    rw [GetUnStartedTask_taskType]
    rcases hphase with h | h | h
    · rw [h]; rfl
    · rw [if_pos h, h]
    · have hne : ¬ m.TaskStatus = MapTask := by rw [h]; decide
      rw [if_neg hne, if_pos h, h]
  constructor
  · constructor
    · intro hno
      by_cases hfree : m.TaskStatus = Free
      · exact Or.inl hfree
      · right
        intro f hf
        have hty : m.TaskStatus = MapTask ∨ m.TaskStatus = ReduceTask :=
          hphase.resolve_left hfree
        have := GetUnStartedTask_ok_of_unstarted ord hty rfl hf
        rw [hno] at this
        exact absurd this (by decide)
    · intro hcase
      cases hok : (GetUnStartedTask m ord).ok with
      | false => rfl
      | true =>
        exfalso
        obtain ⟨_, hty, htyp, _⟩ := GetUnStartedTask_ok hok
        have hun := statusOf_of_GetUnStartedTask_ok hok
        rcases hcase with hfree | hnone
        · rw [← hty, hfree] at htyp
          rcases htyp with h | h
          · exact absurd h (by decide)
          · exact absurd h (by decide)
        · rw [← hty] at hun
          exact hnone _ hun
  · intro hno
    obtain ⟨h1, h2, h3, h4⟩ := GetUnStartedTask_not_ok hno
    refine ⟨h3, h4, htype, h2, h1, ?_⟩
    intro armed handed
    simp only [step, h1, h2, watchdogs, List.append_nil]

/-- C12 in three states: right after `MakeMaster ["a.txt"] 1` a task is
offered; once `a.txt` is handed out the next call returns `ok = false` with
type `MapTask`; at the end of the complete run of the 3-file job it returns
`ok = false` with type `Free`. -/
theorem C12_no_offer_witness :
    ((MakeMaster ["a.txt"] 1).TaskStatus = Free ∨ (MakeMaster ["a.txt"] 1).TaskStatus = MapTask
        ∨ (MakeMaster ["a.txt"] 1).TaskStatus = ReduceTask)
      ∧ (GetUnStartedTask (MakeMaster ["a.txt"] 1) []).ok = true
      ∧ (GetUnStartedTask (GetUnStartedTask (MakeMaster ["a.txt"] 1) []).master []).ok = false
      ∧ (GetUnStartedTask (GetUnStartedTask (MakeMaster ["a.txt"] 1) []).master []).taskType
          = MapTask
      ∧ (GetUnStartedTask (exec (MakeSys ["a.txt", "b.txt", "c.txt"] 2) fullJob).master []).ok
          = false
      ∧ (GetUnStartedTask (exec (MakeSys ["a.txt", "b.txt", "c.txt"] 2) fullJob).master
          []).taskType = Free
      ∧ ((GetUnStartedTask (MakeMaster ["a.txt"] 1) []).ok = false
        ↔ ((MakeMaster ["a.txt"] 1).TaskStatus = Free
          ∨ ∀ f, (MakeMaster ["a.txt"] 1).statusOf (MakeMaster ["a.txt"] 1).TaskStatus f
              ≠ some UnStarted)) :=
  ⟨by decide, by decide, by decide, by decide, by decide, by decide,
    (C12_no_offer (MakeMaster ["a.txt"] 1) [] (by decide)).1⟩

/-! ## C13: what a watchdog does when it fires -/

/-- C13: for every state and every existing task `(taskType, file)`,
`TimeOutDetection` ends without fault; the record of the task becomes
`UnStarted` (same `TaskId`) if it is `Processing`, and the whole coordinator
is left as it was if it is not (`Finished`, `UnStarted`); in every case every
other record of both tables, every `TaskId` and the phase are as before. -/
theorem C13_watchdog_step (m : Master) (f : String) (ty : Int) (d : TaskDetail)
    (_hty : ty = MapTask ∨ ty = ReduceTask) (hkey : m.record ty f = some d) :
    ∃ m', TimeOutDetection m f ty = .ok m'
      ∧ (d.TaskStatus = Processing
          → m'.record ty f = some { TaskId := d.TaskId, TaskStatus := UnStarted })
      ∧ (d.TaskStatus ≠ Processing → m' = m)
      ∧ (∀ ty' f', ¬ (ty' = ty ∧ f' = f) → m'.record ty' f' = m.record ty' f')
      ∧ (∀ ty' f', (m'.record ty' f').map TaskDetail.TaskId
          = (m.record ty' f').map TaskDetail.TaskId)
      ∧ m'.TaskStatus = m.TaskStatus := by
  refine ⟨_, TimeOutDetection_present hkey, ?_, ?_, ?_, ?_, ?_⟩
  · intro hp
    rw [if_pos hp, record_setStatus, if_pos ⟨rfl, rfl⟩, hkey]
    rfl
  · intro hnp
    rw [if_neg hnp]
  · intro ty' f' hne
    split
    · rw [record_setStatus, if_neg hne]
    · rfl
  · intro ty' f'
    split
    · rw [taskId_setStatus]
    · rfl
  · split
    · rw [phase_setStatus]
    · rfl

/-- C13 on the job of two files after `a.txt` has been handed out: the
watchdog of `a.txt` finds it `Processing` and reverts it. -/
theorem C13_watchdog_step_witness :
    ((MapTask : Int) = MapTask ∨ (MapTask : Int) = ReduceTask)
      ∧ (GetUnStartedTask (MakeMaster ["a.txt", "b.txt"] 1) []).master.record MapTask "a.txt"
          = some { TaskId := 0, TaskStatus := Processing }
      ∧ ∃ m', TimeOutDetection (GetUnStartedTask (MakeMaster ["a.txt", "b.txt"] 1) []).master
              "a.txt" MapTask = .ok m'
        ∧ ((Processing : Int) = Processing
            → m'.record MapTask "a.txt" = some { TaskId := 0, TaskStatus := UnStarted })
        ∧ ((Processing : Int) ≠ Processing
            → m' = (GetUnStartedTask (MakeMaster ["a.txt", "b.txt"] 1) []).master)
        ∧ (∀ ty' f', ¬ (ty' = MapTask ∧ f' = "a.txt") → m'.record ty' f'
            = (GetUnStartedTask (MakeMaster ["a.txt", "b.txt"] 1) []).master.record ty' f')
        ∧ (∀ ty' f', (m'.record ty' f').map TaskDetail.TaskId
            = ((GetUnStartedTask (MakeMaster ["a.txt", "b.txt"] 1) []).master.record
                ty' f').map TaskDetail.TaskId)
        ∧ m'.TaskStatus
            = (GetUnStartedTask (MakeMaster ["a.txt", "b.txt"] 1) []).master.TaskStatus :=
  ⟨by decide, by decide,
    C13_watchdog_step (GetUnStartedTask (MakeMaster ["a.txt", "b.txt"] 1) []).master "a.txt"
      MapTask { TaskId := 0, TaskStatus := Processing } (by decide) (by decide)⟩

/-! ## C15: the Map table built from the input files -/

/-- C15: for pairwise distinct `files`, `InitMapTaskStatus files` has exactly
`len(files)` records, its keys are the names in `files` (in this order), and
the record of the name at index `i` has `TaskId = i` and status `UnStarted`. -/
theorem C15_InitMapTaskStatus (files : List String) (hnd : files.Nodup) :
    (InitMapTaskStatus files).len = files.length
      ∧ (InitMapTaskStatus files).keys = files
      ∧ (∀ f, f ∈ (InitMapTaskStatus files).keys ↔ f ∈ files)
      ∧ (∀ (i : Nat) (f : String), files[i]? = some f →
          (InitMapTaskStatus files).get f
            = some { TaskId := (i : Int), TaskStatus := UnStarted }) := by
  have hent := entries_InitMapTaskStatus files hnd
  have hkeys : (InitMapTaskStatus files).keys = files := by
    unfold TaskStatusMap.keys
    rw [hent, List.map_map]
    exact List.enum_map_snd files
  refine ⟨?_, hkeys, fun f => by rw [hkeys], ?_⟩
  · unfold TaskStatusMap.len
    rw [hent, List.length_map, List.enum_length]
  · intro i f hf
    rw [TaskStatusMap.get_eq_some_iff, hent]
    exact List.mem_map.mpr ⟨(i, f), List.mk_mem_enum_iff_getElem?.mpr hf, rfl⟩

/-- C15 for the three files of the example job. -/
theorem C15_InitMapTaskStatus_witness :
    ["a.txt", "b.txt", "c.txt"].Nodup
      ∧ (InitMapTaskStatus ["a.txt", "b.txt", "c.txt"]).len = 3
      ∧ (InitMapTaskStatus ["a.txt", "b.txt", "c.txt"]).keys = ["a.txt", "b.txt", "c.txt"]
      ∧ (InitMapTaskStatus ["a.txt", "b.txt", "c.txt"]).get "c.txt"
          = some { TaskId := 2, TaskStatus := UnStarted } :=
  ⟨by decide,
    (C15_InitMapTaskStatus ["a.txt", "b.txt", "c.txt"] (by decide)).1,
    (C15_InitMapTaskStatus ["a.txt", "b.txt", "c.txt"] (by decide)).2.1,
    (C15_InitMapTaskStatus ["a.txt", "b.txt", "c.txt"] (by decide)).2.2.2 2 "c.txt" rfl⟩

/-! ## C16: task ids are distinct and in range -/

theorem taskId_InitMapTaskStatus {files : List String} {f : String} {d : TaskDetail}
    (h : (InitMapTaskStatus files).get f = some d) :
    ∃ i : Nat, files[i]? = some f ∧ d.TaskId = (i : Int) := by
  have hmem := (TaskStatusMap.get_eq_some_iff _ f d).mp h
  unfold InitMapTaskStatus at hmem
  rcases mem_entries_foldl_put (fun p : Nat × String => p.2)
    (fun p => { TaskId := (p.1 : Int), TaskStatus := UnStarted }) _ _ _ hmem
    with h0 | ⟨p, hp, he⟩
  · simp [TaskStatusMap.empty] at h0
  · obtain ⟨i, g⟩ := p
    simp only [Prod.mk.injEq] at he
    obtain ⟨rfl, rfl⟩ := he
    exact ⟨i, List.mk_mem_enum_iff_getElem?.mp hp, rfl⟩

theorem taskId_InitReduceTaskStatus {nReduce : Int} {f : String} {d : TaskDetail}
    (h : (InitReduceTaskStatus nReduce).get f = some d) :
    ∃ i : Nat, i < nReduce.toNat ∧ f = GetReduceFileName (i : Int)
      ∧ d.TaskId = (i : Int) := by
  have hmem := (TaskStatusMap.get_eq_some_iff _ f d).mp h
  rw [entries_InitReduceTaskStatus] at hmem
  obtain ⟨i, hi, he⟩ := List.mem_map.mp hmem
  simp only [Prod.mk.injEq] at he
  obtain ⟨rfl, rfl⟩ := he
  exact ⟨i, List.mem_range.mp hi, rfl, rfl⟩

theorem len_InitMapTaskStatus (files : List String) (hnd : files.Nodup) :
    (InitMapTaskStatus files).len = files.length := by
  unfold TaskStatusMap.len
  rw [entries_InitMapTaskStatus files hnd, List.length_map, List.enum_length]

/-- A record of a reachable state has the `TaskId` of the record that
`MakeMaster` created under the same key. -/
theorem record_of_run {files : List String} {nReduce : Int} {ops : List Op} {s : Sys}
    (hrun : run (MakeSys files nReduce) ops = .ok s) {ty : Int} {f : String} {d : TaskDetail}
    (h : s.master.record ty f = some d) :
    ∃ d0, (MakeMaster files nReduce).record ty f = some d0 ∧ d0.TaskId = d.TaskId := by
  have hid := (SameFrame_run hrun).2.2.1 ty f
  rw [h] at hid
  cases h0 : (MakeSys files nReduce).master.record ty f with
  | none =>
    rw [h0] at hid
    simp at hid
  | some d0 =>
    rw [h0] at hid
    simp only [Option.map_some', Option.some.injEq] at hid
    exact ⟨d0, h0, hid.symm⟩

/-- C16 (amended): in every state reached from `MakeMaster files nReduce`, for
all `files` and `nReduce`: distinct records of the Map table have distinct
`TaskId`s and every `TaskId` of the Map table lies in `[0, len(files))`, where
`len(files)` is the number of records of the Map table when the names in
`files` are pairwise distinct; distinct records of the Reduce table have
distinct `TaskId`s and every `TaskId` of the Reduce table lies in
`[0, count)` with `count` the number of records of the Reduce table. -/
theorem C16_task_ids (files : List String) (nReduce : Int) (ops : List Op) (s : Sys)
    (hrun : run (MakeSys files nReduce) ops = .ok s) :
    (∀ f f' d d', s.master.MapTaskStatus.get f = some d →
        s.master.MapTaskStatus.get f' = some d' → d.TaskId = d'.TaskId → f = f')
      ∧ (∀ f d, s.master.MapTaskStatus.get f = some d →
          0 ≤ d.TaskId ∧ d.TaskId < (files.length : Int))
      ∧ (files.Nodup → s.master.MapTaskStatus.len = files.length)
      ∧ (∀ f f' d d', s.master.ReduceTaskStatus.get f = some d →
          s.master.ReduceTaskStatus.get f' = some d' → d.TaskId = d'.TaskId → f = f')
      ∧ (∀ f d, s.master.ReduceTaskStatus.get f = some d →
          0 ≤ d.TaskId ∧ d.TaskId < (s.master.ReduceTaskStatus.len : Int)) := by
  have hframe := SameFrame_run hrun
  have hlen := len_of_SameFrame hframe
  have hmap : ∀ f d, s.master.MapTaskStatus.get f = some d →
      ∃ i : Nat, files[i]? = some f ∧ d.TaskId = (i : Int) := by
    intro f d h
    have hrec : s.master.record MapTask f = some d := by
      unfold Master.record
      rw [if_pos rfl]
      exact h
    obtain ⟨d0, h0, hid⟩ := record_of_run hrun hrec
    unfold Master.record at h0
    rw [if_pos rfl] at h0
    obtain ⟨i, hi, hd⟩ := taskId_InitMapTaskStatus h0
    exact ⟨i, hi, by rw [← hid, hd]⟩
  have hred : ∀ f d, s.master.ReduceTaskStatus.get f = some d →
      ∃ i : Nat, i < nReduce.toNat ∧ f = GetReduceFileName (i : Int)
        ∧ d.TaskId = (i : Int) := by
    intro f d h
    have hne : ¬ (ReduceTask = MapTask) := by decide
    have hrec : s.master.record ReduceTask f = some d := by
      unfold Master.record
      rw [if_neg hne, if_pos rfl]
      exact h
    obtain ⟨d0, h0, hid⟩ := record_of_run hrun hrec
    unfold Master.record at h0
    rw [if_neg hne, if_pos rfl] at h0
    obtain ⟨i, hi, hf, hd⟩ := taskId_InitReduceTaskStatus h0
    exact ⟨i, hi, hf, by rw [← hid, hd]⟩
  refine ⟨?_, ?_, ?_, ?_, ?_⟩
  · intro f f' d d' h h' hid
    obtain ⟨i, hi, hd⟩ := hmap f d h
    obtain ⟨j, hj, hd'⟩ := hmap f' d' h'
    have hij : i = j := by
      rw [hd, hd'] at hid
      exact Int.ofNat.inj hid
    subst hij
    rw [hi] at hj
    exact Option.some.inj hj
  · intro f d h
    obtain ⟨i, hi, hd⟩ := hmap f d h
    have hlt : i < files.length := by
      by_contra hge
      rw [List.getElem?_eq_none (Nat.le_of_not_lt hge)] at hi
      simp at hi
    rw [hd]
    omega
  · intro hnd
    rw [hlen.1]
    exact len_InitMapTaskStatus files hnd
  · intro f f' d d' h h' hid
    obtain ⟨i, _, hf, hd⟩ := hred f d h
    obtain ⟨j, _, hf', hd'⟩ := hred f' d' h'
    have hij : i = j := by
      rw [hd, hd'] at hid
      exact Int.ofNat.inj hid
    rw [hf, hf', hij]
  · intro f d h
    obtain ⟨i, hi, _, hd⟩ := hred f d h
    have hl : s.master.ReduceTaskStatus.len = nReduce.toNat := by
      rw [hlen.2]
      show (InitReduceTaskStatus nReduce).len = nReduce.toNat
      unfold TaskStatusMap.len
      rw [entries_InitReduceTaskStatus, List.length_map, List.length_range]
    rw [hd, hl]
    omega

/-- C16 at the end of the complete run of the 3-file, 2-reduce job: the record
of `c.txt` has a task id in `[0, 3)`, the record of `mr-out-1` a task id in
`[0, 2)`. -/
theorem C16_task_ids_witness :
    run (MakeSys ["a.txt", "b.txt", "c.txt"] 2) fullJob
        = .ok (exec (MakeSys ["a.txt", "b.txt", "c.txt"] 2) fullJob)
      ∧ (exec (MakeSys ["a.txt", "b.txt", "c.txt"] 2) fullJob).master.MapTaskStatus.get "c.txt"
          = some { TaskId := 2, TaskStatus := Finished }
      ∧ ((0 : Int) ≤ 2 ∧ (2 : Int) < (["a.txt", "b.txt", "c.txt"].length : Int))
      ∧ (exec (MakeSys ["a.txt", "b.txt", "c.txt"] 2) fullJob).master.MapTaskStatus.len = 3 :=
  ⟨by decide, by decide,
    (C16_task_ids ["a.txt", "b.txt", "c.txt"] 2 fullJob
      (exec (MakeSys ["a.txt", "b.txt", "c.txt"] 2) fullJob) (by decide)).2.1 "c.txt"
      { TaskId := 2, TaskStatus := Finished } (by decide),
    (C16_task_ids ["a.txt", "b.txt", "c.txt"] 2 fullJob
      (exec (MakeSys ["a.txt", "b.txt", "c.txt"] 2) fullJob) (by decide)).2.2.1 (by decide)⟩

/-- C16 as stated fails for a list with a repeated name: the Map table of
`MakeMaster ["a.txt", "a.txt"] 1` has one record, and its `TaskId` is 1, which
is not in `[0, 1)`. -/
theorem C16_counterexample :
    (MakeMaster ["a.txt", "a.txt"] 1).MapTaskStatus.entries
        = [("a.txt", { TaskId := 1, TaskStatus := UnStarted })]
      ∧ (MakeMaster ["a.txt", "a.txt"] 1).MapTaskStatus.len = 1
      ∧ ¬ (∀ f d, (MakeMaster ["a.txt", "a.txt"] 1).MapTaskStatus.get f = some d →
          0 ≤ d.TaskId
          ∧ d.TaskId < ((MakeMaster ["a.txt", "a.txt"] 1).MapTaskStatus.len : Int)) := by
  refine ⟨by decide, by decide, ?_⟩
  intro h
  have := (h "a.txt" { TaskId := 1, TaskStatus := UnStarted } (by decide)).2
  exact absurd this (by decide)

/-! ## C17: the Reduce table built from `nReduce` -/

/-- C17: `InitReduceTaskStatus nReduce` depends on `nReduce` only (the Reduce
table of `MakeMaster files nReduce` is the same for all `files`); for
`nReduce >= 0` it has exactly `nReduce` records; its keys are exactly the
names `GetReduceFileName i`, that is `"mr-out-"` followed by the decimal
rendering of `i`, for `0 <= i < nReduce`; these names are pairwise distinct;
the record under `GetReduceFileName i` has `TaskId = i` and status
`UnStarted`; and for `nReduce <= 0` the table is empty. -/
theorem C17_InitReduceTaskStatus (nReduce : Int) :
    (∀ files : List String,
        (MakeMaster files nReduce).ReduceTaskStatus = InitReduceTaskStatus nReduce)
      ∧ (0 ≤ nReduce → ((InitReduceTaskStatus nReduce).len : Int) = nReduce)
      ∧ (∀ f, f ∈ (InitReduceTaskStatus nReduce).keys
          ↔ ∃ i : Nat, (i : Int) < nReduce ∧ GetReduceFileName (i : Int) = f)
      ∧ (∀ i : Nat, GetReduceFileName (i : Int) = "mr-out-" ++ Nat.repr i)
      ∧ (∀ i j : Nat, GetReduceFileName (i : Int) = GetReduceFileName (j : Int) → i = j)
      ∧ (∀ i : Nat, (i : Int) < nReduce →
          (InitReduceTaskStatus nReduce).get (GetReduceFileName (i : Int))
            = some { TaskId := (i : Int), TaskStatus := UnStarted })
      ∧ (nReduce ≤ 0 → (InitReduceTaskStatus nReduce).entries = []) := by
  have hent := entries_InitReduceTaskStatus nReduce
  refine ⟨fun files => rfl, ?_, mem_keys_InitReduceTaskStatus nReduce, fun i => rfl,
    fun i j h => GetReduceFileName_injective h, ?_, ?_⟩
  · intro h0
    unfold TaskStatusMap.len
    rw [hent, List.length_map, List.length_range]
    exact Int.toNat_of_nonneg h0
  · intro i hi
    rw [TaskStatusMap.get_eq_some_iff, hent]
    exact List.mem_map.mpr ⟨i, List.mem_range.mpr (by omega), rfl⟩
  · intro h0
    rw [hent]
    have : nReduce.toNat = 0 := by omega
    rw [this]
    rfl

/-- C17 for `nReduce = 2`, `nReduce = 12` (names with two digits) and
`nReduce = -3`. -/
theorem C17_InitReduceTaskStatus_witness :
    (0 : Int) ≤ 2 ∧ ((InitReduceTaskStatus 2).len : Int) = 2
      ∧ (InitReduceTaskStatus 2).keys = ["mr-out-0", "mr-out-1"]
      ∧ (11 : Int) < 12
      ∧ (InitReduceTaskStatus 12).get "mr-out-11"
          = some { TaskId := 11, TaskStatus := UnStarted }
      ∧ (-3 : Int) ≤ 0 ∧ (InitReduceTaskStatus (-3)).entries = [] :=
  ⟨by decide, (C17_InitReduceTaskStatus 2).2.1 (by decide), by decide, by decide,
    (C17_InitReduceTaskStatus 12).2.2.2.2.2.1 11 (by decide), by decide,
    (C17_InitReduceTaskStatus (-3)).2.2.2.2.2.2 (by decide)⟩

/-! ## C14: the job of two files, from start to end -/

theorem mem_unstarted (m : Master) (ty : Int) (f : String) :
    f ∈ m.unstarted ty ↔ m.statusOf ty f = some UnStarted := by
  unfold Master.unstarted
  rw [List.mem_filter, decide_eq_true_eq]
  constructor
  · exact fun h => h.2
  · intro h
    refine ⟨?_, h⟩
    by_cases h1 : ty = MapTask
    · rw [if_pos h1]
      subst h1
      rw [← statusOf_Map_ne_none_iff, h]
      simp
    · by_cases h2 : ty = ReduceTask
      · rw [if_neg h1, if_pos h2]
        subst h2
        rw [← statusOf_Reduce_ne_none_iff, h]
        simp
      · simp [Master.statusOf, Master.record, h1, h2] at h

/-- What `GetUnStartedTask` does in the phase `ty`, in terms of the list of
`UnStarted` records of the active table, for every visiting order. -/
theorem GetUnStartedTask_spec (m : Master) (ord : List String) (ty : Int)
    (hty : ty = MapTask ∨ ty = ReduceTask) (hph : m.TaskStatus = ty) :
    (m.unstarted ty = [] →
        (GetUnStartedTask m ord).ok = false ∧ (GetUnStartedTask m ord).master = m
        ∧ (GetUnStartedTask m ord).taskType = ty)
      ∧ (m.unstarted ty ≠ [] →
        (GetUnStartedTask m ord).ok = true ∧ (GetUnStartedTask m ord).taskType = ty
        ∧ (GetUnStartedTask m ord).file ∈ m.unstarted ty
        ∧ (GetUnStartedTask m ord).master
            = m.setStatus ty (GetUnStartedTask m ord).file Processing
        ∧ m.record ty (GetUnStartedTask m ord).file
            = some { TaskId := (GetUnStartedTask m ord).taskId, TaskStatus := UnStarted }) := by
  have htype : (GetUnStartedTask m ord).taskType = ty := by
    rw [GetUnStartedTask_taskType]
    rcases hty with h | h
    · rw [if_pos (hph.trans h), h]
    · have hne : ¬ m.TaskStatus = MapTask := by rw [hph, h]; decide
      rw [if_neg hne, if_pos (hph.trans h), h]
  constructor
  · intro hnil
    have hno : (GetUnStartedTask m ord).ok = false := by
      cases hok : (GetUnStartedTask m ord).ok with
      | false => rfl
      | true =>
        exfalso
        have hun := statusOf_of_GetUnStartedTask_ok hok
        rw [htype, ← mem_unstarted, hnil] at hun
        simp at hun
    exact ⟨hno, (GetUnStartedTask_not_ok hno).1, htype⟩
  · intro hne
    obtain ⟨f, hf⟩ := List.exists_mem_of_ne_nil _ hne
    have hok := GetUnStartedTask_ok_of_unstarted ord hty hph ((mem_unstarted m ty f).mp hf)
    obtain ⟨hm, _, _, hrec, _⟩ := GetUnStartedTask_ok hok
    rw [htype] at hm hrec
    refine ⟨hok, htype, ?_, hm, hrec⟩
    rw [mem_unstarted]
    simp [Master.statusOf, hrec]

/-- Two requests in a row in a state of phase `ty` whose `UnStarted` records
are exactly `x` and `y`: both are handed out, each once, in one of the two
orders, and the state after both requests does not depend on the order. -/
theorem two_requests (m : Master) (ty : Int) (x y : String) (o1 o2 : List String)
    (hty : ty = MapTask ∨ ty = ReduceTask) (hph : m.TaskStatus = ty)
    (hxy : m.unstarted ty = [x, y])
    (hx : (m.setStatus ty x Processing).unstarted ty = [y])
    (hy : (m.setStatus ty y Processing).unstarted ty = [x])
    (hcomm : (m.setStatus ty y Processing).setStatus ty x Processing
      = (m.setStatus ty x Processing).setStatus ty y Processing) :
    (GetUnStartedTask m o1).ok = true ∧ (GetUnStartedTask m o1).taskType = ty
      ∧ (GetUnStartedTask (GetUnStartedTask m o1).master o2).ok = true
      ∧ (GetUnStartedTask (GetUnStartedTask m o1).master o2).taskType = ty
      ∧ (((GetUnStartedTask m o1).file = x
            ∧ (GetUnStartedTask (GetUnStartedTask m o1).master o2).file = y)
          ∨ ((GetUnStartedTask m o1).file = y
            ∧ (GetUnStartedTask (GetUnStartedTask m o1).master o2).file = x))
      ∧ m.record ty (GetUnStartedTask m o1).file
          = some { TaskId := (GetUnStartedTask m o1).taskId, TaskStatus := UnStarted }
      ∧ m.record ty (GetUnStartedTask (GetUnStartedTask m o1).master o2).file
          = some { TaskId := (GetUnStartedTask (GetUnStartedTask m o1).master o2).taskId,
                   TaskStatus := UnStarted }
      ∧ (GetUnStartedTask (GetUnStartedTask m o1).master o2).master
          = (m.setStatus ty x Processing).setStatus ty y Processing := by
  have hne : m.unstarted ty ≠ [] := by rw [hxy]; simp
  obtain ⟨ok1, ty1, mem1, ms1, rec1⟩ := (GetUnStartedTask_spec m o1 ty hty hph).2 hne
  rw [hxy] at mem1
  have second : ∀ (a b : String), (GetUnStartedTask m o1).file = a →
      (m.setStatus ty a Processing).unstarted ty = [b] →
      (GetUnStartedTask (GetUnStartedTask m o1).master o2).ok = true
        ∧ (GetUnStartedTask (GetUnStartedTask m o1).master o2).taskType = ty
        ∧ (GetUnStartedTask (GetUnStartedTask m o1).master o2).file = b
        ∧ m.record ty (GetUnStartedTask (GetUnStartedTask m o1).master o2).file
            = some { TaskId := (GetUnStartedTask (GetUnStartedTask m o1).master o2).taskId,
                     TaskStatus := UnStarted }
        ∧ (GetUnStartedTask (GetUnStartedTask m o1).master o2).master
            = (m.setStatus ty a Processing).setStatus ty b Processing := by
    intro a b ha hb
    rw [ha] at ms1
    rw [ms1]
    have hne2 : (m.setStatus ty a Processing).unstarted ty ≠ [] := by rw [hb]; simp
    obtain ⟨ok2, ty2, mem2, ms2, rec2⟩ :=
      (GetUnStartedTask_spec (m.setStatus ty a Processing) o2 ty hty
        ((phase_setStatus _ _ _ _).trans hph)).2 hne2
    rw [hb, List.mem_singleton] at mem2
    refine ⟨ok2, ty2, mem2, ?_, by rw [ms2, mem2]⟩
    rw [record_setStatus] at rec2
    split at rec2
    · rename_i hc
      -- the second task is not the first one: the first one is no longer UnStarted
      exfalso
      rw [mem2] at hc
      have hmem : b ∈ (m.setStatus ty a Processing).unstarted ty := by rw [hb]; simp
      rw [mem_unstarted, statusOf_setStatus, if_pos ⟨rfl, hc.2⟩] at hmem
      cases hs : m.statusOf ty a with
      | none => rw [hs] at hmem; simp at hmem
      | some v => rw [hs] at hmem; simp at hmem
    · exact rec2
  rcases List.mem_cons.mp mem1 with h1 | h1
  · obtain ⟨ok2, ty2, f2, rec2, ms2⟩ := second x y h1 hx
    exact ⟨ok1, ty1, ok2, ty2, Or.inl ⟨h1, f2⟩, rec1, rec2, ms2⟩
  · rw [List.mem_singleton] at h1
    obtain ⟨ok2, ty2, f2, rec2, ms2⟩ := second y x h1 hy
    exact ⟨ok1, ty1, ok2, ty2, Or.inr ⟨h1, f2⟩, rec1, rec2, ms2.trans hcomm⟩

/-- C14: the job `MakeMaster ["a.txt", "b.txt"] 2`, for all visiting orders and
without watchdog firing.  The first two requests hand out `a.txt` and `b.txt`
as Map tasks, each once, and lead to one state `mOut` whatever the orders; in
`mOut`, and after one of the two Map tasks has been reported, every request
returns `ok = false` and changes nothing; after both Map tasks have been
reported, in either order, each report followed by `CheckMasterStatus`, the
state is `mRed` and its phase is Reducing; the next two requests hand out the
Reduce tasks with ids 0 and 1, each once, and lead to one state `mRedOut`;
after both Reduce tasks have been reported, in either order, the state is
`mDone`, `Done` is true, and every later request returns `ok = false` with task
type `Free`. -/
theorem C14_end_to_end :
    ∃ mOut mRed mRedOut mDone : Master,
      (∀ o1 o2 : List String,
        (GetUnStartedTask (MakeMaster ["a.txt", "b.txt"] 2) o1).ok = true
        ∧ (GetUnStartedTask (MakeMaster ["a.txt", "b.txt"] 2) o1).taskType = MapTask
        ∧ (GetUnStartedTask
            (GetUnStartedTask (MakeMaster ["a.txt", "b.txt"] 2) o1).master o2).ok = true
        ∧ (GetUnStartedTask
            (GetUnStartedTask (MakeMaster ["a.txt", "b.txt"] 2) o1).master o2).taskType
            = MapTask
        ∧ (((GetUnStartedTask (MakeMaster ["a.txt", "b.txt"] 2) o1).file = "a.txt"
              ∧ (GetUnStartedTask
                  (GetUnStartedTask (MakeMaster ["a.txt", "b.txt"] 2) o1).master o2).file
                  = "b.txt")
            ∨ ((GetUnStartedTask (MakeMaster ["a.txt", "b.txt"] 2) o1).file = "b.txt"
              ∧ (GetUnStartedTask
                  (GetUnStartedTask (MakeMaster ["a.txt", "b.txt"] 2) o1).master o2).file
                  = "a.txt"))
        ∧ (GetUnStartedTask
            (GetUnStartedTask (MakeMaster ["a.txt", "b.txt"] 2) o1).master o2).master = mOut)
      ∧ (∀ o, (GetUnStartedTask mOut o).ok = false ∧ (GetUnStartedTask mOut o).master = mOut)
      ∧ (∃ ma, reportAndCheck mOut { TaskType := MapTask, File := "a.txt" }
            = .ok (ma, { Ok := true })
          ∧ (∀ o, (GetUnStartedTask ma o).ok = false ∧ (GetUnStartedTask ma o).master = ma)
          ∧ reportAndCheck ma { TaskType := MapTask, File := "b.txt" }
            = .ok (mRed, { Ok := true }))
      ∧ (∃ mb, reportAndCheck mOut { TaskType := MapTask, File := "b.txt" }
            = .ok (mb, { Ok := true })
          ∧ (∀ o, (GetUnStartedTask mb o).ok = false ∧ (GetUnStartedTask mb o).master = mb)
          ∧ reportAndCheck mb { TaskType := MapTask, File := "a.txt" }
            = .ok (mRed, { Ok := true }))
      ∧ mRed.TaskStatus = ReduceTask
      ∧ (∀ o3 o4 : List String,
        (GetUnStartedTask mRed o3).ok = true
        ∧ (GetUnStartedTask mRed o3).taskType = ReduceTask
        ∧ (GetUnStartedTask (GetUnStartedTask mRed o3).master o4).ok = true
        ∧ (GetUnStartedTask (GetUnStartedTask mRed o3).master o4).taskType = ReduceTask
        ∧ (((GetUnStartedTask mRed o3).file = "mr-out-0"
              ∧ (GetUnStartedTask mRed o3).taskId = 0
              ∧ (GetUnStartedTask (GetUnStartedTask mRed o3).master o4).file = "mr-out-1"
              ∧ (GetUnStartedTask (GetUnStartedTask mRed o3).master o4).taskId = 1)
            ∨ ((GetUnStartedTask mRed o3).file = "mr-out-1"
              ∧ (GetUnStartedTask mRed o3).taskId = 1
              ∧ (GetUnStartedTask (GetUnStartedTask mRed o3).master o4).file = "mr-out-0"
              ∧ (GetUnStartedTask (GetUnStartedTask mRed o3).master o4).taskId = 0))
        ∧ (GetUnStartedTask (GetUnStartedTask mRed o3).master o4).master = mRedOut)
      ∧ Done mRedOut = false
      ∧ (∃ m, reportAndCheck mRedOut { TaskType := ReduceTask, File := "mr-out-0" }
            = .ok (m, { Ok := true })
          ∧ Done m = false
          ∧ reportAndCheck m { TaskType := ReduceTask, File := "mr-out-1" }
            = .ok (mDone, { Ok := true }))
      ∧ (∃ m, reportAndCheck mRedOut { TaskType := ReduceTask, File := "mr-out-1" }
            = .ok (m, { Ok := true })
          ∧ Done m = false
          ∧ reportAndCheck m { TaskType := ReduceTask, File := "mr-out-0" }
            = .ok (mDone, { Ok := true }))
      ∧ Done mDone = true
      ∧ (∀ o, (GetUnStartedTask mDone o).ok = false
          ∧ (GetUnStartedTask mDone o).taskType = Free
          ∧ (GetUnStartedTask mDone o).master = mDone) := by
  -- the states of the scenario
  let m0 : Master := MakeMaster ["a.txt", "b.txt"] 2
  let mOut : Master :=
    (m0.setStatus MapTask "a.txt" Processing).setStatus MapTask "b.txt" Processing
  let ma : Master := mOut.setStatus MapTask "a.txt" Finished
  let mb : Master := mOut.setStatus MapTask "b.txt" Finished
  let mRed : Master := CheckMasterStatus (ma.setStatus MapTask "b.txt" Finished)
  let mRedOut : Master :=
    (mRed.setStatus ReduceTask "mr-out-0" Processing).setStatus ReduceTask "mr-out-1" Processing
  let mr0 : Master := mRedOut.setStatus ReduceTask "mr-out-0" Finished
  let mr1 : Master := mRedOut.setStatus ReduceTask "mr-out-1" Finished
  let mDone : Master := CheckMasterStatus (mr0.setStatus ReduceTask "mr-out-1" Finished)
  have stuck : ∀ (m : Master), m.TaskStatus = MapTask → m.unstarted MapTask = [] →
      ∀ o, (GetUnStartedTask m o).ok = false ∧ (GetUnStartedTask m o).master = m := by
    intro m hph hnil o
    obtain ⟨h1, h2, _⟩ := (GetUnStartedTask_spec m o MapTask (Or.inl rfl) hph).1 hnil
    exact ⟨h1, h2⟩
  refine ⟨mOut, mRed, mRedOut, mDone, ?_, stuck mOut (by decide) (by decide),
    ⟨ma, by decide, stuck ma (by decide) (by decide), by decide⟩,
    ⟨mb, by decide, stuck mb (by decide) (by decide), by decide⟩,
    by decide, ?_, by decide, ⟨mr0, by decide, by decide, by decide⟩,
    ⟨mr1, by decide, by decide, by decide⟩, by decide, ?_⟩
  · intro o1 o2
    obtain ⟨h1, h2, h3, h4, h5, _, _, h8⟩ :=
      two_requests m0 MapTask "a.txt" "b.txt" o1 o2 (Or.inl rfl) (by decide) (by decide)
        (by decide) (by decide) (by decide)
    exact ⟨h1, h2, h3, h4, h5, h8⟩
  · intro o3 o4
    obtain ⟨h1, h2, h3, h4, h5, h6, h7, h8⟩ :=
      two_requests mRed ReduceTask "mr-out-0" "mr-out-1" o3 o4 (Or.inr rfl) (by decide)
        (by decide) (by decide) (by decide) (by decide)
    have id0 : mRed.record ReduceTask "mr-out-0"
        = some { TaskId := 0, TaskStatus := UnStarted } := by decide
    have id1 : mRed.record ReduceTask "mr-out-1"
        = some { TaskId := 1, TaskStatus := UnStarted } := by decide
    refine ⟨h1, h2, h3, h4, ?_, h8⟩
    rcases h5 with ⟨f3, f4⟩ | ⟨f3, f4⟩
    · left
      rw [f3, id0] at h6
      rw [f4, id1] at h7
      simp only [Option.some.injEq, TaskDetail.mk.injEq, and_true] at h6 h7
      exact ⟨f3, h6.symm, f4, h7.symm⟩
    · right
      rw [f3, id1] at h6
      rw [f4, id0] at h7
      simp only [Option.some.injEq, TaskDetail.mk.injEq, and_true] at h6 h7
      exact ⟨f3, h6.symm, f4, h7.symm⟩
  · intro o
    have hfree : mDone.TaskStatus = Free := by decide
    have h1 : ¬ mDone.TaskStatus = MapTask := by rw [hfree]; decide
    have h2 : ¬ mDone.TaskStatus = ReduceTask := by rw [hfree]; decide
    unfold GetUnStartedTask
    rw [if_neg h1, if_neg h2]
    exact ⟨rfl, rfl, rfl⟩

/-! ## C18: what no operation touches -/

/-- C18: for every state and every operation that completes
(`GetUnStartedTask`, `ReplyTaskToWorker`, `ReportFinishedTask`,
`CheckMasterStatus`, `TimeOutDetection`; `Done` only reads), and hence for
every step and every execution of the system, the keys of the Map table, the
keys of the Reduce table, the `TaskId` under every key, `MapTaskNum` and
`ReduceTaskNum` are the same after the operation as before it (`SameFrame`);
the number of records of each table is the same too. -/
theorem C18_frame (m : Master) :
    (∀ ord, SameFrame m (GetUnStartedTask m ord).master)
      ∧ (∀ ord, SameFrame m (ReplyTaskToWorker m ord).1)
      ∧ (∀ (a : TaskFinishedArgs) (m' : Master) (reply : TaskFinishedReply)
          (started : List Goroutine),
          ReportFinishedTask m a = .ok (m', reply, started) → SameFrame m m')
      ∧ SameFrame m (CheckMasterStatus m)
      ∧ (∀ (f : String) (ty : Int) (m' : Master),
          TimeOutDetection m f ty = .ok m' → SameFrame m m')
      ∧ (∀ (armed handed : List (String × Int)) (ops : List Op) (s' : Sys),
          run { master := m, armed := armed, handed := handed } ops = .ok s' →
          SameFrame m s'.master)
      ∧ (∀ m' : Master, SameFrame m m' →
          m'.MapTaskStatus.len = m.MapTaskStatus.len
          ∧ m'.ReduceTaskStatus.len = m.ReduceTaskStatus.len) := by
  refine ⟨SameFrame_GetUnStartedTask m, fun ord => SameFrame_GetUnStartedTask m ord,
    fun a m' reply started h => SameFrame_ReportFinishedTask h,
    SameFrame_CheckMasterStatus m, fun f ty m' h => SameFrame_TimeOutDetection h,
    fun armed handed ops s' h => SameFrame_run h, ?_⟩
  intro m' hf
  have h1 := congrArg List.length hf.1
  have h2 := congrArg List.length hf.2.1
  simp only [TaskStatusMap.keys, List.length_map] at h1 h2
  exact ⟨h1, h2⟩

/-- C18 on the complete run of the 3-file, 2-reduce job: keys, task ids and
the two numbers at the end are those of `MakeMaster`. -/
theorem C18_frame_witness :
    run { master := MakeMaster ["a.txt", "b.txt", "c.txt"] 2, armed := [], handed := [] } fullJob
        = .ok (exec (MakeSys ["a.txt", "b.txt", "c.txt"] 2) fullJob)
      ∧ SameFrame (MakeMaster ["a.txt", "b.txt", "c.txt"] 2)
          (exec (MakeSys ["a.txt", "b.txt", "c.txt"] 2) fullJob).master
      ∧ (exec (MakeSys ["a.txt", "b.txt", "c.txt"] 2) fullJob).master.MapTaskStatus.keys
          = ["a.txt", "b.txt", "c.txt"] :=
  ⟨by decide,
    (C18_frame (MakeMaster ["a.txt", "b.txt", "c.txt"] 2)).2.2.2.2.2.1 [] [] fullJob _
      (by decide),
    by decide⟩

/-! ## C19: lock regions -/

/-- C19 (what the code does): `GetUnStartedTask`, `ReportFinishedTask` and
`TimeOutDetection` make all their accesses inside one `Lock` ... `Unlock`
region, and `IsPhaseFinished` makes its reads inside one `RLock` ... `RUnlock`
region; `CheckMasterStatus` does not (it reads the phase without lock, reads
the table under a read lock that it releases, and only then takes the write
lock), and `Done` reads the phase without any lock.  In the job
`MakeMaster ["a.txt"] 1` this loses an update.  A report of `a.txt` starts a
`CheckMasterStatus` that decides to write `ReduceTask`.  Before it takes the
write lock, a second report of `a.txt` (with its own `CheckMasterStatus`), the
assignment of `mr-out-0` and the report of `mr-out-0` take place: the phase is
`Free` and `Done` is true.  Then the first `CheckMasterStatus` writes: the
phase is `ReduceTask` again and `Done` is false, with every task `Finished`. -/
theorem C19_CheckMasterStatus_not_atomic :
    lockedAcross Routine.GetUnStartedTask.accesses = true
      ∧ lockedAcross Routine.ReportFinishedTask.accesses = true
      ∧ lockedAcross Routine.TimeOutDetection.accesses = true
      ∧ lockedAcross Routine.IsPhaseFinished.accesses = true
      ∧ lockedAcross Routine.CheckMasterStatus.accesses = false
      ∧ lockedAcross Routine.Done.accesses = false
      ∧ ReportFinishedTask (MakeMaster ["a.txt"] 1) { TaskType := MapTask, File := "a.txt" }
        = .ok ((MakeMaster ["a.txt"] 1).setStatus MapTask "a.txt" Finished, { Ok := true },
            [Goroutine.CheckMasterStatus])
      ∧ CheckMasterStatus_decide ((MakeMaster ["a.txt"] 1).setStatus MapTask "a.txt" Finished)
        = some ReduceTask
      ∧ run { master := (MakeMaster ["a.txt"] 1).setStatus MapTask "a.txt" Finished
              armed := [], handed := [] }
          [Op.ReportFinishedTask MapTask "a.txt", Op.GetUnStartedTask [],
           Op.ReportFinishedTask ReduceTask "mr-out-0"]
        = .ok (exec { master := (MakeMaster ["a.txt"] 1).setStatus MapTask "a.txt" Finished
                      armed := [], handed := [] }
          [Op.ReportFinishedTask MapTask "a.txt", Op.GetUnStartedTask [],
           Op.ReportFinishedTask ReduceTask "mr-out-0"])
      ∧ Done (exec { master := (MakeMaster ["a.txt"] 1).setStatus MapTask "a.txt" Finished
                     armed := [], handed := [] }
          [Op.ReportFinishedTask MapTask "a.txt", Op.GetUnStartedTask [],
           Op.ReportFinishedTask ReduceTask "mr-out-0"]).master = true
      ∧ Done (CheckMasterStatus_commit
          (exec { master := (MakeMaster ["a.txt"] 1).setStatus MapTask "a.txt" Finished
                  armed := [], handed := [] }
            [Op.ReportFinishedTask MapTask "a.txt", Op.GetUnStartedTask [],
             Op.ReportFinishedTask ReduceTask "mr-out-0"]).master ReduceTask) = false
      ∧ (CheckMasterStatus_commit
          (exec { master := (MakeMaster ["a.txt"] 1).setStatus MapTask "a.txt" Finished
                  armed := [], handed := [] }
            [Op.ReportFinishedTask MapTask "a.txt", Op.GetUnStartedTask [],
             Op.ReportFinishedTask ReduceTask "mr-out-0"]).master ReduceTask).TaskStatus
          = ReduceTask
      ∧ IsPhaseFinished (CheckMasterStatus_commit
          (exec { master := (MakeMaster ["a.txt"] 1).setStatus MapTask "a.txt" Finished
                  armed := [], handed := [] }
            [Op.ReportFinishedTask MapTask "a.txt", Op.GetUnStartedTask [],
             Op.ReportFinishedTask ReduceTask "mr-out-0"]).master ReduceTask) MapTask = true
      ∧ IsPhaseFinished (CheckMasterStatus_commit
          (exec { master := (MakeMaster ["a.txt"] 1).setStatus MapTask "a.txt" Finished
                  armed := [], handed := [] }
            [Op.ReportFinishedTask MapTask "a.txt", Op.GetUnStartedTask [],
             Op.ReportFinishedTask ReduceTask "mr-out-0"]).master ReduceTask) ReduceTask
          = true := by
  decide

/-! ## C20: a report of an unknown task type -/

/-- C20: for every state, every file (key of a table or not) and every task
type other than `MapTask` and `ReduceTask`, `ReportFinishedTask` ends without
fault, answers `Ok = false`, starts no `CheckMasterStatus`, and returns the
coordinator as it was; the report followed by the goroutines it started, and
the step of the system, change nothing either. -/
theorem C20_unknown_task_type (m : Master) (a : TaskFinishedArgs)
    (h1 : a.TaskType ≠ MapTask) (h2 : a.TaskType ≠ ReduceTask) :
    ReportFinishedTask m a = .ok (m, { Ok := false }, [])
      ∧ reportAndCheck m a = .ok (m, { Ok := false })
      ∧ ∀ (armed handed : List (String × Int)),
          step { master := m, armed := armed, handed := handed }
              (Op.ReportFinishedTask a.TaskType a.File)
            = .ok { master := m, armed := armed, handed := handed } := by
  have hr := ReportFinishedTask_other (m := m) (a := a) h1 h2
  have hrc : reportAndCheck m a = .ok (m, { Ok := false }) := by
    unfold reportAndCheck
    rw [hr]
    simp
  refine ⟨hr, hrc, ?_⟩
  intro armed handed
  simp only [step, hrc]

/-- C20 for a report of type `Free` and for a report of type 7, with a file
that is a key and a file that is not. -/
theorem C20_unknown_task_type_witness :
    (Free : Int) ≠ MapTask ∧ (Free : Int) ≠ ReduceTask
      ∧ (7 : Int) ≠ MapTask ∧ (7 : Int) ≠ ReduceTask
      ∧ ReportFinishedTask (MakeMaster ["a.txt"] 1) { TaskType := Free, File := "a.txt" }
          = .ok (MakeMaster ["a.txt"] 1, { Ok := false }, [])
      ∧ ReportFinishedTask (MakeMaster ["a.txt"] 1) { TaskType := 7, File := "zzz" }
          = .ok (MakeMaster ["a.txt"] 1, { Ok := false }, []) :=
  ⟨by decide, by decide, by decide, by decide,
    (C20_unknown_task_type (MakeMaster ["a.txt"] 1) { TaskType := Free, File := "a.txt" }
      (by decide) (by decide)).1,
    (C20_unknown_task_type (MakeMaster ["a.txt"] 1) { TaskType := 7, File := "zzz" }
      (by decide) (by decide)).1⟩

/-! ## Invariants of the program, with `CheckMasterStatus` running late -/

/-- A status write that does not overwrite a `Finished` record keeps every
complete table complete. -/
theorem allDone_setStatus {m : Master} {ty : Int} {f : String} {st : Int}
    (h : m.statusOf ty f ≠ some Finished ∨ st = Finished) (ty' : Int)
    (hd : m.allDone ty') : (m.setStatus ty f st).allDone ty' := by
  apply allDone_mono _ (fun f' => statusOf_setStatus_eq_none m ty ty' f f' st) hd
  intro f' hf
  rw [statusOf_setStatus]
  split
  · rename_i hc
    obtain ⟨rfl, rfl⟩ := hc
    rcases h with h | h
    · exact absurd hf h
    · rw [hf, h]
      rfl
  · exact hf

theorem allDone_GetUnStartedTask (m : Master) (ord : List String) (ty' : Int)
    (hd : m.allDone ty') : (GetUnStartedTask m ord).master.allDone ty' := by
  cases hok : (GetUnStartedTask m ord).ok with
  | true =>
    have hun := statusOf_of_GetUnStartedTask_ok hok
    rw [(GetUnStartedTask_ok hok).1]
    exact allDone_setStatus (Or.inl (by rw [hun]; decide)) ty' hd
  | false =>
    rw [(GetUnStartedTask_not_ok hok).1]
    exact hd

theorem allDone_ReportFinishedTask {m m' : Master} {a : TaskFinishedArgs}
    {reply : TaskFinishedReply} {started : List Goroutine}
    (h : ReportFinishedTask m a = .ok (m', reply, started)) (ty' : Int)
    (hd : m.allDone ty') : m'.allDone ty' := by
  by_cases hty : a.TaskType = MapTask ∨ a.TaskType = ReduceTask
  · cases hr : m.record a.TaskType a.File with
    | none =>
      rw [ReportFinishedTask_absent hty hr] at h
      simp at h
    | some d =>
      rw [ReportFinishedTask_present hr] at h
      simp only [Except.ok.injEq, Prod.mk.injEq] at h
      rw [← h.1]
      exact allDone_setStatus (Or.inr rfl) ty' hd
  · rw [not_or] at hty
    rw [ReportFinishedTask_other hty.1 hty.2] at h
    simp only [Except.ok.injEq, Prod.mk.injEq] at h
    rw [← h.1]
    exact hd

theorem allDone_TimeOutDetection {m m' : Master} {f : String} {ty : Int}
    (h : TimeOutDetection m f ty = .ok m') (ty' : Int) (hd : m.allDone ty') :
    m'.allDone ty' := by
  by_cases hty : ty = MapTask ∨ ty = ReduceTask
  · cases hr : m.record ty f with
    | none =>
      rw [TimeOutDetection_absent hty hr] at h
      simp at h
    | some d =>
      rw [TimeOutDetection_present hr] at h
      simp only [Except.ok.injEq] at h
      rw [← h]
      split
      · rename_i hp
        apply allDone_setStatus (Or.inl _) ty' hd
        simp [Master.statusOf, hr, hp]
      · exact hd
  · rw [not_or] at hty
    rw [TimeOutDetection_other hty.1 hty.2] at h
    simp only [Except.ok.injEq] at h
    rw [← h]
    exact hd

/-- No access of `CheckMasterStatus` touches a record. -/
theorem statusOf_CheckMasterStatus_at (m : Master) (pt : CheckPoint) (ty : Int)
    (f : String) : (CheckMasterStatus_at m pt).1.statusOf ty f = m.statusOf ty f := by
  cases pt <;> rfl

theorem allDone_CheckMasterStatus_at (m : Master) (pt : CheckPoint) (ty : Int) :
    (CheckMasterStatus_at m pt).1.allDone ty ↔ m.allDone ty := by
  cases pt <;> exact Iff.rfl

/-- A step other than an access of `CheckMasterStatus` keeps the phase and keeps
complete tables complete, and so keeps the invariant `CheckInv` whatever
goroutines it adds at the entry of `CheckMasterStatus`. -/
theorem CheckInv_keep {s : FineSys} (hinv : CheckInv s) (m' : Master)
    (armed : List (String × Int)) (n : Nat) (hph : m'.TaskStatus = s.master.TaskStatus)
    (hmono : ∀ ty, s.master.allDone ty → m'.allDone ty) :
    CheckInv { master := m', armed := armed
               checks := s.checks ++ List.replicate n CheckPoint.entry } := by
  obtain ⟨hr, hf, h1, h2, h3⟩ := hinv
  have hmem : ∀ pt : CheckPoint, pt ≠ CheckPoint.entry →
      pt ∈ s.checks ++ List.replicate n CheckPoint.entry → pt ∈ s.checks := by
    intro pt hne hpt
    rcases List.mem_append.mp hpt with h | h
    · exact h
    · exact absurd (List.eq_of_mem_replicate h) hne
  refine ⟨?_, ?_, ?_, ?_, ?_⟩
  · intro q
    exact hmono _ (hr (hph ▸ q))
  · intro q
    exact ⟨hmono _ (hf (hph ▸ q)).1, hmono _ (hf (hph ▸ q)).2⟩
  · intro q
    exact hmono _ (h1 (hmem _ (by decide) q))
  · intro q
    exact hmono _ (h2 (hmem _ (by decide) q))
  · intro q
    exact ⟨hmono _ (h3 (hmem _ (by decide) q)).1, hmono _ (h3 (hmem _ (by decide) q)).2⟩

/-- Every step of the program keeps `CheckInv`: the phase, and every phase that
a `CheckMasterStatus` goroutine is about to write, is backed by complete
tables. -/
theorem fineStep_progress {s s' : FineSys} {op : FineOp} (h : fineStep s op = .ok s')
    (hinv : CheckInv s) : CheckInv s' := by
  cases op with
  | GetUnStartedTask ord =>
    simp only [fineStep, Except.ok.injEq] at h
    subst h
    have := CheckInv_keep hinv (GetUnStartedTask s.master ord).master
      (s.armed ++ watchdogs (GetUnStartedTask s.master ord).started) 0
      (phase_GetUnStartedTask _ _) (fun ty => allDone_GetUnStartedTask _ _ ty)
    simpa using this
  | ReportFinishedTask ty f =>
    simp only [fineStep] at h
    cases hrep : ReportFinishedTask s.master { TaskType := ty, File := f } with
    | error e =>
      rw [hrep] at h
      simp at h
    | ok r =>
      obtain ⟨m', reply, started⟩ := r
      rw [hrep] at h
      simp only [Except.ok.injEq] at h
      subst h
      exact CheckInv_keep hinv m' s.armed (checksStarted started)
        (phase_ReportFinishedTask hrep) (fun ty' => allDone_ReportFinishedTask hrep ty')
  | CheckMasterStatus pt =>
    simp only [fineStep] at h
    by_cases hp : pt ∈ s.checks
    · rw [if_pos hp] at h
      simp only [Except.ok.injEq] at h
      subst h
      obtain ⟨hr, hf, h1, h2, h3⟩ := hinv
      -- what is known of a goroutine that stays where it is
      have hold : ∀ q : CheckPoint, q ∈ s.checks.erase pt → q ∈ s.checks :=
        fun q hq => List.mem_of_mem_erase hq
      cases pt with
      | entry =>
        refine ⟨hr, hf, ?_, ?_, ?_⟩
        · intro q
          rcases List.mem_append.mp q with q | q
          · exact h1 (hold _ q)
          · simp only [CheckMasterStatus_at, Option.toList, List.mem_singleton] at q
            split at q <;> exact absurd q (by decide)
        · intro q
          rcases List.mem_append.mp q with q | q
          · exact h2 (hold _ q)
          · simp only [CheckMasterStatus_at, Option.toList, List.mem_singleton] at q
            split at q <;> exact absurd q (by decide)
        · intro q
          rcases List.mem_append.mp q with q | q
          · exact h3 (hold _ q)
          · simp only [CheckMasterStatus_at, Option.toList, List.mem_singleton] at q
            split at q <;> exact absurd q (by decide)
      | elseIf =>
        refine ⟨hr, hf, ?_, ?_, ?_⟩
        · intro q
          rcases List.mem_append.mp q with q | q
          · exact h1 (hold _ q)
          · by_cases hph : s.master.TaskStatus = ReduceTask
            · exact hr hph
            · simp [CheckMasterStatus_at, hph] at q
        · intro q
          rcases List.mem_append.mp q with q | q
          · exact h2 (hold _ q)
          · by_cases hph : s.master.TaskStatus = ReduceTask
            · simp [CheckMasterStatus_at, hph] at q
            · simp [CheckMasterStatus_at, hph] at q
        · intro q
          rcases List.mem_append.mp q with q | q
          · exact h3 (hold _ q)
          · by_cases hph : s.master.TaskStatus = ReduceTask
            · simp [CheckMasterStatus_at, hph] at q
            · simp [CheckMasterStatus_at, hph] at q
      | scanMap =>
        refine ⟨hr, hf, ?_, ?_, ?_⟩
        · intro q
          rcases List.mem_append.mp q with q | q
          · exact h1 (hold _ q)
          · by_cases hfin : IsPhaseFinished s.master MapTask = true
            · simp [CheckMasterStatus_at, hfin] at q
            · simp [CheckMasterStatus_at, hfin] at q
        · intro q
          rcases List.mem_append.mp q with q | q
          · exact h2 (hold _ q)
          · by_cases hfin : IsPhaseFinished s.master MapTask = true
            · exact (IsPhaseFinished_Map_iff s.master).mp hfin
            · simp [CheckMasterStatus_at, hfin] at q
        · intro q
          rcases List.mem_append.mp q with q | q
          · exact h3 (hold _ q)
          · by_cases hfin : IsPhaseFinished s.master MapTask = true
            · simp [CheckMasterStatus_at, hfin] at q
            · simp [CheckMasterStatus_at, hfin] at q
      | scanReduce =>
        refine ⟨hr, hf, ?_, ?_, ?_⟩
        · intro q
          rcases List.mem_append.mp q with q | q
          · exact h1 (hold _ q)
          · by_cases hfin : IsPhaseFinished s.master ReduceTask = true
            · simp [CheckMasterStatus_at, hfin] at q
            · simp [CheckMasterStatus_at, hfin] at q
        · intro q
          rcases List.mem_append.mp q with q | q
          · exact h2 (hold _ q)
          · by_cases hfin : IsPhaseFinished s.master ReduceTask = true
            · simp [CheckMasterStatus_at, hfin] at q
            · simp [CheckMasterStatus_at, hfin] at q
        · intro q
          rcases List.mem_append.mp q with q | q
          · exact h3 (hold _ q)
          · by_cases hfin : IsPhaseFinished s.master ReduceTask = true
            · exact ⟨h1 hp, (IsPhaseFinished_Reduce_iff s.master).mp hfin⟩
            · simp [CheckMasterStatus_at, hfin] at q
      | writeReduce =>
        have hmap : s.master.allDone MapTask := h2 hp
        have hin : ∀ q : CheckPoint, q ∈ s.checks.erase CheckPoint.writeReduce ++ [] →
            q ∈ s.checks := fun q hq => hold q (by rwa [List.append_nil] at hq)
        exact ⟨fun _ => hmap,
          fun q => absurd (show (ReduceTask : Int) = Free from q) (by decide),
          fun q => h1 (hin _ q), fun q => h2 (hin _ q), fun q => h3 (hin _ q)⟩
      | writeFree =>
        have hboth := h3 hp
        have hin : ∀ q : CheckPoint, q ∈ s.checks.erase CheckPoint.writeFree ++ [] →
            q ∈ s.checks := fun q hq => hold q (by rwa [List.append_nil] at hq)
        exact ⟨fun q => absurd (show (Free : Int) = ReduceTask from q) (by decide),
          fun _ => hboth, fun q => h1 (hin _ q), fun q => h2 (hin _ q),
          fun q => h3 (hin _ q)⟩
    · rw [if_neg hp] at h
      simp at h
  | TimeOutDetection f ty =>
    simp only [fineStep] at h
    by_cases ha : (f, ty) ∈ s.armed
    · rw [if_pos ha] at h
      cases ht : TimeOutDetection s.master f ty with
      | error e =>
        rw [ht] at h
        simp at h
      | ok m' =>
        rw [ht] at h
        simp only [Except.ok.injEq] at h
        subst h
        have := CheckInv_keep hinv m' (s.armed.erase (f, ty)) 0
          (phase_TimeOutDetection ht) (fun ty' => allDone_TimeOutDetection ht ty')
        simpa using this
    · rw [if_neg ha] at h
      simp at h
  | Done =>
    simp only [fineStep, Except.ok.injEq] at h
    subst h
    exact hinv

/-- In every state of the program reached from `MakeMaster files nReduce`,
whatever the moments at which the `CheckMasterStatus` goroutines make their
reads and their writes: if the phase is Reducing every record of the Map table
is `Finished`, and if the phase is AllDone every record of both tables is
`Finished`. -/
theorem fineRun_progress (files : List String) (nReduce : Int) (fops : List FineOp)
    (s : FineSys) (hrun : fineRun (MakeFineSys files nReduce) fops = .ok s) :
    (s.master.TaskStatus = ReduceTask → s.master.MapTaskStatus.allFinished = true)
      ∧ (s.master.TaskStatus = Free
          → s.master.MapTaskStatus.allFinished = true
            ∧ s.master.ReduceTaskStatus.allFinished = true) := by
  have key : ∀ (ops : List FineOp) (s0 s1 : FineSys), fineRun s0 ops = .ok s1 →
      CheckInv s0 → CheckInv s1 := by
    intro ops
    induction ops with
    | nil =>
      intro s0 s1 h hinv
      simp only [fineRun, Except.ok.injEq] at h
      rw [← h]
      exact hinv
    | cons op ops ih =>
      intro s0 s1 h hinv
      obtain ⟨sx, h1, h2⟩ := fineRun_cons h
      exact ih sx s1 h2 (fineStep_progress h1 hinv)
  have hinit : CheckInv (MakeFineSys files nReduce) :=
    ⟨fun p => absurd (show (MapTask : Int) = ReduceTask from p) (by decide),
      fun p => absurd (show (MapTask : Int) = Free from p) (by decide),
      fun p => absurd p (List.not_mem_nil _), fun p => absurd p (List.not_mem_nil _),
      fun p => absurd p (List.not_mem_nil _)⟩
  obtain ⟨hr, hf, _⟩ := key fops _ _ hrun hinit
  exact ⟨fun p => (allFinished_Map_iff _).mpr (hr p),
    fun p => ⟨(allFinished_Map_iff _).mpr (hf p).1, (allFinished_Reduce_iff _).mpr (hf p).2⟩⟩

/-- A status write that does not overwrite a `Finished` record keeps every
`Finished` record. -/
theorem finished_setStatus {m : Master} {ty : Int} {f : String} {st : Int}
    (h : m.statusOf ty f ≠ some Finished ∨ st = Finished) {ty' : Int} {f' : String}
    (hf : m.statusOf ty' f' = some Finished) :
    (m.setStatus ty f st).statusOf ty' f' = some Finished := by
  rw [statusOf_setStatus]
  split
  · rename_i hc
    obtain ⟨rfl, rfl⟩ := hc
    rcases h with h | h
    · exact absurd hf h
    · rw [hf, h]
      rfl
  · exact hf

/-- No step of the program takes a record out of `Finished`. -/
theorem fineStep_finished {s s' : FineSys} {op : FineOp} (h : fineStep s op = .ok s')
    {ty : Int} {f : String} (hfin : s.master.statusOf ty f = some Finished) :
    s'.master.statusOf ty f = some Finished := by
  cases op with
  | GetUnStartedTask ord =>
    simp only [fineStep, Except.ok.injEq] at h
    subst h
    show (GetUnStartedTask s.master ord).master.statusOf ty f = some Finished
    cases hok : (GetUnStartedTask s.master ord).ok with
    | true =>
      have hun := statusOf_of_GetUnStartedTask_ok hok
      rw [(GetUnStartedTask_ok hok).1]
      exact finished_setStatus (Or.inl (by rw [hun]; decide)) hfin
    | false =>
      rw [(GetUnStartedTask_not_ok hok).1]
      exact hfin
  | ReportFinishedTask ty0 f0 =>
    simp only [fineStep] at h
    cases hrep : ReportFinishedTask s.master { TaskType := ty0, File := f0 } with
    | error e =>
      rw [hrep] at h
      simp at h
    | ok r =>
      obtain ⟨m', reply, started⟩ := r
      rw [hrep] at h
      simp only [Except.ok.injEq] at h
      subst h
      show m'.statusOf ty f = some Finished
      by_cases hty : ty0 = MapTask ∨ ty0 = ReduceTask
      · cases hr : s.master.record ty0 f0 with
        | none =>
          have := ReportFinishedTask_absent (m := s.master) (a := ⟨ty0, f0⟩) hty hr
          rw [this] at hrep
          simp at hrep
        | some d =>
          have := ReportFinishedTask_present (m := s.master) (a := ⟨ty0, f0⟩) hr
          rw [this] at hrep
          simp only [Except.ok.injEq, Prod.mk.injEq] at hrep
          rw [← hrep.1]
          exact finished_setStatus (Or.inr rfl) hfin
      · rw [not_or] at hty
        have := ReportFinishedTask_other (m := s.master) (a := ⟨ty0, f0⟩) hty.1 hty.2
        rw [this] at hrep
        simp only [Except.ok.injEq, Prod.mk.injEq] at hrep
        rw [← hrep.1]
        exact hfin
  | CheckMasterStatus pt =>
    simp only [fineStep] at h
    by_cases hp : pt ∈ s.checks
    · rw [if_pos hp] at h
      simp only [Except.ok.injEq] at h
      subst h
      show (CheckMasterStatus_at s.master pt).1.statusOf ty f = some Finished
      rw [statusOf_CheckMasterStatus_at]
      exact hfin
    · rw [if_neg hp] at h
      simp at h
  | TimeOutDetection f0 ty0 =>
    simp only [fineStep] at h
    by_cases ha : (f0, ty0) ∈ s.armed
    · rw [if_pos ha] at h
      cases ht : TimeOutDetection s.master f0 ty0 with
      | error e =>
        rw [ht] at h
        simp at h
      | ok m' =>
        rw [ht] at h
        simp only [Except.ok.injEq] at h
        subst h
        show m'.statusOf ty f = some Finished
        by_cases hty : ty0 = MapTask ∨ ty0 = ReduceTask
        · cases hr : s.master.record ty0 f0 with
          | none =>
            rw [TimeOutDetection_absent hty hr] at ht
            simp at ht
          | some d =>
            rw [TimeOutDetection_present hr] at ht
            simp only [Except.ok.injEq] at ht
            rw [← ht]
            split
            · rename_i hp
              apply finished_setStatus (Or.inl _) hfin
              simp [Master.statusOf, hr, hp]
            · exact hfin
        · rw [not_or] at hty
          rw [TimeOutDetection_other hty.1 hty.2] at ht
          simp only [Except.ok.injEq] at ht
          rw [← ht]
          exact hfin
    · rw [if_neg ha] at h
      simp at h
  | Done =>
    simp only [fineStep, Except.ok.injEq] at h
    subst h
    exact hfin

/-- Over every execution of the program, whatever the moments at which the
`CheckMasterStatus` goroutines make their reads and their writes, a record
that is `Finished` stays `Finished`. -/
theorem fineRun_finished {s s' : FineSys} {fops : List FineOp}
    (hrun : fineRun s fops = .ok s') {ty : Int} {f : String}
    (hfin : s.master.statusOf ty f = some Finished) :
    s'.master.statusOf ty f = some Finished := by
  induction fops generalizing s with
  | nil =>
    simp only [fineRun, Except.ok.injEq] at hrun
    rw [← hrun]
    exact hfin
  | cons op ops ih =>
    obtain ⟨sx, h1, h2⟩ := fineRun_cons hrun
    exact ih h2 (fineStep_finished h1 hfin)

/-- The watchdog invariant speaks of the records and of the armed watchdogs
only. -/
theorem WatchdogInv_of_eq {s s' : Sys} (hinv : WatchdogInv s)
    (hm : ∀ ty f, s'.master.statusOf ty f = s.master.statusOf ty f)
    (ha : s'.armed = s.armed) : WatchdogInv s' := by
  intro ty f
  rw [hm, ha]
  exact hinv ty f

/-- Every step of the program keeps the watchdog invariant: the steps of
`CheckMasterStatus` touch neither a record nor a watchdog, and the other steps
are those of `step`. -/
theorem fineStep_WatchdogInv {s s' : FineSys} {op : FineOp}
    (hinv : WatchdogInv { master := s.master, armed := s.armed, handed := [] })
    (h : fineStep s op = .ok s') :
    WatchdogInv { master := s'.master, armed := s'.armed, handed := [] } := by
  cases op with
  | GetUnStartedTask ord =>
    simp only [fineStep, Except.ok.injEq] at h
    subst h
    have hs : step { master := s.master, armed := s.armed, handed := [] }
        (Op.GetUnStartedTask ord)
        = .ok { master := (GetUnStartedTask s.master ord).master
                armed := s.armed ++ watchdogs (GetUnStartedTask s.master ord).started
                handed := [] ++ watchdogs (GetUnStartedTask s.master ord).started } := rfl
    have h2 := step_WatchdogInv hinv hs
    exact WatchdogInv_of_eq h2 (fun _ _ => rfl) rfl
  | ReportFinishedTask ty f =>
    simp only [fineStep] at h
    cases hrep : ReportFinishedTask s.master { TaskType := ty, File := f } with
    | error e =>
      rw [hrep] at h
      simp at h
    | ok r =>
      obtain ⟨m', reply, started⟩ := r
      rw [hrep] at h
      simp only [Except.ok.injEq] at h
      subst h
      have hs : step { master := s.master, armed := s.armed, handed := [] }
          (Op.ReportFinishedTask ty f)
          = .ok { master := if Goroutine.CheckMasterStatus ∈ started
                            then CheckMasterStatus m' else m'
                  armed := s.armed
                  handed := [] } := by
        simp only [step, reportAndCheck, hrep]
      have h2 := step_WatchdogInv hinv hs
      refine WatchdogInv_of_eq h2 (fun ty' f' => ?_) rfl
      show m'.statusOf ty' f'
        = (if Goroutine.CheckMasterStatus ∈ started then CheckMasterStatus m'
            else m').statusOf ty' f'
      split
      · rw [statusOf_CheckMasterStatus]
      · rfl
  | CheckMasterStatus pt =>
    simp only [fineStep] at h
    by_cases hp : pt ∈ s.checks
    · rw [if_pos hp] at h
      simp only [Except.ok.injEq] at h
      subst h
      exact WatchdogInv_of_eq hinv (fun ty f => statusOf_CheckMasterStatus_at _ pt ty f) rfl
    · rw [if_neg hp] at h
      simp at h
  | TimeOutDetection f ty =>
    simp only [fineStep] at h
    by_cases ha : (f, ty) ∈ s.armed
    · rw [if_pos ha] at h
      cases ht : TimeOutDetection s.master f ty with
      | error e =>
        rw [ht] at h
        simp at h
      | ok m' =>
        rw [ht] at h
        simp only [Except.ok.injEq] at h
        subst h
        have hs : step { master := s.master, armed := s.armed, handed := [] }
            (Op.TimeOutDetection f ty)
            = .ok { master := m', armed := s.armed.erase (f, ty), handed := [] } := by
          simp only [step, ha, if_true, ht]
        have h2 := step_WatchdogInv hinv hs
        exact WatchdogInv_of_eq h2 (fun _ _ => rfl) rfl
    · rw [if_neg ha] at h
      simp at h
  | Done =>
    simp only [fineStep, Except.ok.injEq] at h
    subst h
    exact hinv

/-- In every state of the program reached from `MakeMaster files nReduce`,
whatever the moments at which the `CheckMasterStatus` goroutines make their
reads and their writes: no task has two pending watchdogs, a `Processing`
task has exactly one and an `UnStarted` task has none. -/
theorem fineRun_watchdogs (files : List String) (nReduce : Int) (fops : List FineOp)
    (s : FineSys) (hrun : fineRun (MakeFineSys files nReduce) fops = .ok s)
    (ty : Int) (f : String) :
    s.armed.count (f, ty) ≤ 1
      ∧ (s.master.statusOf ty f = some Processing → s.armed.count (f, ty) = 1)
      ∧ (s.master.statusOf ty f = some UnStarted → s.armed.count (f, ty) = 0) := by
  have key : ∀ (ops : List FineOp) (s0 s1 : FineSys), fineRun s0 ops = .ok s1 →
      WatchdogInv { master := s0.master, armed := s0.armed, handed := [] } →
      WatchdogInv { master := s1.master, armed := s1.armed, handed := [] } := by
    intro ops
    induction ops with
    | nil =>
      intro s0 s1 h hinv
      simp only [fineRun, Except.ok.injEq] at h
      rw [← h]
      exact hinv
    | cons op ops ih =>
      intro s0 s1 h hinv
      obtain ⟨sx, h1, h2⟩ := fineRun_cons h
      exact ih sx s1 h2 (fineStep_WatchdogInv hinv h1)
  exact key fops _ _ hrun (WatchdogInv_MakeSys files nReduce) ty f

end MR
